import Mathlib

/-!
Verification development for the gomoddepgraph repository.

This file gives a shallow embedding of the core data model and algorithms of
the repository (module identifiers and their ordering, requirement graphs,
the MVS resolver, the surprise-dependency computation, the SAT encoding, the
requirement unifier and the concurrent graph walker) and proves or refutes
the behavioural claims made about them.

Module versions are Go strings; all version strings handled by the code are
ASCII, so we model Go byte strings as Lean character lists (for ASCII the
byte-wise and character-wise orders agree).
-/

namespace Gmdg

/-! ## Integer-valued comparators and their laws

Go's semver.Compare, strings.Compare and the derived ModuleIdCompare all
return an Int that is negative, zero or positive.  IsCmpOn bundles the laws
we need about such comparators, relativised to a predicate P describing the
values the comparator is actually applied to.
-/

/-- Laws of a Go-style three-way comparator on the subtype cut out by P:
antisymmetry of sign, congruence of comparison at zero, and transitivity of
the strict negative relation. -/
structure IsCmpOn {α : Type} (P : α → Prop) (c : α → α → Int) : Prop where
  symm : ∀ x y, P x → P y → c x y = -(c y x)
  zero_congr : ∀ x y z, P x → P y → P z → c x y = 0 → c x z = c y z
  lt_trans : ∀ x y z, P x → P y → P z → c x y < 0 → c y z < 0 → c x z < 0

/-- Comparator laws without a domain restriction. -/
def IsCmp {α : Type} (c : α → α → Int) : Prop := IsCmpOn (fun _ => True) c

theorem isCmp_def {α : Type} {c : α → α → Int} (h : IsCmp c) : IsCmpOn (fun _ => True) c := h

theorem IsCmpOn.refl {α : Type} {P : α → Prop} {c : α → α → Int}
    (h : IsCmpOn P c) {x : α} (hx : P x) : c x x = 0 := by
  have := h.symm x x hx hx
  omega

theorem IsCmpOn.zero_congr_right {α : Type} {P : α → Prop} {c : α → α → Int}
    (h : IsCmpOn P c) {x y z : α} (hx : P x) (hy : P y) (hz : P z)
    (h0 : c y z = 0) : c x y = c x z := by
  have h1 : c z y = 0 := by
    have := h.symm y z hy hz
    omega
  have h2 : c z x = c y x := h.zero_congr z y x hz hy hx h1
  have h3 := h.symm x y hx hy
  have h4 := h.symm x z hx hz
  omega

theorem IsCmpOn.le_trans {α : Type} {P : α → Prop} {c : α → α → Int}
    (h : IsCmpOn P c) {x y z : α} (hx : P x) (hy : P y) (hz : P z)
    (h1 : c x y ≤ 0) (h2 : c y z ≤ 0) : c x z ≤ 0 := by
  rcases lt_or_eq_of_le h1 with h1' | h1'
  · rcases lt_or_eq_of_le h2 with h2' | h2'
    · exact le_of_lt (h.lt_trans x y z hx hy hz h1' h2')
    · have := h.zero_congr_right hx hy hz h2'
      omega
  · have := h.zero_congr x y z hx hy hz h1'
    omega

theorem IsCmpOn.ge_trans {α : Type} {P : α → Prop} {c : α → α → Int}
    (h : IsCmpOn P c) {x y z : α} (hx : P x) (hy : P y) (hz : P z)
    (h1 : 0 ≤ c x y) (h2 : 0 ≤ c y z) : 0 ≤ c x z := by
  have h1' : c y x ≤ 0 := by have := h.symm x y hx hy; omega
  have h2' : c z y ≤ 0 := by have := h.symm y z hy hz; omega
  have := h.le_trans hz hy hx h2' h1'
  have := h.symm x z hx hz
  omega

/-- Sequential composition of comparators: the Go idiom of returning the
first comparator result if nonzero, otherwise falling through. -/
def thenCmp (a b : Int) : Int := if a = 0 then b else a

theorem thenCmp_of_ne {a b : Int} (h : a ≠ 0) : thenCmp a b = a := by
  simp [thenCmp, h]

theorem thenCmp_of_eq {a b : Int} (h : a = 0) : thenCmp a b = b := by
  simp [thenCmp, h]

theorem thenCmp_neg {a b a2 b2 : Int} (ha : a = -a2) (hb : b = -b2) :
    thenCmp a b = -(thenCmp a2 b2) := by
  unfold thenCmp
  by_cases h : a2 = 0 <;> simp [h, ha, hb] <;> omega

theorem thenCmp_eq_zero {a b : Int} : thenCmp a b = 0 ↔ a = 0 ∧ b = 0 := by
  unfold thenCmp
  by_cases h : a = 0 <;> simp [h]

theorem thenCmp_neg_iff {a b : Int} : thenCmp a b < 0 ↔ a < 0 ∨ (a = 0 ∧ b < 0) := by
  unfold thenCmp
  by_cases h : a = 0 <;> simp [h] <;> omega

/-! ## Character-list comparison (Go string comparison)

Go compares strings byte-wise; for the ASCII strings handled here that is
the same as comparing the character lists. listCmp mirrors strings.Compare
and listLt mirrors the Go built-in less-than on strings.
-/

/-- Three-way lexicographic comparison of character lists, as
strings.Compare does for Go strings. -/
def listCmp : List Char → List Char → Int
  | [], [] => 0
  | [], _ :: _ => -1
  | _ :: _, [] => 1
  | a :: x, b :: y => if a < b then -1 else if b < a then 1 else listCmp x y

/-- Boolean lexicographic strict order on character lists, as the Go
built-in less-than on strings. -/
def listLt : List Char → List Char → Bool
  | [], [] => false
  | [], _ :: _ => true
  | _ :: _, [] => false
  | a :: x, b :: y => if a < b then true else if b < a then false else listLt x y

theorem listCmp_eq_zero_iff : ∀ {x y : List Char}, listCmp x y = 0 ↔ x = y := by
  intro x
  induction x with
  | nil => intro y; cases y <;> simp [listCmp]
  | cons a x ih =>
    intro y
    cases y with
    | nil => simp [listCmp]
    | cons b y =>
      by_cases h1 : a < b
      · simp [listCmp, h1]
        intro h; exact absurd (h ▸ h1) (lt_irrefl b)
      · by_cases h2 : b < a
        · simp [listCmp, h1, h2]
          intro h; exact absurd (h ▸ h2) (lt_irrefl b)
        · have hab : a = b := le_antisymm (le_of_not_lt h2) (le_of_not_lt h1)
          simp [listCmp, h1, h2, hab, ih]

theorem listCmp_symm : ∀ x y : List Char, listCmp x y = -(listCmp y x) := by
  intro x
  induction x with
  | nil => intro y; cases y <;> simp [listCmp]
  | cons a x ih =>
    intro y
    cases y with
    | nil => simp [listCmp]
    | cons b y =>
      by_cases h1 : a < b
      · have h2 : ¬ b < a := asymm h1
        simp [listCmp, h1, h2]
      · by_cases h2 : b < a
        · simp [listCmp, h1, h2]
        · simp [listCmp, h1, h2, ih y]

theorem listCmp_lt_trans : ∀ x y z : List Char,
    listCmp x y < 0 → listCmp y z < 0 → listCmp x z < 0 := by
  intro x
  induction x with
  | nil =>
    intro y z hxy hyz
    cases y with
    | nil => simp [listCmp] at hxy
    | cons b y =>
      cases z with
      | nil => simp [listCmp] at hyz
      | cons c z => simp [listCmp]
  | cons a x ih =>
    intro y z hxy hyz
    cases y with
    | nil => simp [listCmp] at hxy
    | cons b y =>
      cases z with
      | nil => simp [listCmp] at hyz
      | cons c z =>
        by_cases hab : a < b
        · by_cases hbc : b < c
          · have hac : a < c := lt_trans hab hbc
            simp [listCmp, hac]
          · by_cases hcb : c < b
            · simp [listCmp, hbc, hcb] at hyz
            · have hbc' : b = c := le_antisymm (le_of_not_lt hcb) (le_of_not_lt hbc)
              have hac : a < c := hbc' ▸ hab
              simp [listCmp, hac]
        · by_cases hba : b < a
          · simp [listCmp, hab, hba] at hxy
          · have hab' : a = b := le_antisymm (le_of_not_lt hba) (le_of_not_lt hab)
            by_cases hbc : b < c
            · have hac : a < c := hab' ▸ hbc
              simp [listCmp, hac]
            · by_cases hcb : c < b
              · simp [listCmp, hbc, hcb] at hyz
              · have hbc' : b = c := le_antisymm (le_of_not_lt hcb) (le_of_not_lt hbc)
                have hac1 : ¬ a < c := by rw [hab', hbc']; exact lt_irrefl c
                have hac2 : ¬ c < a := by rw [hab', hbc']; exact lt_irrefl c
                simp [listCmp, hab, hba] at hxy
                simp [listCmp, hbc, hcb] at hyz
                simp [listCmp, hac1, hac2]
                exact ih y z hxy hyz

theorem listCmp_isCmp : IsCmp listCmp := by
  refine ⟨?_, ?_, ?_⟩
  · intro x y _ _; exact listCmp_symm x y
  · intro x y z _ _ _ h0
    have : x = y := listCmp_eq_zero_iff.mp h0
    rw [this]
  · intro x y z _ _ _ h1 h2; exact listCmp_lt_trans x y z h1 h2

theorem listLt_iff_listCmp_neg : ∀ x y : List Char, listLt x y = true ↔ listCmp x y < 0 := by
  intro x
  induction x with
  | nil => intro y; cases y <;> simp [listLt, listCmp]
  | cons a x ih =>
    intro y
    cases y with
    | nil => simp [listLt, listCmp]
    | cons b y =>
      by_cases h1 : a < b
      · simp [listLt, listCmp, h1]
      · by_cases h2 : b < a
        · simp [listLt, listCmp, h1, h2]
        · simp [listLt, listCmp, h1, h2, ih y]

/-- Three-way comparison on natural numbers (used for length comparison of
decimal strings). -/
def natCmp (m n : Nat) : Int := if m < n then -1 else if n < m then 1 else 0

theorem natCmp_eq_zero_iff {m n : Nat} : natCmp m n = 0 ↔ m = n := by
  unfold natCmp
  rcases Nat.lt_trichotomy m n with h | h | h <;> simp [h] <;> omega

theorem natCmp_symm (m n : Nat) : natCmp m n = -(natCmp n m) := by
  unfold natCmp
  rcases Nat.lt_trichotomy m n with h | h | h <;> simp [h] <;> omega

theorem natCmp_neg_iff {m n : Nat} : natCmp m n < 0 ↔ m < n := by
  unfold natCmp
  rcases Nat.lt_trichotomy m n with h | h | h <;> simp [h] <;> omega

/-! ## The semver comparator

These definitions port golang.org/x/mod/semver (the library that
ModuleIdCompare, ResolveMvs, UnifyRequirements and DependencyGraph.Selected
delegate version comparison to).  Index-based Go scans become
takeWhile/dropWhile decompositions of the character list; the behaviour is
the same character by character.
-/

/-- Decimal digit test, as in the Go scanner. -/
def isDigitCh (c : Char) : Bool := '0' ≤ c && c ≤ '9'

/-- Identifier characters of semver identifiers (isIdentChar in Go):
ASCII letters, digits and hyphen. -/
def isIdentCh (c : Char) : Bool :=
  ('A' ≤ c && c ≤ 'Z') || ('a' ≤ c && c ≤ 'z') || ('0' ≤ c && c ≤ '9') || c = '-'

/-- Test that a string consists only of digits (isNum in Go; true on the
empty string, as in Go). -/
def isNumStr (v : List Char) : Bool := v.all isDigitCh

/-- Test for an all-digit identifier with a forbidden leading zero
(isBadNum in Go). -/
def isBadNum (v : List Char) : Bool :=
  v.all isDigitCh && decide (1 < v.length) && v.head? = some '0'

/-- Split a character list at every dot.  The result is always nonempty and
its elements never contain a dot; joining the pieces with dots restores the
input.  This mirrors how the Go scanners delimit semver identifiers. -/
def splitOnDot : List Char → List (List Char)
  | [] => [[]]
  | c :: rest =>
    match splitOnDot rest with
    | [] => [[]]
    | d :: ds => if c = '.' then [] :: d :: ds else (c :: d) :: ds

/-- Join identifier pieces with dots (inverse of splitOnDot). -/
def joinDots : List (List Char) → List Char
  | [] => []
  | [d] => d
  | d :: ds => d ++ '.' :: joinDots ds

theorem splitOnDot_ne_nil : ∀ s : List Char, splitOnDot s ≠ [] := by
  intro s
  cases s with
  | nil => simp [splitOnDot]
  | cons c rest =>
    unfold splitOnDot
    cases h : splitOnDot rest with
    | nil => simp
    | cons d ds => by_cases hc : c = '.' <;> simp [hc]

theorem joinDots_splitOnDot : ∀ s : List Char, joinDots (splitOnDot s) = s := by
  intro s
  induction s with
  | nil => simp [splitOnDot, joinDots]
  | cons c rest ih =>
    unfold splitOnDot
    cases h : splitOnDot rest with
    | nil => exact absurd h (splitOnDot_ne_nil rest)
    | cons d ds =>
      rw [h] at ih
      by_cases hc : c = '.'
      · subst hc
        simp only [if_pos rfl]
        cases ds <;> simp_all [joinDots]
      · simp only [if_neg hc]
        cases ds <;> simp_all [joinDots]

theorem splitOnDot_no_dot : ∀ (s : List Char) (d : List Char),
    d ∈ splitOnDot s → '.' ∉ d := by
  intro s
  induction s with
  | nil => intro d hd; simp [splitOnDot] at hd; simp [hd]
  | cons c rest ih =>
    intro d hd
    unfold splitOnDot at hd
    cases h : splitOnDot rest with
    | nil => exact absurd h (splitOnDot_ne_nil rest)
    | cons e es =>
      rw [h] at hd
      by_cases hc : c = '.'
      · simp only [if_pos hc] at hd
        rcases List.mem_cons.mp hd with hd1 | hd1
        · simp [hd1]
        · exact ih d (by rw [h]; exact hd1)
      · simp only [if_neg hc] at hd
        rcases List.mem_cons.mp hd with hd1 | hd1
        · subst hd1
          intro hmem
          rcases List.mem_cons.mp hmem with hm | hm
          · exact hc hm.symm
          · exact ih e (by rw [h]; exact .head _) hm
        · exact ih d (by rw [h]; exact .tail _ hd1)

/-- Scan a decimal number at the head of the list (parseInt in Go): the head
must be a digit and a multi-digit number must not start with zero. -/
def parseIntSv (v : List Char) : Option (List Char × List Char) :=
  match v with
  | [] => none
  | c :: _ =>
    if ¬ isDigitCh c then none
    else if c = '0' ∧ (v.takeWhile isDigitCh).length ≠ 1 then none
    else some (v.takeWhile isDigitCh, v.dropWhile isDigitCh)

/-- Validity of one prerelease identifier: nonempty, identifier characters
only, and numeric identifiers have no leading zero. -/
def okPreIdent (d : List Char) : Bool := decide (d ≠ []) && d.all isIdentCh && ¬ isBadNum d

/-- Validity of one build identifier: nonempty and identifier characters
only (leading zeros are allowed in build metadata). -/
def okBuildIdent (d : List Char) : Bool := decide (d ≠ []) && d.all isIdentCh

/-- Scan a prerelease suffix (parsePrerelease in Go): a hyphen followed by
dot-separated valid identifiers, stopping at a plus sign. -/
def parsePre (v : List Char) : Option (List Char × List Char) :=
  match v with
  | '-' :: w =>
    if (splitOnDot (w.takeWhile (fun c => c ≠ '+'))).all okPreIdent
    then some ('-' :: w.takeWhile (fun c => c ≠ '+'), w.dropWhile (fun c => c ≠ '+'))
    else none
  | _ => none

/-- Scan a build suffix (parseBuild in Go): a plus sign followed by
dot-separated nonempty identifiers, running to the end of the string. -/
def parseBuildSv (v : List Char) : Option (List Char × List Char) :=
  match v with
  | '+' :: w =>
    if (splitOnDot w).all okBuildIdent then some ('+' :: w, []) else none
  | _ => none

/-- Parsed form of a semver string (struct parsed in Go).  The short field
records the suffix that Canonical would append to a shortened version. -/
structure ParsedV where
  major : List Char
  minor : List Char
  patch : List Char
  short : List Char
  prerelease : List Char
  build : List Char
deriving DecidableEq

/-- Optional prerelease step of parse in Go: scan a prerelease suffix when
one starts here, otherwise scan nothing. -/
def preChunk (v : List Char) : Option (List Char × List Char) :=
  match v with
  | '-' :: _ => parsePre v
  | _ => some ([], v)

/-- Optional build step of parse in Go: scan a build suffix when one starts
here, otherwise scan nothing. -/
def buildChunk (v : List Char) : Option (List Char × List Char) :=
  match v with
  | '+' :: _ => parseBuildSv v
  | _ => some ([], v)

/-- Parse a semver string (parse in Go): a leading letter v, up to three
dotted decimal numbers with defaults for omitted minor/patch, then optional
prerelease and build parts, with nothing left over. -/
def parseSemver (v : List Char) : Option ParsedV :=
  match v with
  | 'v' :: w =>
    (parseIntSv w).bind (fun mj =>
      if mj.2 = [] then some ⟨mj.1, ['0'], ['0'], ['.', '0', '.', '0'], [], []⟩
      else
        match mj.2 with
        | '.' :: w1 =>
          (parseIntSv w1).bind (fun mn =>
            if mn.2 = [] then some ⟨mj.1, mn.1, ['0'], ['.', '0'], [], []⟩
            else
              match mn.2 with
              | '.' :: w2 =>
                (parseIntSv w2).bind (fun pt =>
                  (preChunk pt.2).bind (fun pr =>
                    (buildChunk pr.2).bind (fun bl =>
                      if bl.2 = [] then some ⟨mj.1, mn.1, pt.1, [], pr.1, bl.1⟩
                      else none)))
              | _ => none)
        | _ => none)
  | _ => none

/-- Compare two decimal number strings (compareInt in Go): equal strings are
equal, otherwise shorter means smaller, otherwise lexicographic. -/
def compareInt (x y : List Char) : Int :=
  if x = y then 0
  else if x.length < y.length then -1
  else if y.length < x.length then 1
  else if listLt x y then -1 else 1

/-- Compare two prerelease identifiers (the body of the dx and dy mismatch
case in comparePrerelease in Go): numeric identifiers sort before
alphanumeric ones, numeric identifiers compare by length then
lexicographically, alphanumeric ones lexicographically. -/
def identCmp (dx dy : List Char) : Int :=
  if dx = dy then 0
  else if isNumStr dx ≠ isNumStr dy then (if isNumStr dx then -1 else 1)
  else if isNumStr dx ∧ dx.length < dy.length then -1
  else if isNumStr dx ∧ dy.length < dx.length then 1
  else if listLt dx dy then -1 else 1

theorem length_dropWhile_le {α : Type} (p : α → Bool) (l : List α) :
    (l.dropWhile p).length ≤ l.length := by
  induction l with
  | nil => simp [List.dropWhile]
  | cons a l ih =>
    by_cases h : p a
    · simp only [List.dropWhile, h]
      exact Nat.le_succ_of_le ih
    · simp [List.dropWhile, h]

/-- Loop of comparePrerelease in Go: strip the separator character, split
off the identifier up to the next dot on each side, and compare; with the
loop exit convention that an exhausted left side is smaller. -/
def cprLoop (x y : List Char) : Int :=
  if x = [] then -1
  else if y = [] then 1
  else
    let dx := x.tail.takeWhile (fun c => c ≠ '.')
    let x2 := x.tail.dropWhile (fun c => c ≠ '.')
    let dy := y.tail.takeWhile (fun c => c ≠ '.')
    let y2 := y.tail.dropWhile (fun c => c ≠ '.')
    if dx = dy then cprLoop x2 y2 else identCmp dx dy
termination_by x.length
decreasing_by
  rename_i hx _
  have h1 : x.tail.length < x.length := by
    cases x with
    | nil => exact absurd rfl hx
    | cons a l => simp
  exact Nat.lt_of_le_of_lt (length_dropWhile_le _ _) h1

/-- Compare prerelease suffixes (comparePrerelease in Go): the empty
prerelease is largest, otherwise compare identifier lists. -/
def comparePrerelease (x y : List Char) : Int :=
  if x = y then 0
  else if x = [] then 1
  else if y = [] then -1
  else cprLoop x y

/-- Compare two version strings (semver.Compare in Go): invalid versions
compare equal to each other and below all valid ones; valid versions
compare by major, minor, patch and prerelease, ignoring build metadata. -/
def semverCompare (v w : String) : Int :=
  match parseSemver v.data, parseSemver w.data with
  | none, none => 0
  | none, some _ => -1
  | some _, none => 1
  | some pv, some pw =>
    thenCmp (compareInt pv.major pw.major)
      (thenCmp (compareInt pv.minor pw.minor)
        (thenCmp (compareInt pv.patch pw.patch)
          (comparePrerelease pv.prerelease pw.prerelease)))

/-- Canonical form of a version (semver.Canonical in Go): empty for an
invalid version, otherwise the input with build metadata removed and any
omitted minor/patch filled in. -/
def semverCanonical (v : String) : String :=
  match parseSemver v.data with
  | none => ""
  | some p =>
    if p.build ≠ [] then String.mk (v.data.take (v.data.length - p.build.length))
    else if p.short ≠ [] then String.mk (v.data ++ p.short)
    else v

/-- Build metadata suffix of a version (semver.Build in Go). -/
def semverBuild (v : String) : String :=
  match parseSemver v.data with
  | none => ""
  | some p => String.mk p.build

/-- Version half of ModuleId.Check: the version is nonempty and already in
canonical form with its build suffix (moduleid.go lines 44 to 56; the
module.Check path checks are not needed by any claim). -/
def versionCheckOk (v : String) : Prop :=
  v ≠ "" ∧ semverCanonical v ++ semverBuild v = v

instance (v : String) : Decidable (versionCheckOk v) := by
  unfold versionCheckOk
  infer_instance

/-! ## Laws of the semver comparator -/

theorem isCmpOn_congr {α : Type} {P : α → Prop} {c1 c2 : α → α → Int}
    (h : ∀ x y, P x → P y → c1 x y = c2 x y) (h2 : IsCmpOn P c2) : IsCmpOn P c1 := by
  refine ⟨?_, ?_, ?_⟩
  · intro x y hx hy
    rw [h x y hx hy, h y x hy hx]
    exact h2.symm x y hx hy
  · intro x y z hx hy hz h0
    rw [h x z hx hz, h y z hy hz]
    exact h2.zero_congr x y z hx hy hz (by rw [← h x y hx hy]; exact h0)
  · intro x y z hx hy hz h1 h2'
    rw [h x z hx hz]
    exact h2.lt_trans x y z hx hy hz (by rw [← h x y hx hy]; exact h1)
      (by rw [← h y z hy hz]; exact h2')

theorem listCmp_vals (x y : List Char) :
    listCmp x y = -1 ∨ listCmp x y = 0 ∨ listCmp x y = 1 := by
  induction x generalizing y with
  | nil => cases y <;> simp [listCmp]
  | cons a x ih =>
    cases y with
    | nil => simp [listCmp]
    | cons b y =>
      by_cases h1 : a < b
      · simp [listCmp, h1]
      · by_cases h2 : b < a
        · simp [listCmp, h1, h2]
        · simpa [listCmp, h1, h2] using ih y

/-- Comparator built from two natural-number keys followed by a base
comparator, combined lexicographically. -/
def keyCmp2 {α : Type} (k1 k2 : α → Nat) (c : α → α → Int) (x y : α) : Int :=
  thenCmp (natCmp (k1 x) (k1 y)) (thenCmp (natCmp (k2 x) (k2 y)) (c x y))

theorem keyCmp2_isCmp {α : Type} {k1 k2 : α → Nat} {c : α → α → Int}
    (hc : IsCmp c) : IsCmp (keyCmp2 k1 k2 c) := by
  refine ⟨?_, ?_, ?_⟩
  · intro x y _ _
    exact thenCmp_neg (natCmp_symm _ _) (thenCmp_neg (natCmp_symm _ _)
      (hc.symm x y trivial trivial))
  · intro x y z _ _ _ h0
    rcases thenCmp_eq_zero.mp h0 with ⟨ha, hb⟩
    rcases thenCmp_eq_zero.mp hb with ⟨hb1, hb2⟩
    have e1 : k1 x = k1 y := natCmp_eq_zero_iff.mp ha
    have e2 : k2 x = k2 y := natCmp_eq_zero_iff.mp hb1
    have e3 : ∀ w, c x w = c y w := fun w => hc.zero_congr x y w trivial trivial trivial hb2
    unfold keyCmp2
    rw [e1, e2, e3]
  · intro x y z _ _ _ h1 h2
    unfold keyCmp2 at h1 h2 ⊢
    rcases thenCmp_neg_iff.mp h1 with ha | ⟨ha, hb⟩
    · rcases thenCmp_neg_iff.mp h2 with ha2 | ⟨ha2, hb2⟩
      · refine thenCmp_neg_iff.mpr (Or.inl ?_)
        rw [natCmp_neg_iff] at ha ha2 ⊢
        omega
      · have : k1 y = k1 z := natCmp_eq_zero_iff.mp ha2
        exact thenCmp_neg_iff.mpr (Or.inl (this ▸ ha))
    · have e1 : k1 x = k1 y := natCmp_eq_zero_iff.mp ha
      rcases thenCmp_neg_iff.mp h2 with ha2 | ⟨ha2, hb2⟩
      · exact thenCmp_neg_iff.mpr (Or.inl (e1 ▸ ha2))
      · have e2 : k1 y = k1 z := natCmp_eq_zero_iff.mp ha2
        refine thenCmp_neg_iff.mpr (Or.inr ⟨by rw [e1, e2]; exact natCmp_eq_zero_iff.mpr rfl, ?_⟩)
        rcases thenCmp_neg_iff.mp hb with hc1 | ⟨hc1, hc2⟩
        · rcases thenCmp_neg_iff.mp hb2 with hd1 | ⟨hd1, hd2⟩
          · refine thenCmp_neg_iff.mpr (Or.inl ?_)
            rw [natCmp_neg_iff] at hc1 hd1 ⊢
            omega
          · have : k2 y = k2 z := natCmp_eq_zero_iff.mp hd1
            exact thenCmp_neg_iff.mpr (Or.inl (this ▸ hc1))
        · have e3 : k2 x = k2 y := natCmp_eq_zero_iff.mp hc1
          rcases thenCmp_neg_iff.mp hb2 with hd1 | ⟨hd1, hd2⟩
          · exact thenCmp_neg_iff.mpr (Or.inl (e3 ▸ hd1))
          · have e4 : k2 y = k2 z := natCmp_eq_zero_iff.mp hd1
            refine thenCmp_neg_iff.mpr (Or.inr ⟨by rw [e3, e4]; exact natCmp_eq_zero_iff.mpr rfl,
              hc.lt_trans x y z trivial trivial trivial hc2 hd2⟩)

theorem compareInt_eq_key (x y : List Char) :
    compareInt x y = keyCmp2 List.length (fun _ => 0) listCmp x y := by
  unfold compareInt keyCmp2
  by_cases hxy : x = y
  · subst hxy
    simp [natCmp, thenCmp, listCmp_eq_zero_iff.mpr rfl]
  · by_cases h1 : x.length < y.length
    · simp [natCmp, h1, thenCmp, hxy]
    · by_cases h2 : y.length < x.length
      · have h3 : ¬ x.length < y.length := h1
        simp [natCmp, h2, h3, thenCmp, hxy]
      · have hlen : x.length = y.length := by omega
        have hz : natCmp x.length y.length = 0 := natCmp_eq_zero_iff.mpr hlen
        have hz0 : natCmp 0 0 = 0 := natCmp_eq_zero_iff.mpr rfl
        rw [if_neg hxy, if_neg h1, if_neg h2, thenCmp_of_eq hz, thenCmp_of_eq hz0]
        rcases listCmp_vals x y with hv | hv | hv
        · have : listLt x y = true := (listLt_iff_listCmp_neg x y).mpr (by omega)
          simp [this, hv]
        · exact absurd (listCmp_eq_zero_iff.mp hv) hxy
        · have : ¬ listLt x y = true := by
            intro h
            have := (listLt_iff_listCmp_neg x y).mp h
            omega
          simp [this, hv]

theorem compareInt_isCmp : IsCmp compareInt :=
  isCmpOn_congr (fun x y _ _ => compareInt_eq_key x y) (keyCmp2_isCmp listCmp_isCmp)

theorem compareInt_eq_zero_iff {x y : List Char} : compareInt x y = 0 ↔ x = y := by
  constructor
  · intro h
    rw [compareInt_eq_key] at h
    unfold keyCmp2 at h
    rcases thenCmp_eq_zero.mp h with ⟨_, hb⟩
    rcases thenCmp_eq_zero.mp hb with ⟨_, hb2⟩
    exact listCmp_eq_zero_iff.mp hb2
  · intro h
    subst h
    simp [compareInt]

/-- Numeric rank of a prerelease identifier: numeric identifiers sort before
alphanumeric ones. -/
def identRank (d : List Char) : Nat := if isNumStr d then 0 else 1

/-- Length key of a prerelease identifier: only numeric identifiers compare
by length. -/
def identLenKey (d : List Char) : Nat := if isNumStr d then d.length else 0

theorem identCmp_eq_key (a b : List Char) :
    identCmp a b = keyCmp2 identRank identLenKey listCmp a b := by
  unfold identCmp keyCmp2 identRank identLenKey
  by_cases hab : a = b
  · subst hab
    simp [natCmp, thenCmp, listCmp_eq_zero_iff.mpr rfl]
  · rw [if_neg hab]
    by_cases hna : isNumStr a
    · by_cases hnb : isNumStr b
      · have hflag : ¬ (isNumStr a ≠ isNumStr b) := by simp [hna, hnb]
        rw [if_neg hflag, if_pos hna, if_pos hnb]
        have hz : natCmp 0 0 = 0 := natCmp_eq_zero_iff.mpr rfl
        rw [thenCmp_of_eq hz]
        by_cases h1 : a.length < b.length
        · simp [h1, hna, hnb, natCmp, thenCmp]
        · by_cases h2 : b.length < a.length
          · have h1' : ¬ (isNumStr a = true ∧ a.length < b.length) := by tauto
            simp only [if_neg h1', hna, hnb, true_and, if_pos h2]
            simp [natCmp, h1, h2, thenCmp]
          · have hlen : a.length = b.length := by omega
            have h1' : ¬ (isNumStr a = true ∧ a.length < b.length) := by tauto
            have h2' : ¬ (isNumStr a = true ∧ b.length < a.length) := by tauto
            rw [if_neg h1', if_neg h2', if_pos hna, if_pos hnb,
              thenCmp_of_eq (natCmp_eq_zero_iff.mpr hlen)]
            rcases listCmp_vals a b with hv | hv | hv
            · have : listLt a b = true := (listLt_iff_listCmp_neg a b).mpr (by omega)
              simp [this, hv]
            · exact absurd (listCmp_eq_zero_iff.mp hv) hab
            · have : ¬ listLt a b = true := by
                intro h
                have := (listLt_iff_listCmp_neg a b).mp h
                omega
              simp [this, hv]
      · have hflag : (isNumStr a ≠ isNumStr b) := by simp [hna, hnb]
        rw [if_pos hflag, if_pos hna]
        simp [hna, hnb, natCmp, thenCmp]
    · by_cases hnb : isNumStr b
      · have hflag : (isNumStr a ≠ isNumStr b) := by simp [hna, hnb]
        rw [if_pos hflag, if_neg hna]
        simp [hna, hnb, natCmp, thenCmp]
      · have hflag : ¬ (isNumStr a ≠ isNumStr b) := by simp [hna, hnb]
        have h1' : ¬ (isNumStr a = true ∧ a.length < b.length) := by tauto
        have h2' : ¬ (isNumStr a = true ∧ b.length < a.length) := by tauto
        rw [if_neg hflag, if_neg h1', if_neg h2']
        have hz : natCmp (if isNumStr a then 0 else 1) (if isNumStr b then 0 else 1) = 0 := by
          simp [hna, hnb, natCmp]
        have hz2 : natCmp (if isNumStr a then a.length else 0)
            (if isNumStr b then b.length else 0) = 0 := by
          simp [hna, hnb, natCmp]
        rw [thenCmp_of_eq hz, thenCmp_of_eq hz2]
        rcases listCmp_vals a b with hv | hv | hv
        · have : listLt a b = true := (listLt_iff_listCmp_neg a b).mpr (by omega)
          simp [this, hv]
        · exact absurd (listCmp_eq_zero_iff.mp hv) hab
        · have : ¬ listLt a b = true := by
            intro h
            have := (listLt_iff_listCmp_neg a b).mp h
            omega
          simp [this, hv]

theorem identCmp_isCmp : IsCmp identCmp :=
  isCmpOn_congr (fun x y _ _ => identCmp_eq_key x y) (keyCmp2_isCmp listCmp_isCmp)

theorem identCmp_eq_zero_iff {a b : List Char} : identCmp a b = 0 ↔ a = b := by
  constructor
  · intro h
    rw [identCmp_eq_key] at h
    unfold keyCmp2 at h
    rcases thenCmp_eq_zero.mp h with ⟨_, hb⟩
    rcases thenCmp_eq_zero.mp hb with ⟨_, hb2⟩
    exact listCmp_eq_zero_iff.mp hb2
  · intro h
    subst h
    simp [identCmp]

/-- Structural comparison of prerelease identifier lists: the comparison
that the cprLoop scan implements, with the Go loop-exit convention that an
exhausted left-hand side is smaller. -/
def idsCmp : List (List Char) → List (List Char) → Int
  | [], _ => -1
  | _ :: _, [] => 1
  | d :: ds, e :: es => if d = e then idsCmp ds es else identCmp d e

theorem takeWhile_all {α : Type} {p : α → Bool} : ∀ {l : List α},
    (∀ a ∈ l, p a) → l.takeWhile p = l := by
  intro l
  induction l with
  | nil => intro; rfl
  | cons a l ih =>
    intro h
    have ha : p a := h a (.head _)
    simp only [List.takeWhile, ha]
    rw [ih (fun b hb => h b (.tail _ hb))]

theorem dropWhile_all {α : Type} {p : α → Bool} : ∀ {l : List α},
    (∀ a ∈ l, p a) → l.dropWhile p = [] := by
  intro l
  induction l with
  | nil => intro; rfl
  | cons a l ih =>
    intro h
    have ha : p a := h a (.head _)
    simp only [List.dropWhile, ha]
    exact ih (fun b hb => h b (.tail _ hb))

theorem takeWhile_append_all {α : Type} {p : α → Bool} : ∀ {l r : List α},
    (∀ a ∈ l, p a) → (l ++ r).takeWhile p = l ++ r.takeWhile p := by
  intro l
  induction l with
  | nil => intro r _; rfl
  | cons a l ih =>
    intro r h
    have ha : p a := h a (.head _)
    simp only [List.cons_append, List.takeWhile, ha, List.append_eq]
    rw [ih (fun b hb => h b (.tail _ hb))]

theorem dropWhile_append_all {α : Type} {p : α → Bool} : ∀ {l r : List α},
    (∀ a ∈ l, p a) → (l ++ r).dropWhile p = r.dropWhile p := by
  intro l
  induction l with
  | nil => intro r _; rfl
  | cons a l ih =>
    intro r h
    have ha : p a := h a (.head _)
    simp only [List.cons_append, List.dropWhile, ha, List.append_eq]
    exact ih (fun b hb => h b (.tail _ hb))

/-- Correspondence between a raw loop state of cprLoop and the identifier
list it still has to process: the empty state stands for no identifiers, a
nonempty state is a separator character followed by the dot-joined
identifiers. -/
def RepOk (x : List Char) (ids : List (List Char)) : Prop :=
  (ids = [] ∧ x = []) ∨ (ids ≠ [] ∧ ∃ c, x = c :: joinDots ids)

theorem joinDots_cons (d : List Char) (ds : List (List Char)) :
    joinDots (d :: ds) = if ds = [] then d else d ++ '.' :: joinDots ds := by
  cases ds <;> simp [joinDots]

theorem idsCmp_ne_zero : ∀ a b : List (List Char), idsCmp a b ≠ 0 := by
  intro a
  induction a with
  | nil => intro b; simp [idsCmp]
  | cons d ds ih =>
    intro b
    cases b with
    | nil => simp [idsCmp]
    | cons e es =>
      by_cases h : d = e
      · simpa [idsCmp, h] using ih es
      · have : identCmp d e ≠ 0 := fun h0 => h (identCmp_eq_zero_iff.mp h0)
        simpa [idsCmp, h] using this

theorem idsCmp_symm_of_ne : ∀ a b : List (List Char), a ≠ b → idsCmp a b = -(idsCmp b a) := by
  intro a
  induction a with
  | nil =>
    intro b hab
    cases b with
    | nil => exact absurd rfl hab
    | cons e es => simp [idsCmp]
  | cons d ds ih =>
    intro b hab
    cases b with
    | nil => simp [idsCmp]
    | cons e es =>
      by_cases h : d = e
      · subst h
        have hne : ds ≠ es := fun h2 => hab (by rw [h2])
        simpa [idsCmp] using ih es hne
      · have h2 : e ≠ d := fun h2 => h h2.symm
        simp only [idsCmp, if_neg h, if_neg h2]
        exact identCmp_isCmp.symm d e trivial trivial

theorem idsCmp_lt_trans : ∀ a b c : List (List Char),
    idsCmp a b < 0 → idsCmp b c < 0 → idsCmp a c < 0 := by
  intro a
  induction a with
  | nil => intro b c _ _; simp [idsCmp]
  | cons d ds ih =>
    intro b c h1 h2
    cases b with
    | nil => simp [idsCmp] at h1
    | cons e es =>
      cases c with
      | nil => simp [idsCmp] at h2
      | cons f fs =>
        by_cases hde : d = e
        · subst hde
          simp only [idsCmp, if_pos rfl] at h1
          by_cases hef : d = f
          · subst hef
            simp only [idsCmp, if_pos rfl] at h2 ⊢
            exact ih es fs h1 h2
          · simp only [idsCmp, if_neg hef] at h2 ⊢
            exact h2
        · simp only [idsCmp, if_neg hde] at h1
          by_cases hef : e = f
          · subst hef
            have hdf : d ≠ e := hde
            simp only [idsCmp, if_neg hdf]
            exact h1
          · simp only [idsCmp, if_neg hef] at h2
            have hdf : identCmp d f < 0 :=
              identCmp_isCmp.lt_trans d e f trivial trivial trivial h1 h2
            have : d ≠ f := fun h0 => by
              rw [h0] at hdf
              rw [identCmp_isCmp.refl trivial] at hdf
              omega
            simp only [idsCmp, if_neg this]
            exact hdf

theorem cprLoop_eq_idsCmp : ∀ (ids : List (List Char)) (es : List (List Char))
    (x y : List Char), RepOk x ids → RepOk y es →
    (∀ d ∈ ids, '.' ∉ d) → (∀ d ∈ es, '.' ∉ d) →
    cprLoop x y = idsCmp ids es := by
  intro ids
  induction ids with
  | nil =>
    intro es x y hx _ _ _
    rcases hx with ⟨_, hx2⟩ | ⟨hne, _⟩
    · rw [hx2]
      rw [cprLoop]
      simp [idsCmp]
    · exact absurd rfl hne
  | cons d ds ih =>
    intro es x y hx hy hids hes
    rcases hx with ⟨hne, _⟩ | ⟨_, c, hx2⟩
    · exact absurd hne (by simp)
    · have hxne : x ≠ [] := by rw [hx2]; simp
      cases es with
      | nil =>
        rcases hy with ⟨_, hy2⟩ | ⟨hne, _⟩
        · rw [hy2]
          rw [cprLoop]
          simp [hxne, idsCmp]
        · exact absurd rfl hne
      | cons e es1 =>
        rcases hy with ⟨hne, _⟩ | ⟨_, c2, hy2⟩
        · exact absurd hne (by simp)
        · have hyne : y ≠ [] := by rw [hy2]; simp
          have hdotd : ∀ a ∈ d, (fun c => decide (c ≠ '.')) a = true := by
            intro a ha
            simp only [decide_eq_true_eq]
            intro h
            exact hids d (.head _) (h ▸ ha)
          have hdote : ∀ a ∈ e, (fun c => decide (c ≠ '.')) a = true := by
            intro a ha
            simp only [decide_eq_true_eq]
            intro h
            exact hes e (.head _) (h ▸ ha)
          have hxtail : x.tail = joinDots (d :: ds) := by rw [hx2]; rfl
          have hytail : y.tail = joinDots (e :: es1) := by rw [hy2]; rfl
          have hdx : x.tail.takeWhile (fun c => c ≠ '.') = d := by
            rw [hxtail, joinDots_cons]
            by_cases hds : ds = []
            · rw [if_pos hds]
              exact takeWhile_all hdotd
            · rw [if_neg hds, takeWhile_append_all hdotd]
              simp [List.takeWhile]
          have hx2' : x.tail.dropWhile (fun c => c ≠ '.') =
              if ds = [] then [] else '.' :: joinDots ds := by
            rw [hxtail, joinDots_cons]
            by_cases hds : ds = []
            · rw [if_pos hds, if_pos hds]
              exact dropWhile_all hdotd
            · rw [if_neg hds, if_neg hds, dropWhile_append_all hdotd]
              simp [List.dropWhile]
          have hdy : y.tail.takeWhile (fun c => c ≠ '.') = e := by
            rw [hytail, joinDots_cons]
            by_cases hes1 : es1 = []
            · rw [if_pos hes1]
              exact takeWhile_all hdote
            · rw [if_neg hes1, takeWhile_append_all hdote]
              simp [List.takeWhile]
          have hy2' : y.tail.dropWhile (fun c => c ≠ '.') =
              if es1 = [] then [] else '.' :: joinDots es1 := by
            rw [hytail, joinDots_cons]
            by_cases hes1 : es1 = []
            · rw [if_pos hes1, if_pos hes1]
              exact dropWhile_all hdote
            · rw [if_neg hes1, if_neg hes1, dropWhile_append_all hdote]
              simp [List.dropWhile]
          have hrepx2 : RepOk (x.tail.dropWhile (fun c => c ≠ '.')) ds := by
            rw [hx2']
            by_cases hds : ds = []
            · rw [if_pos hds]; exact Or.inl ⟨hds, rfl⟩
            · rw [if_neg hds]; exact Or.inr ⟨hds, '.', rfl⟩
          have hrepy2 : RepOk (y.tail.dropWhile (fun c => c ≠ '.')) es1 := by
            rw [hy2']
            by_cases hes1 : es1 = []
            · rw [if_pos hes1]; exact Or.inl ⟨hes1, rfl⟩
            · rw [if_neg hes1]; exact Or.inr ⟨hes1, '.', rfl⟩
          rw [cprLoop]
          simp only [if_neg hxne, if_neg hyne, hdx, hdy]
          by_cases hde : d = e
          · rw [if_pos hde]
            simp only [idsCmp, if_pos hde]
            exact ih es1 _ _ hrepx2 hrepy2
              (fun a ha => hids a (.tail _ ha)) (fun a ha => hes a (.tail _ ha))
          · rw [if_neg hde]
            simp [idsCmp, hde]

/-- Shape of every prerelease field produced by the parser: empty, or a
hyphen followed by a nonempty dot-joined list of dot-free identifiers. -/
def PreOk (x : List Char) : Prop :=
  x = [] ∨ ∃ ids, x = '-' :: joinDots ids ∧ ids ≠ [] ∧ ∀ d ∈ ids, '.' ∉ d

theorem comparePrerelease_eq_idsCmp {x y : List Char}
    {ids es : List (List Char)}
    (hx : x = '-' :: joinDots ids) (hy : y = '-' :: joinDots es)
    (hids : ids ≠ []) (hes1 : es ≠ [])
    (hd1 : ∀ d ∈ ids, '.' ∉ d) (hd2 : ∀ d ∈ es, '.' ∉ d)
    (hne : x ≠ y) :
    comparePrerelease x y = idsCmp ids es := by
  have hxne : x ≠ [] := by rw [hx]; simp
  have hyne : y ≠ [] := by rw [hy]; simp
  unfold comparePrerelease
  rw [if_neg hne, if_neg hxne, if_neg hyne]
  exact cprLoop_eq_idsCmp ids es x y (Or.inr ⟨hids, '-', hx⟩) (Or.inr ⟨hes1, '-', hy⟩) hd1 hd2

theorem comparePrerelease_zero_iff {x y : List Char} (hx : PreOk x) (hy : PreOk y) :
    comparePrerelease x y = 0 ↔ x = y := by
  constructor
  · intro h
    by_contra hne
    unfold comparePrerelease at h
    rw [if_neg hne] at h
    by_cases hxe : x = []
    · rw [if_pos hxe] at h
      omega
    · rw [if_neg hxe] at h
      by_cases hye : y = []
      · rw [if_pos hye] at h
        omega
      · rw [if_neg hye] at h
        rcases hx with hx0 | ⟨ids, hx1, hx2, hx3⟩
        · exact hxe hx0
        · rcases hy with hy0 | ⟨es, hy1, hy2, hy3⟩
          · exact hye hy0
          · rw [cprLoop_eq_idsCmp ids es x y (Or.inr ⟨hx2, '-', hx1⟩)
              (Or.inr ⟨hy2, '-', hy1⟩) hx3 hy3] at h
            exact idsCmp_ne_zero ids es h
  · intro h
    subst h
    simp [comparePrerelease]

theorem comparePrerelease_symm {x y : List Char} (hx : PreOk x) (hy : PreOk y) :
    comparePrerelease x y = -(comparePrerelease y x) := by
  by_cases hne : x = y
  · subst hne
    simp [comparePrerelease]
  · have hne2 : y ≠ x := fun h => hne h.symm
    rcases hx with hx0 | ⟨ids, hx1, hx2, hx3⟩
    · subst hx0
      have hyne : y ≠ [] := fun h => hne h.symm
      unfold comparePrerelease
      rw [if_neg hne, if_pos rfl, if_neg hne2, if_neg hyne, if_pos rfl]
      norm_num
    · rcases hy with hy0 | ⟨es, hy1, hy2, hy3⟩
      · subst hy0
        have hxne : x ≠ [] := hne
        unfold comparePrerelease
        rw [if_neg hne, if_neg hxne, if_pos rfl, if_neg hne2, if_pos rfl]
      · have hIJ : ids ≠ es := by
          intro h
          exact hne (by rw [hx1, hy1, h])
        rw [comparePrerelease_eq_idsCmp hx1 hy1 hx2 hy2 hx3 hy3 hne,
          comparePrerelease_eq_idsCmp hy1 hx1 hy2 hx2 hy3 hx3 hne2]
        exact idsCmp_symm_of_ne ids es hIJ

theorem comparePrerelease_isCmpOn : IsCmpOn PreOk comparePrerelease := by
  refine ⟨fun x y hx hy => comparePrerelease_symm hx hy, ?_, ?_⟩
  · intro x y z hx hy hz h0
    have : x = y := (comparePrerelease_zero_iff hx hy).mp h0
    rw [this]
  · intro x y z hx hy hz h1 h2
    by_cases hxy : x = y
    · rw [comparePrerelease_zero_iff hx hy |>.mpr hxy] at h1
      omega
    · by_cases hyz : y = z
      · rw [← hyz]
        exact h1
      · by_cases hxz : x = z
        · rw [← hxz] at h2
          rw [comparePrerelease_symm hx hy] at h1
          omega
        · rcases hx with hx0 | ⟨ids, hx1, hx2, hx3⟩
          · subst hx0
            unfold comparePrerelease at h1
            rw [if_neg hxy, if_pos rfl] at h1
            omega
          · have hxne : x ≠ [] := by rw [hx1]; simp
            rcases hy with hy0 | ⟨es, hy1, hy2, hy3⟩
            · subst hy0
              unfold comparePrerelease at h2
              rw [if_neg hyz, if_pos rfl] at h2
              omega
            · have hyne : y ≠ [] := by rw [hy1]; simp
              rcases hz with hz0 | ⟨fs, hz1, hz2, hz3⟩
              · subst hz0
                unfold comparePrerelease
                rw [if_neg hxz, if_neg hxne, if_pos rfl]
                omega
              · rw [comparePrerelease_eq_idsCmp hx1 hy1 hx2 hy2 hx3 hy3 hxy] at h1
                rw [comparePrerelease_eq_idsCmp hy1 hz1 hy2 hz2 hy3 hz3 hyz] at h2
                rw [comparePrerelease_eq_idsCmp hx1 hz1 hx2 hz2 hx3 hz3 hxz]
                exact idsCmp_lt_trans ids es fs h1 h2

theorem thenCmp_isCmpOn {α : Type} {P : α → Prop} {c1 c2 : α → α → Int}
    (h1 : IsCmpOn P c1) (h2 : IsCmpOn P c2) :
    IsCmpOn P (fun x y => thenCmp (c1 x y) (c2 x y)) := by
  refine ⟨?_, ?_, ?_⟩
  · intro x y hx hy
    exact thenCmp_neg (h1.symm x y hx hy) (h2.symm x y hx hy)
  · intro x y z hx hy hz h0
    rcases thenCmp_eq_zero.mp h0 with ⟨ha, hb⟩
    show thenCmp (c1 x z) (c2 x z) = thenCmp (c1 y z) (c2 y z)
    rw [h1.zero_congr x y z hx hy hz ha, h2.zero_congr x y z hx hy hz hb]
  · intro x y z hx hy hz ha hb
    have ha' : thenCmp (c1 x y) (c2 x y) < 0 := ha
    have hb' : thenCmp (c1 y z) (c2 y z) < 0 := hb
    show thenCmp (c1 x z) (c2 x z) < 0
    clear ha hb
    rename' ha' => ha, hb' => hb
    rcases thenCmp_neg_iff.mp ha with ha1 | ⟨ha1, ha2⟩
    · rcases thenCmp_neg_iff.mp hb with hb1 | ⟨hb1, hb2⟩
      · exact thenCmp_neg_iff.mpr (Or.inl (h1.lt_trans x y z hx hy hz ha1 hb1))
      · have := h1.zero_congr_right hx hy hz hb1
        exact thenCmp_neg_iff.mpr (Or.inl (by omega))
    · rcases thenCmp_neg_iff.mp hb with hb1 | ⟨hb1, hb2⟩
      · have := h1.zero_congr x y z hx hy hz ha1
        exact thenCmp_neg_iff.mpr (Or.inl (by omega))
      · refine thenCmp_neg_iff.mpr (Or.inr ⟨?_, h2.lt_trans x y z hx hy hz ha2 hb2⟩)
        have := h1.zero_congr x y z hx hy hz ha1
        omega

theorem isCmpOn_comap {α β : Type} {P : β → Prop} {c : β → β → Int}
    (h : IsCmpOn P c) (f : α → β) :
    IsCmpOn (fun a => P (f a)) (fun a b => c (f a) (f b)) := by
  refine ⟨?_, ?_, ?_⟩
  · intro x y hx hy; exact h.symm (f x) (f y) hx hy
  · intro x y z hx hy hz h0; exact h.zero_congr (f x) (f y) (f z) hx hy hz h0
  · intro x y z hx hy hz ha hb; exact h.lt_trans (f x) (f y) (f z) hx hy hz ha hb

theorem isCmpOn_mono {α : Type} {P Q : α → Prop} {c : α → α → Int}
    (h : IsCmpOn P c) (hq : ∀ x, Q x → P x) : IsCmpOn Q c := by
  refine ⟨?_, ?_, ?_⟩
  · intro x y hx hy; exact h.symm x y (hq x hx) (hq y hy)
  · intro x y z hx hy hz h0; exact h.zero_congr x y z (hq x hx) (hq y hy) (hq z hz) h0
  · intro x y z hx hy hz ha hb; exact h.lt_trans x y z (hq x hx) (hq y hy) (hq z hz) ha hb

theorem parsePre_inv {v t rest : List Char} (h : parsePre v = some (t, rest)) :
    v = t ++ rest ∧ PreOk t := by
  unfold parsePre at h
  split at h
  · rename_i w
    split at h
    · have hinj := Option.some.inj h
      injection hinj with h1 h2
      subst h1
      subst h2
      constructor
      · simp [List.takeWhile_append_dropWhile]
      · refine Or.inr ⟨splitOnDot (w.takeWhile (fun c => c ≠ '+')), ?_, splitOnDot_ne_nil _, ?_⟩
        · rw [joinDots_splitOnDot]
        · intro d hd
          exact splitOnDot_no_dot _ d hd
    · exact absurd h (by simp)
  · exact absurd h (by simp)

theorem parseBuildSv_inv {v t rest : List Char} (h : parseBuildSv v = some (t, rest)) :
    v = t ++ rest ∧ rest = [] := by
  unfold parseBuildSv at h
  split at h
  · split at h
    · have hinj := Option.some.inj h
      injection hinj with h1 h2
      subst h1
      subst h2
      simp
    · exact absurd h (by simp)
  · exact absurd h (by simp)

theorem preChunk_inv {v t rest : List Char} (h : preChunk v = some (t, rest)) :
    v = t ++ rest ∧ PreOk t := by
  unfold preChunk at h
  split at h
  · exact parsePre_inv h
  · have hinj := Option.some.inj h
    injection hinj with h1 h2
    subst h1
    subst h2
    exact ⟨rfl, Or.inl rfl⟩

theorem buildChunk_inv {v t rest : List Char} (h : buildChunk v = some (t, rest)) :
    v = t ++ rest := by
  unfold buildChunk at h
  split at h
  · exact (parseBuildSv_inv h).1
  · have hinj := Option.some.inj h
    injection hinj with h1 h2
    subst h1
    subst h2
    rfl

theorem parseIntSv_inv {v t rest : List Char} (h : parseIntSv v = some (t, rest)) :
    v = t ++ rest := by
  unfold parseIntSv at h
  split at h
  · exact absurd h (by simp)
  · split at h
    · exact absurd h (by simp)
    · split at h
      · exact absurd h (by simp)
      · have hinj := Option.some.inj h
        injection hinj with h1 h2
        subst h1
        subst h2
        simp [List.takeWhile_append_dropWhile]

/-- Inversion of the semver parser: a successful parse is a shortened form
with defaulted components, or a full form whose components concatenate back
to the input; in all cases the prerelease field is well shaped. -/
theorem parseSemver_cases {v : List Char} {p : ParsedV} (h : parseSemver v = some p) :
    (p.short = ['.', '0', '.', '0'] ∧ p.prerelease = [] ∧ p.build = [] ∧
      v = 'v' :: p.major) ∨
    (p.short = ['.', '0'] ∧ p.prerelease = [] ∧ p.build = [] ∧
      v = 'v' :: (p.major ++ '.' :: p.minor)) ∨
    (p.short = [] ∧ PreOk p.prerelease ∧
      v = 'v' :: (p.major ++ '.' :: (p.minor ++ '.' ::
        (p.patch ++ (p.prerelease ++ p.build))))) := by
  unfold parseSemver at h
  split at h
  · rename_i w
    rcases Option.bind_eq_some.mp h with ⟨mj, hmj, h⟩
    have hw : w = mj.1 ++ mj.2 := parseIntSv_inv (by rw [hmj])
    split at h
    · rename_i hmj2
      have hinj := Option.some.inj h
      subst hinj
      refine Or.inl ⟨rfl, rfl, rfl, ?_⟩
      rw [hw, hmj2]
      simp
    · split at h
      · rename_i w1 hw1eq
        rcases Option.bind_eq_some.mp h with ⟨mn, hmn, h⟩
        have hw1 : w1 = mn.1 ++ mn.2 := parseIntSv_inv (by rw [hmn])
        split at h
        · rename_i hmn2
          have hinj := Option.some.inj h
          subst hinj
          refine Or.inr (Or.inl ⟨rfl, rfl, rfl, ?_⟩)
          rw [hw, hw1eq, hw1, hmn2]
          simp
        · split at h
          · rename_i w2 hw2eq
            rcases Option.bind_eq_some.mp h with ⟨pt, hpt, h⟩
            rcases Option.bind_eq_some.mp h with ⟨pr, hpr, h⟩
            rcases Option.bind_eq_some.mp h with ⟨bl, hbl, h⟩
            have hw2 : w2 = pt.1 ++ pt.2 := parseIntSv_inv (by rw [hpt])
            have hv3 : pt.2 = pr.1 ++ pr.2 := (preChunk_inv (by rw [hpr])).1
            have hv4 : pr.2 = bl.1 ++ bl.2 := buildChunk_inv (by rw [hbl])
            split at h
            · rename_i hbl2
              have hinj := Option.some.inj h
              subst hinj
              refine Or.inr (Or.inr ⟨rfl, (preChunk_inv (by rw [hpr])).2, ?_⟩)
              rw [hbl2] at hv4
              rw [hw, hw1eq, hw1, hw2eq, hw2, hv3, hv4]
              simp
            · exact absurd h (by simp)
          · exact absurd h (by simp)
      · exact absurd h (by simp)
  · exact absurd h (by simp)

theorem parseSemver_preOk {v : List Char} {p : ParsedV}
    (h : parseSemver v = some p) : PreOk p.prerelease := by
  rcases parseSemver_cases h with ⟨_, hp, _, _⟩ | ⟨_, hp, _, _⟩ | ⟨_, hp, _⟩
  · exact hp ▸ Or.inl rfl
  · exact hp ▸ Or.inl rfl
  · exact hp

/-- Comparison of two parsed versions: the component chain that
semver.Compare runs after both sides parse. -/
def parsedCmp (pv pw : ParsedV) : Int :=
  thenCmp (compareInt pv.major pw.major)
    (thenCmp (compareInt pv.minor pw.minor)
      (thenCmp (compareInt pv.patch pw.patch)
        (comparePrerelease pv.prerelease pw.prerelease)))

theorem semverCompare_eq_parsedCmp {v w : String} {pv pw : ParsedV}
    (hv : parseSemver v.data = some pv) (hw : parseSemver w.data = some pw) :
    semverCompare v w = parsedCmp pv pw := by
  unfold semverCompare parsedCmp
  rw [hv, hw]

theorem parsedCmp_isCmpOn : IsCmpOn (fun p : ParsedV => PreOk p.prerelease) parsedCmp := by
  have hmaj : IsCmpOn (fun p : ParsedV => PreOk p.prerelease)
      (fun p q => compareInt p.major q.major) :=
    isCmpOn_mono (isCmpOn_comap compareInt_isCmp ParsedV.major) (fun _ _ => trivial)
  have hmin : IsCmpOn (fun p : ParsedV => PreOk p.prerelease)
      (fun p q => compareInt p.minor q.minor) :=
    isCmpOn_mono (isCmpOn_comap compareInt_isCmp ParsedV.minor) (fun _ _ => trivial)
  have hpat : IsCmpOn (fun p : ParsedV => PreOk p.prerelease)
      (fun p q => compareInt p.patch q.patch) :=
    isCmpOn_mono (isCmpOn_comap compareInt_isCmp ParsedV.patch) (fun _ _ => trivial)
  have hpre : IsCmpOn (fun p : ParsedV => PreOk p.prerelease)
      (fun p q => comparePrerelease p.prerelease q.prerelease) :=
    isCmpOn_comap comparePrerelease_isCmpOn ParsedV.prerelease
  exact thenCmp_isCmpOn hmaj (thenCmp_isCmpOn hmin (thenCmp_isCmpOn hpat hpre))

theorem parsedCmp_zero {pv pw : ParsedV} (hv : PreOk pv.prerelease)
    (hw : PreOk pw.prerelease) (h : parsedCmp pv pw = 0) :
    pv.major = pw.major ∧ pv.minor = pw.minor ∧ pv.patch = pw.patch ∧
      pv.prerelease = pw.prerelease := by
  unfold parsedCmp at h
  rcases thenCmp_eq_zero.mp h with ⟨h1, h2⟩
  rcases thenCmp_eq_zero.mp h2 with ⟨h3, h4⟩
  rcases thenCmp_eq_zero.mp h4 with ⟨h5, h6⟩
  exact ⟨compareInt_eq_zero_iff.mp h1, compareInt_eq_zero_iff.mp h3,
    compareInt_eq_zero_iff.mp h5, (comparePrerelease_zero_iff hv hw).mp h6⟩

theorem semverCompare_symm (v w : String) : semverCompare v w = -(semverCompare w v) := by
  rcases hv : parseSemver v.data with _ | pv <;> rcases hw : parseSemver w.data with _ | pw
  · simp [semverCompare, hv, hw]
  · simp [semverCompare, hv, hw]
  · simp [semverCompare, hv, hw]
  · rw [semverCompare_eq_parsedCmp hv hw, semverCompare_eq_parsedCmp hw hv]
    exact parsedCmp_isCmpOn.symm pv pw (parseSemver_preOk hv) (parseSemver_preOk hw)

theorem semverCompare_refl (v : String) : semverCompare v v = 0 := by
  have := semverCompare_symm v v
  omega

theorem semverCompare_zero_congr {u v : String} (h : semverCompare u v = 0) :
    ∀ w, semverCompare u w = semverCompare v w := by
  intro w
  rcases hu : parseSemver u.data with _ | pu <;> rcases hv : parseSemver v.data with _ | pv
  · simp [semverCompare, hu, hv]
  · simp [semverCompare, hu, hv] at h
  · simp [semverCompare, hu, hv] at h
  · rcases hw : parseSemver w.data with _ | pw
    · simp [semverCompare, hu, hv, hw]
    · rw [semverCompare_eq_parsedCmp hu hw, semverCompare_eq_parsedCmp hv hw]
      rw [semverCompare_eq_parsedCmp hu hv] at h
      exact parsedCmp_isCmpOn.zero_congr pu pv pw (parseSemver_preOk hu)
        (parseSemver_preOk hv) (parseSemver_preOk hw) h

theorem semverCompare_lt_trans {u v w : String}
    (h1 : semverCompare u v < 0) (h2 : semverCompare v w < 0) : semverCompare u w < 0 := by
  rcases hu : parseSemver u.data with _ | pu <;> rcases hv : parseSemver v.data with _ | pv
  · simp [semverCompare, hu, hv] at h1
  · rcases hw : parseSemver w.data with _ | pw
    · simp [semverCompare, hv, hw] at h2
    · simp [semverCompare, hu, hw]
  · simp [semverCompare, hu, hv] at h1
  · rcases hw : parseSemver w.data with _ | pw
    · simp [semverCompare, hv, hw] at h2
    · rw [semverCompare_eq_parsedCmp hu hv] at h1
      rw [semverCompare_eq_parsedCmp hv hw] at h2
      rw [semverCompare_eq_parsedCmp hu hw]
      exact parsedCmp_isCmpOn.lt_trans pu pv pw (parseSemver_preOk hu)
        (parseSemver_preOk hv) (parseSemver_preOk hw) h1 h2

theorem semverCompare_isCmp : IsCmp semverCompare := by
  refine ⟨?_, ?_, ?_⟩
  · intro x y _ _; exact semverCompare_symm x y
  · intro x y z _ _ _ h0; exact semverCompare_zero_congr h0 z
  · intro x y z _ _ _ h1 h2; exact semverCompare_lt_trans h1 h2

theorem semverCompare_ge_trans {u v w : String}
    (h1 : 0 ≤ semverCompare u v) (h2 : 0 ≤ semverCompare v w) : 0 ≤ semverCompare u w :=
  semverCompare_isCmp.ge_trans trivial trivial trivial h1 h2

/-! ## ModuleId and its ordering (moduleid.go) -/

/-- Module path and version, the identity of a requirement or dependency
(struct ModuleId in moduleid.go, wrapping module.Version). -/
structure ModuleId where
  path : String
  version : String
deriving DecidableEq

/-- NewModuleId in moduleid.go. -/
def newModuleId (path ver : String) : ModuleId := ⟨path, ver⟩

/-- ParseModuleId in moduleid.go: strings.SplitN at the first at sign with a
limit of two pieces, with an empty version appended when there is no at
sign. -/
def parseModuleId (s : String) : ModuleId :=
  match s.data.dropWhile (fun c => c ≠ '@') with
  | [] => ⟨String.mk (s.data.takeWhile (fun c => c ≠ '@')), ""⟩
  | _ :: v => ⟨String.mk (s.data.takeWhile (fun c => c ≠ '@')), String.mk v⟩

/-- Go strings.Compare, on the character lists of the two strings. -/
def stringCmp (s t : String) : Int := listCmp s.data t.data

/-- ModuleIdCompare in moduleid.go: compare paths with strings.Compare and
fall back to semver.Compare on the versions. -/
def moduleIdCompare (a b : ModuleId) : Int :=
  thenCmp (stringCmp a.path b.path) (semverCompare a.version b.version)

theorem stringCmp_eq_zero_iff {s t : String} : stringCmp s t = 0 ↔ s = t := by
  unfold stringCmp
  rw [listCmp_eq_zero_iff]
  constructor
  · intro h
    exact congrArg String.mk h
  · intro h
    rw [h]

theorem moduleIdCompare_isCmp : IsCmp moduleIdCompare := by
  have hpath : IsCmpOn (fun _ : ModuleId => True) (fun a b => stringCmp a.path b.path) :=
    isCmpOn_mono (isCmpOn_comap listCmp_isCmp (fun m : ModuleId => m.path.data))
      (fun _ _ => trivial)
  have hver : IsCmpOn (fun _ : ModuleId => True) (fun a b => semverCompare a.version b.version) :=
    isCmpOn_mono (isCmpOn_comap semverCompare_isCmp (fun m : ModuleId => m.version))
      (fun _ _ => trivial)
  exact thenCmp_isCmpOn hpath hver

theorem moduleIdCompare_zero_iff {a b : ModuleId} :
    moduleIdCompare a b = 0 ↔ a.path = b.path ∧ semverCompare a.version b.version = 0 := by
  unfold moduleIdCompare
  rw [thenCmp_eq_zero, stringCmp_eq_zero_iff]

/-- Version strings whose parse is the full canonical form without build
metadata.  ModuleIdCompare restricted to such versions is antisymmetric. -/
def canonicalNoBuild (v : String) : Prop :=
  ∃ p, parseSemver v.data = some p ∧ p.short = [] ∧ p.build = []

theorem semverCompare_zero_eq {v w : String}
    (hv : canonicalNoBuild v) (hw : canonicalNoBuild w)
    (h : semverCompare v w = 0) : v = w := by
  rcases hv with ⟨pv, hv1, hv2, hv3⟩
  rcases hw with ⟨pw, hw1, hw2, hw3⟩
  rw [semverCompare_eq_parsedCmp hv1 hw1] at h
  rcases parsedCmp_zero (parseSemver_preOk hv1) (parseSemver_preOk hw1) h with
    ⟨e1, e2, e3, e4⟩
  have hvd : v.data = 'v' :: (pv.major ++ '.' :: (pv.minor ++ '.' ::
      (pv.patch ++ (pv.prerelease ++ pv.build)))) := by
    rcases parseSemver_cases hv1 with ⟨hs, _⟩ | ⟨hs, _⟩ | ⟨_, _, hs⟩
    · rw [hv2] at hs; exact absurd hs (by simp)
    · rw [hv2] at hs; exact absurd hs (by simp)
    · exact hs
  have hwd : w.data = 'v' :: (pw.major ++ '.' :: (pw.minor ++ '.' ::
      (pw.patch ++ (pw.prerelease ++ pw.build)))) := by
    rcases parseSemver_cases hw1 with ⟨hs, _⟩ | ⟨hs, _⟩ | ⟨_, _, hs⟩
    · rw [hw2] at hs; exact absurd hs (by simp)
    · rw [hw2] at hs; exact absurd hs (by simp)
    · exact hs
  have : v.data = w.data := by
    rw [hvd, hwd, e1, e2, e3, e4, hv3, hw3]
  exact congrArg String.mk this

theorem moduleIdCompare_zero_eq {a b : ModuleId}
    (ha : canonicalNoBuild a.version) (hb : canonicalNoBuild b.version)
    (h : moduleIdCompare a b = 0) : a = b := by
  rcases moduleIdCompare_zero_iff.mp h with ⟨hp, hv⟩
  have hver : a.version = b.version := semverCompare_zero_eq ha hb hv
  cases a
  cases b
  simp_all

/-- CLAIM C9 (corrected).  ModuleIdCompare is transitive and sign
antisymmetric (hence total), and it returns zero exactly when the paths are
equal and the versions are semver equivalent; it is antisymmetric (zero
implies equality) on ModuleIds whose versions are canonical without build
metadata, but not on all ModuleIds (see the counterexample). -/
theorem moduleIdCompare_total_preorder :
    (∀ a b c : ModuleId, moduleIdCompare a b ≤ 0 → moduleIdCompare b c ≤ 0 →
      moduleIdCompare a c ≤ 0) ∧
    (∀ a b : ModuleId, moduleIdCompare a b = -(moduleIdCompare b a)) ∧
    (∀ a b : ModuleId, moduleIdCompare a b = 0 ↔
      (a.path = b.path ∧ semverCompare a.version b.version = 0)) ∧
    (∀ a b : ModuleId, canonicalNoBuild a.version → canonicalNoBuild b.version →
      moduleIdCompare a b = 0 → a = b) := by
  refine ⟨?_, ?_, ?_, ?_⟩
  · intro a b c h1 h2
    exact moduleIdCompare_isCmp.le_trans trivial trivial trivial h1 h2
  · intro a b
    exact moduleIdCompare_isCmp.symm a b trivial trivial
  · intro a b
    exact moduleIdCompare_zero_iff
  · intro a b ha hb h
    exact moduleIdCompare_zero_eq ha hb h

/-- Witness for the C9 theorem at concrete inputs. -/
theorem moduleIdCompare_total_preorder_witness :
    moduleIdCompare ⟨"a", "v1.0.0"⟩ ⟨"a", "v1.2.0"⟩ ≤ 0 ∧
    moduleIdCompare ⟨"a", "v1.2.0"⟩ ⟨"b", "v0.1.0"⟩ ≤ 0 ∧
    moduleIdCompare ⟨"a", "v1.0.0"⟩ ⟨"b", "v0.1.0"⟩ ≤ 0 ∧
    canonicalNoBuild "v1.0.0" ∧
    (⟨"a", "v1.0.0"⟩ : ModuleId) = ⟨"a", "v1.0.0"⟩ := by
  refine ⟨by decide, by decide, ?_, ?_, ?_⟩
  · exact moduleIdCompare_total_preorder.1 ⟨"a", "v1.0.0"⟩ ⟨"a", "v1.2.0"⟩ ⟨"b", "v0.1.0"⟩
      (by decide) (by decide)
  · exact ⟨⟨['1'], ['0'], ['0'], [], [], []⟩, by decide, rfl, rfl⟩
  · exact moduleIdCompare_total_preorder.2.2.2 ⟨"a", "v1.0.0"⟩ ⟨"a", "v1.0.0"⟩
      ⟨⟨['1'], ['0'], ['0'], [], [], []⟩, by decide, rfl, rfl⟩
      ⟨⟨['1'], ['0'], ['0'], [], [], []⟩, by decide, rfl, rfl⟩ (by decide)

/-- CLAIM C9 counterexample: two distinct ModuleIds that ModuleIdCompare
reports as equal, because semver.Compare ignores build metadata; so
ModuleIdCompare(a, b) == 0 does not imply a == b. -/
theorem moduleIdCompare_not_antisymm :
    moduleIdCompare ⟨"p", "v1.0.0+a"⟩ ⟨"p", "v1.0.0+b"⟩ = 0 ∧
    (⟨"p", "v1.0.0+a"⟩ : ModuleId) ≠ ⟨"p", "v1.0.0+b"⟩ := by
  constructor
  · decide
  · decide

/-- CLAIM C10 (confirmed).  ParseModuleId splits its input at the first at
sign only: prefixing an at-sign-free path to an at sign and any version
string recovers exactly that path and version, and an at-sign-free input
yields an empty version. -/
theorem parseModuleId_split :
    (∀ path ver : String, '@' ∉ path.data →
      parseModuleId (path ++ "@" ++ ver) = newModuleId path ver) ∧
    (∀ s : String, '@' ∉ s.data → parseModuleId s = newModuleId s "") := by
  constructor
  · intro path ver hfree
    have hall : ∀ c ∈ path.data, (fun c => decide (c ≠ '@')) c = true := by
      intro c hc
      simp only [decide_eq_true_eq]
      intro h
      exact hfree (h ▸ hc)
    have hdata : (path ++ "@" ++ ver).data = path.data ++ '@' :: ver.data := by
      simp [String.data_append]
    unfold parseModuleId
    rw [hdata, dropWhile_append_all hall, takeWhile_append_all hall]
    cases path
    cases ver
    simp [newModuleId, List.dropWhile, List.takeWhile]
  · intro s hfree
    have hall : ∀ c ∈ s.data, (fun c => decide (c ≠ '@')) c = true := by
      intro c hc
      simp only [decide_eq_true_eq]
      intro h
      exact hfree (h ▸ hc)
    unfold parseModuleId
    rw [dropWhile_all hall, takeWhile_all hall]
    show (⟨String.mk s.data, ""⟩ : ModuleId) = newModuleId s ""
    cases s
    rfl

/-- Witness for the C10 theorem at concrete inputs (the version may itself
contain an at sign). -/
theorem parseModuleId_split_witness :
    parseModuleId ("example.com/mod" ++ "@" ++ "v1.0.0@x") =
      newModuleId "example.com/mod" "v1.0.0@x" ∧
    parseModuleId "example.com/mod" = newModuleId "example.com/mod" "" := by
  constructor
  · exact parseModuleId_split.1 "example.com/mod" "v1.0.0@x" (by decide)
  · exact parseModuleId_split.2 "example.com/mod" (by decide)

/-! ## The selection map and DependencyGraph.Selected
(dependencygraph.go)

A Dependency carries one ModuleId (struct dependency), so dependencies are
modelled as their ModuleIds.  The sel field of dependencyGraph is a map from
module path to the selected Dependency, modelled as an association list with
distinct keys.
-/

/-- Lookup in the selection map (reading dg.sel[path]). -/
def selFind (sel : List (String × ModuleId)) (p : String) : Option ModuleId :=
  (sel.find? (fun e => decide (e.1 = p))).map Prod.snd

/-- Write to the selection map (dg.sel[path] = d), replacing any existing
entry for the path. -/
def selSet (sel : List (String × ModuleId)) (p : String) (d : ModuleId) :
    List (String × ModuleId) :=
  match sel with
  | [] => [(p, d)]
  | e :: rest => if e.1 = p then (p, d) :: rest else e :: selSet rest p d

/-- DependencyGraph.Selected (dependencygraph.go lines 58 to 64): return the
dependency recorded for the path unless its version is below the requested
minimum. -/
def selectedDep (sel : List (String × ModuleId)) (req : ModuleId) : Option ModuleId :=
  match selFind sel req.path with
  | none => none
  | some d => if semverCompare d.version req.version < 0 then none else some d

/-- CLAIM C2 (confirmed).  For a ModuleId with a nonempty canonical version,
Selected returns a dependency exactly when the selection has an entry for
the path whose version is at least the requested version under semver
comparison, and then it returns that entry; otherwise it returns nil. -/
theorem selectedDep_spec (sel : List (String × ModuleId)) (req : ModuleId)
    (hok : versionCheckOk req.version) :
    (∀ d, selectedDep sel req = some d ↔
      (selFind sel req.path = some d ∧ 0 ≤ semverCompare d.version req.version)) ∧
    (selectedDep sel req = none ↔
      (selFind sel req.path = none ∨
        ∃ d, selFind sel req.path = some d ∧ semverCompare d.version req.version < 0)) := by
  constructor
  · intro d
    cases h : selFind sel req.path with
    | none =>
      have hred : selectedDep sel req = none := by
        unfold selectedDep
        rw [h]
      rw [hred]
      simp
    | some d0 =>
      have hred : selectedDep sel req =
          if semverCompare d0.version req.version < 0 then none else some d0 := by
        unfold selectedDep
        rw [h]
      rw [hred]
      by_cases hc : semverCompare d0.version req.version < 0
      · rw [if_pos hc]
        constructor
        · intro h0
          exact absurd h0 (by simp)
        · rintro ⟨h1, h2⟩
          have hde : d0 = d := Option.some.inj h1
          subst hde
          omega
      · rw [if_neg hc]
        constructor
        · intro h0
          have : d0 = d := Option.some.inj h0
          subst this
          exact ⟨rfl, by omega⟩
        · rintro ⟨h1, h2⟩
          have : d0 = d := Option.some.inj h1
          subst this
          rfl
  · cases h : selFind sel req.path with
    | none =>
      have hred : selectedDep sel req = none := by
        unfold selectedDep
        rw [h]
      rw [hred]
      simp
    | some d0 =>
      have hred : selectedDep sel req =
          if semverCompare d0.version req.version < 0 then none else some d0 := by
        unfold selectedDep
        rw [h]
      rw [hred]
      by_cases hc : semverCompare d0.version req.version < 0
      · rw [if_pos hc]
        constructor
        · intro _
          exact Or.inr ⟨d0, rfl, hc⟩
        · intro _
          rfl
      · rw [if_neg hc]
        constructor
        · intro h0
          exact absurd h0 (by simp)
        · rintro (h1 | ⟨d, h1, h2⟩)
          · exact absurd h1 (by simp)
          · have hdd : d = d0 := (Option.some.inj h1).symm
            subst hdd
            exact absurd h2 hc

/-- Witness for the C2 theorem at concrete inputs. -/
theorem selectedDep_spec_witness :
    versionCheckOk "v1.0.0" ∧
    (selectedDep [("p", ⟨"p", "v1.2.0"⟩)] ⟨"p", "v1.0.0"⟩ = some ⟨"p", "v1.2.0"⟩ ↔
      (selFind [("p", ⟨"p", "v1.2.0"⟩)] "p" = some ⟨"p", "v1.2.0"⟩ ∧
        0 ≤ semverCompare "v1.2.0" "v1.0.0")) := by
  refine ⟨by decide, ?_⟩
  exact (selectedDep_spec [("p", ⟨"p", "v1.2.0"⟩)] ⟨"p", "v1.0.0"⟩ (by decide)).1
    ⟨"p", "v1.2.0"⟩

/-! ## The native MVS resolver (resolvemvs.go)

The nodeVisit callback of ResolveMvs updates the selection map under a
mutex: if no dependency is recorded for the path, or the visited version is
newer, the visited requirement becomes the selected dependency.  The
concurrent walk visits every requirement reachable from the root exactly
once (the walker theorems below), in a nondeterministic order; the fold
below processes an arbitrary enumeration of the reachable requirements.
-/

/-- One nodeVisit step of ResolveMvs (resolvemvs.go lines 26 to 35). -/
def mvsVisit (sel : List (String × ModuleId)) (m : ModuleId) :
    List (String × ModuleId) :=
  match selFind sel m.path with
  | none => selSet sel m.path m
  | some d => if 0 < semverCompare m.version d.version then selSet sel m.path m else sel

/-- Selection map built by the ResolveMvs walk, visiting the requirements in
the given order. -/
def resolveMvsSel (order : List ModuleId) : List (String × ModuleId) :=
  order.foldl mvsVisit []

theorem selFind_eq_none_iff {sel : List (String × ModuleId)} {p : String} :
    selFind sel p = none ↔ ∀ e ∈ sel, e.1 ≠ p := by
  unfold selFind
  simp [List.find?_eq_none]

theorem selFind_eq_some {sel : List (String × ModuleId)} {p : String} {d : ModuleId}
    (h : selFind sel p = some d) : (p, d) ∈ sel := by
  unfold selFind at h
  rcases Option.map_eq_some'.mp h with ⟨e, he, hed⟩
  have hmem := List.mem_of_find?_eq_some he
  have hp := List.find?_some he
  simp only [decide_eq_true_eq] at hp
  cases e
  simp_all

theorem selSet_mem {sel : List (String × ModuleId)} {p : String} {d : ModuleId}
    (hnd : (sel.map Prod.fst).Nodup) :
    ∀ e ∈ selSet sel p d, e = (p, d) ∨ (e ∈ sel ∧ e.1 ≠ p) := by
  induction sel with
  | nil =>
    intro e he
    simp only [selSet] at he
    rcases List.mem_cons.mp he with h | h
    · exact Or.inl h
    · simp at h
  | cons a rest ih =>
    intro e he
    simp only [selSet] at he
    simp only [List.map_cons, List.nodup_cons] at hnd
    by_cases ha : a.1 = p
    · rw [if_pos ha] at he
      rcases List.mem_cons.mp he with h | h
      · exact Or.inl h
      · have hep : e.1 ≠ p := by
          intro h2
          apply hnd.1
          rw [ha, ← h2]
          exact List.mem_map.mpr ⟨e, h, rfl⟩
        exact Or.inr ⟨List.mem_cons.mpr (Or.inr h), hep⟩
    · rw [if_neg ha] at he
      rcases List.mem_cons.mp he with h | h
      · subst h
        exact Or.inr ⟨List.mem_cons.mpr (Or.inl rfl), ha⟩
      · rcases ih hnd.2 e h with h2 | ⟨h2, h3⟩
        · exact Or.inl h2
        · exact Or.inr ⟨List.mem_cons.mpr (Or.inr h2), h3⟩

theorem selFind_selSet_self {sel : List (String × ModuleId)} {p : String} {d : ModuleId} :
    selFind (selSet sel p d) p = some d := by
  induction sel with
  | nil => simp [selSet, selFind, List.find?]
  | cons a rest ih =>
    simp only [selSet]
    by_cases ha : a.1 = p
    · rw [if_pos ha]
      simp [selFind, List.find?]
    · rw [if_neg ha]
      simp only [selFind, List.find?] at ih ⊢
      have : (decide (a.1 = p)) = false := by simp [ha]
      rw [this]
      exact ih

theorem selFind_selSet_other {sel : List (String × ModuleId)} {p q : String} {d : ModuleId}
    (hq : q ≠ p) : selFind (selSet sel p d) q = selFind sel q := by
  induction sel with
  | nil =>
    simp only [selSet, selFind, List.find?]
    have : (decide (p = q)) = false := by
      simp only [decide_eq_false_iff_not]
      exact fun h => hq h.symm
    rw [this]
  | cons a rest ih =>
    simp only [selSet]
    by_cases ha : a.1 = p
    · rw [if_pos ha]
      simp only [selFind, List.find?]
      have h1 : (decide (p = q)) = false := by
        simp only [decide_eq_false_iff_not]
        exact fun h => hq h.symm
      have h2 : (decide (a.1 = q)) = false := by
        simp only [decide_eq_false_iff_not]
        rw [ha]
        exact fun h => hq h.symm
      rw [h1, h2]
    · rw [if_neg ha]
      simp only [selFind, List.find?] at ih ⊢
      cases hd : decide (a.1 = q)
      · exact ih
      · rfl

theorem selSet_keys_nodup {sel : List (String × ModuleId)} {p : String} {d : ModuleId}
    (h : (sel.map Prod.fst).Nodup) : ((selSet sel p d).map Prod.fst).Nodup := by
  induction sel with
  | nil => simp [selSet]
  | cons a rest ih =>
    simp only [List.map_cons, List.nodup_cons] at h
    simp only [selSet]
    by_cases ha : a.1 = p
    · rw [if_pos ha]
      simp only [List.map_cons, List.nodup_cons]
      exact ⟨by rw [← ha]; exact h.1, h.2⟩
    · rw [if_neg ha]
      simp only [List.map_cons, List.nodup_cons]
      constructor
      · intro hmem
        rcases List.mem_map.mp hmem with ⟨e, he, hee⟩
        rcases selSet_mem h.2 e he with h2 | ⟨h2, h3⟩
        · rw [h2] at hee
          exact ha hee.symm
        · exact h.1 (hee ▸ List.mem_map.mpr ⟨e, h2, rfl⟩)
      · exact ih h.2

/-- Invariant of the ResolveMvs selection fold: every entry is keyed by its
own path, holds a requirement already processed, and dominates (by semver
comparison) every processed requirement of its path; every processed
requirement has an entry for its path. -/
structure SelInv (processed : List ModuleId) (sel : List (String × ModuleId)) : Prop where
  keys_nodup : (sel.map Prod.fst).Nodup
  entry_path : ∀ e ∈ sel, (Prod.snd e).path = Prod.fst e
  entry_mem : ∀ e ∈ sel, Prod.snd e ∈ processed
  entry_max : ∀ e ∈ sel, ∀ m ∈ processed, m.path = e.1 →
    0 ≤ semverCompare (Prod.snd e).version m.version
  covered : ∀ m ∈ processed, ∃ d, selFind sel m.path = some d

theorem selFind_of_mem {sel : List (String × ModuleId)} {e : String × ModuleId}
    (hnd : (sel.map Prod.fst).Nodup) (he : e ∈ sel) :
    selFind sel e.1 = some e.2 := by
  induction sel with
  | nil => simp at he
  | cons a rest ih =>
    simp only [List.map_cons, List.nodup_cons] at hnd
    rcases List.mem_cons.mp he with h | h
    · subst h
      simp [selFind, List.find?]
    · have hne : ¬ a.1 = e.1 := by
        intro h2
        exact hnd.1 (h2 ▸ List.mem_map.mpr ⟨e, h, rfl⟩)
      simp only [selFind, List.find?]
      have : (decide (a.1 = e.1)) = false := by
        simp only [decide_eq_false_iff_not]
        exact hne
      rw [this]
      exact ih hnd.2 h

theorem mvsVisit_inv {processed : List ModuleId} {sel : List (String × ModuleId)}
    {m : ModuleId} (h : SelInv processed sel) :
    SelInv (processed ++ [m]) (mvsVisit sel m) := by
  unfold mvsVisit
  cases hf : selFind sel m.path with
  | none =>
    refine ⟨selSet_keys_nodup h.keys_nodup, ?_, ?_, ?_, ?_⟩
    · intro e he
      rcases selSet_mem h.keys_nodup e he with h2 | ⟨h2, _⟩
      · rw [h2]
      · exact h.entry_path e h2
    · intro e he
      rcases selSet_mem h.keys_nodup e he with h2 | ⟨h2, _⟩
      · rw [h2]
        exact List.mem_append.mpr (Or.inr (List.mem_singleton.mpr rfl))
      · exact List.mem_append.mpr (Or.inl (h.entry_mem e h2))
    · intro e he m2 hm2 hpath
      rcases selSet_mem h.keys_nodup e he with h2 | ⟨h2, h3⟩
      · subst h2
        rcases List.mem_append.mp hm2 with hm2' | hm2'
        · rcases h.covered m2 hm2' with ⟨d, hd⟩
          simp only at hpath
          rw [hpath] at hd
          rw [hf] at hd
          exact absurd hd (by simp)
        · have : m2 = m := List.mem_singleton.mp hm2'
          subst this
          have := semverCompare_refl m2.version
          simp only
          omega
      · rcases List.mem_append.mp hm2 with hm2' | hm2'
        · exact h.entry_max e h2 m2 hm2' hpath
        · have : m2 = m := List.mem_singleton.mp hm2'
          subst this
          exact absurd hpath.symm h3
    · intro m2 hm2
      rcases List.mem_append.mp hm2 with hm2' | hm2'
      · rcases h.covered m2 hm2' with ⟨d, hd⟩
        by_cases hp : m2.path = m.path
        · rw [hp, selFind_selSet_self]
          exact ⟨m, rfl⟩
        · rw [selFind_selSet_other hp]
          exact ⟨d, hd⟩
      · have : m2 = m := List.mem_singleton.mp hm2'
        subst this
        rw [selFind_selSet_self]
        exact ⟨m2, rfl⟩
  | some d =>
    show SelInv (processed ++ [m])
      (if 0 < semverCompare m.version d.version then selSet sel m.path m else sel)
    by_cases hc : 0 < semverCompare m.version d.version
    · rw [if_pos hc]
      have hdm : (m.path, d) ∈ sel := selFind_eq_some hf
      refine ⟨selSet_keys_nodup h.keys_nodup, ?_, ?_, ?_, ?_⟩
      · intro e he
        rcases selSet_mem h.keys_nodup e he with h2 | ⟨h2, _⟩
        · rw [h2]
        · exact h.entry_path e h2
      · intro e he
        rcases selSet_mem h.keys_nodup e he with h2 | ⟨h2, _⟩
        · rw [h2]
          exact List.mem_append.mpr (Or.inr (List.mem_singleton.mpr rfl))
        · exact List.mem_append.mpr (Or.inl (h.entry_mem e h2))
      · intro e he m2 hm2 hpath
        rcases selSet_mem h.keys_nodup e he with h2 | ⟨h2, h3⟩
        · subst h2
          simp only at hpath ⊢
          rcases List.mem_append.mp hm2 with hm2' | hm2'
          · have hmax := h.entry_max (m.path, d) hdm m2 hm2' hpath
            simp only at hmax
            have := semverCompare_ge_trans (by omega : 0 ≤ semverCompare m.version d.version)
              hmax
            exact this
          · have : m2 = m := List.mem_singleton.mp hm2'
            subst this
            have := semverCompare_refl m2.version
            omega
        · rcases List.mem_append.mp hm2 with hm2' | hm2'
          · exact h.entry_max e h2 m2 hm2' hpath
          · have : m2 = m := List.mem_singleton.mp hm2'
            subst this
            exact absurd hpath.symm h3
      · intro m2 hm2
        rcases List.mem_append.mp hm2 with hm2' | hm2'
        · rcases h.covered m2 hm2' with ⟨d2, hd2⟩
          by_cases hp : m2.path = m.path
          · rw [hp, selFind_selSet_self]
            exact ⟨m, rfl⟩
          · rw [selFind_selSet_other hp]
            exact ⟨d2, hd2⟩
        · have : m2 = m := List.mem_singleton.mp hm2'
          subst this
          rw [selFind_selSet_self]
          exact ⟨m2, rfl⟩
    · rw [if_neg hc]
      refine ⟨h.keys_nodup, h.entry_path, ?_, ?_, ?_⟩
      · intro e he
        exact List.mem_append.mpr (Or.inl (h.entry_mem e he))
      · intro e he m2 hm2 hpath
        rcases List.mem_append.mp hm2 with hm2' | hm2'
        · exact h.entry_max e he m2 hm2' hpath
        · have : m2 = m := List.mem_singleton.mp hm2'
          subst this
          have hee : selFind sel e.1 = some e.2 := selFind_of_mem h.keys_nodup he
          rw [← hpath] at hee
          rw [hf] at hee
          have hed : e.2 = d := (Option.some.inj hee).symm
          rw [hed]
          have hs := semverCompare_symm m2.version d.version
          omega
      · intro m2 hm2
        rcases List.mem_append.mp hm2 with hm2' | hm2'
        · exact h.covered m2 hm2'
        · have : m2 = m := List.mem_singleton.mp hm2'
          subst this
          exact ⟨d, hf⟩

theorem mvs_foldl_inv : ∀ (order : List ModuleId) (processed : List ModuleId)
    (sel : List (String × ModuleId)), SelInv processed sel →
    SelInv (processed ++ order) (order.foldl mvsVisit sel) := by
  intro order
  induction order with
  | nil =>
    intro processed sel h
    simpa using h
  | cons m rest ih =>
    intro processed sel h
    have h2 : SelInv (processed ++ [m]) (mvsVisit sel m) := mvsVisit_inv h
    have h3 := ih (processed ++ [m]) (mvsVisit sel m) h2
    simpa [List.append_assoc] using h3

theorem resolveMvsSel_inv (order : List ModuleId) :
    SelInv order (resolveMvsSel order) := by
  have h0 : SelInv [] [] := by
    refine ⟨by simp, ?_, ?_, ?_, ?_⟩ <;> intro e he <;> simp at he
  have := mvs_foldl_inv order [] [] h0
  simpa [resolveMvsSel] using this

/-! ## The eager in-memory requirement graph (requirementgraph.go)

The struct requirementGraph holds a root Requirement and a map from
Requirement to its direct and immediate-indirect requirement sets.
Requirements carry one ModuleId, so nodes are modelled as ModuleIds and the
two mapset sets as lists.
-/

/-- Direct and immediate-indirect edge sets of one node (struct
requirementGraphReqs). -/
structure ReqSets where
  d : List ModuleId
  i : List ModuleId
deriving DecidableEq

/-- Eager in-memory requirement graph (struct requirementGraph): a root and
the per-node edge sets, as an association list. -/
structure RGraph where
  root : ModuleId
  reqs : List (ModuleId × ReqSets)
deriving DecidableEq

/-- Map read rg.reqs[m]. -/
def reqsFind (g : RGraph) (m : ModuleId) : Option ReqSets :=
  (g.reqs.find? (fun e => decide (e.1 = m))).map Prod.snd

/-- All outgoing edges of a node, direct then immediate indirect, as walked
by Reqs (requirementgraph.go lines 63 to 67); a node without an entry has no
edges. -/
def childrenOf (g : RGraph) (m : ModuleId) : List ModuleId :=
  match reqsFind g m with
  | none => []
  | some rs => rs.d ++ rs.i

/-- Load on the eager in-memory graph (requirementgraph.go lines 95 to 100):
a no-op that fails (the Go code panics) exactly when the node has no entry
in the graph.  The panic is modelled as the error value. -/
def loadEager (g : RGraph) (m : ModuleId) : Except String Unit :=
  match reqsFind g m with
  | none => Except.error "module is not in this requirement graph"
  | some _ => Except.ok ()

/-- CLAIM C8 (confirmed).  For the eager in-memory RequirementGraph, Load is
a no-op that fails if and only if the module is not a member of the node
set, and succeeds for every member, in every state (the graph is immutable)
and for every context (the context argument is ignored by the code).  The Go
code reports the failure by panicking; the panic is modelled as the error
outcome. -/
theorem loadEager_spec (g : RGraph) (m : ModuleId) :
    (loadEager g m = Except.ok () ↔ ∃ rs, reqsFind g m = some rs) ∧
    ((∃ e, loadEager g m = Except.error e) ↔ reqsFind g m = none) := by
  unfold loadEager
  cases h : reqsFind g m with
  | none => simp
  | some rs => simp

/-! ## Reachability and a bounded breadth-first closure -/

/-- Reachability from a start node along a child function. -/
inductive Reaches {α : Type} (ch : α → List α) (start : α) : α → Prop where
  | refl : Reaches ch start start
  | step : ∀ {x c}, Reaches ch start x → c ∈ ch x → Reaches ch start c

/-- Move every not-yet-seen element of the third list into the seen set and
onto the frontier. -/
def pushFresh {α : Type} [DecidableEq α] : List α → List α → List α → (List α × List α)
  | seen, fr, [] => (seen, fr)
  | seen, fr, c :: cs =>
    if c ∈ seen then pushFresh seen fr cs else pushFresh (c :: seen) (fr ++ [c]) cs

theorem pushFresh_seen_sub {α : Type} [DecidableEq α] :
    ∀ {seen fr cs : List α} {x : α}, x ∈ seen → x ∈ (pushFresh seen fr cs).1 := by
  intro seen fr cs
  induction cs generalizing seen fr with
  | nil => intro x hx; exact hx
  | cons c cs ih =>
    intro x hx
    simp only [pushFresh]
    by_cases hc : c ∈ seen
    · rw [if_pos hc]; exact ih hx
    · rw [if_neg hc]; exact ih (List.mem_cons.mpr (Or.inr hx))

theorem pushFresh_cs_sub {α : Type} [DecidableEq α] :
    ∀ {seen fr cs : List α} {x : α}, x ∈ cs → x ∈ (pushFresh seen fr cs).1 := by
  intro seen fr cs
  induction cs generalizing seen fr with
  | nil => intro x hx; simp at hx
  | cons c cs ih =>
    intro x hx
    simp only [pushFresh]
    rcases List.mem_cons.mp hx with h | h
    · subst h
      by_cases hc : x ∈ seen
      · rw [if_pos hc]; exact pushFresh_seen_sub hc
      · rw [if_neg hc]; exact pushFresh_seen_sub (List.mem_cons.mpr (Or.inl rfl))
    · by_cases hc : c ∈ seen
      · rw [if_pos hc]; exact ih h
      · rw [if_neg hc]; exact ih h

theorem pushFresh_seen_src {α : Type} [DecidableEq α] :
    ∀ {seen fr cs : List α} {x : α}, x ∈ (pushFresh seen fr cs).1 → x ∈ seen ∨ x ∈ cs := by
  intro seen fr cs
  induction cs generalizing seen fr with
  | nil => intro x hx; exact Or.inl hx
  | cons c cs ih =>
    intro x hx
    simp only [pushFresh] at hx
    by_cases hc : c ∈ seen
    · rw [if_pos hc] at hx
      rcases ih hx with h | h
      · exact Or.inl h
      · exact Or.inr (List.mem_cons.mpr (Or.inr h))
    · rw [if_neg hc] at hx
      rcases ih hx with h | h
      · rcases List.mem_cons.mp h with h2 | h2
        · exact Or.inr (List.mem_cons.mpr (Or.inl h2))
        · exact Or.inl h2
      · exact Or.inr (List.mem_cons.mpr (Or.inr h))

theorem pushFresh_fr_sub {α : Type} [DecidableEq α] :
    ∀ {seen fr cs : List α} {x : α}, x ∈ fr → x ∈ (pushFresh seen fr cs).2 := by
  intro seen fr cs
  induction cs generalizing seen fr with
  | nil => intro x hx; exact hx
  | cons c cs ih =>
    intro x hx
    simp only [pushFresh]
    by_cases hc : c ∈ seen
    · rw [if_pos hc]; exact ih hx
    · rw [if_neg hc]; exact ih (List.mem_append.mpr (Or.inl hx))

theorem pushFresh_fr_src {α : Type} [DecidableEq α] :
    ∀ {seen fr cs : List α} {x : α}, x ∈ (pushFresh seen fr cs).2 → x ∈ fr ∨ x ∈ cs := by
  intro seen fr cs
  induction cs generalizing seen fr with
  | nil => intro x hx; exact Or.inl hx
  | cons c cs ih =>
    intro x hx
    simp only [pushFresh] at hx
    by_cases hc : c ∈ seen
    · rw [if_pos hc] at hx
      rcases ih hx with h | h
      · exact Or.inl h
      · exact Or.inr (List.mem_cons.mpr (Or.inr h))
    · rw [if_neg hc] at hx
      rcases ih hx with h | h
      · rcases List.mem_append.mp h with h2 | h2
        · exact Or.inl h2
        · exact Or.inr (List.mem_cons.mpr (Or.inl (List.mem_singleton.mp h2)))
      · exact Or.inr (List.mem_cons.mpr (Or.inr h))

theorem pushFresh_new_in_fr {α : Type} [DecidableEq α] :
    ∀ {seen fr cs : List α} {x : α}, x ∈ (pushFresh seen fr cs).1 → x ∉ seen →
      x ∈ (pushFresh seen fr cs).2 := by
  intro seen fr cs
  induction cs generalizing seen fr with
  | nil => intro x hx hns; exact absurd hx hns
  | cons c cs ih =>
    intro x hx hns
    simp only [pushFresh] at hx ⊢
    by_cases hc : c ∈ seen
    · rw [if_pos hc] at hx ⊢
      exact ih hx hns
    · rw [if_neg hc] at hx ⊢
      by_cases hxc : x ∈ (c :: seen)
      · rcases List.mem_cons.mp hxc with h2 | h2
        · subst h2
          exact pushFresh_fr_sub (List.mem_append.mpr (Or.inr (List.mem_singleton.mpr rfl)))
        · exact absurd h2 hns
      · exact ih hx hxc

theorem pushFresh_nodup {α : Type} [DecidableEq α] :
    ∀ {seen fr cs : List α}, seen.Nodup → (pushFresh seen fr cs).1.Nodup := by
  intro seen fr cs
  induction cs generalizing seen fr with
  | nil => intro h; exact h
  | cons c cs ih =>
    intro h
    simp only [pushFresh]
    by_cases hc : c ∈ seen
    · rw [if_pos hc]; exact ih h
    · rw [if_neg hc]; exact ih (List.nodup_cons.mpr ⟨hc, h⟩)

theorem filter_length_mono {α : Type} {p q : α → Bool} :
    ∀ {l : List α}, (∀ x ∈ l, p x = true → q x = true) →
      (l.filter p).length ≤ (l.filter q).length := by
  intro l
  induction l with
  | nil => intro; simp
  | cons a l ih =>
    intro h
    simp only [List.filter]
    cases hp : p a
    · cases hq : q a
      · exact ih (fun x hx => h x (List.mem_cons.mpr (Or.inr hx)))
      · exact Nat.le_succ_of_le (ih (fun x hx => h x (List.mem_cons.mpr (Or.inr hx))))
    · rw [h a (List.mem_cons.mpr (Or.inl rfl)) hp]
      simpa using ih (fun x hx => h x (List.mem_cons.mpr (Or.inr hx)))

theorem filter_not_mem_cons_lt {α : Type} [DecidableEq α] {univ seen : List α} {c : α}
    (hc : c ∈ univ) (hns : c ∉ seen) :
    (univ.filter (fun u => decide (u ∉ c :: seen))).length <
      (univ.filter (fun u => decide (u ∉ seen))).length := by
  induction univ with
  | nil => simp at hc
  | cons u us ih =>
    by_cases huc : u = c
    · subst huc
      have h1 : (decide (u ∉ u :: seen)) = false := by simp
      have h2 : (decide (u ∉ seen)) = true := by simpa using hns
      simp only [List.filter, h1, h2]
      have hmono : (us.filter (fun x => decide (x ∉ u :: seen))).length ≤
          (us.filter (fun x => decide (x ∉ seen))).length :=
        filter_length_mono (fun x _ hx => by
          simp only [decide_eq_true_eq] at hx ⊢
          intro h
          exact hx (List.mem_cons.mpr (Or.inr h)))
      simpa using Nat.lt_succ_of_le hmono
    · have hcu : c ∈ us := by
        rcases List.mem_cons.mp hc with h | h
        · exact absurd h.symm huc
        · exact h
      have heq : (decide (u ∉ c :: seen)) = (decide (u ∉ seen)) := by
        by_cases hu : u ∈ seen
        · simp [hu]
        · have : u ∉ c :: seen := by
            intro h2
            rcases List.mem_cons.mp h2 with h3 | h3
            · exact huc h3
            · exact hu h3
          simp [this, hu]
      simp only [List.filter, heq]
      cases hd : decide (u ∉ seen)
      · exact ih hcu
      · simpa using Nat.succ_lt_succ (ih hcu)

theorem pushFresh_budget {α : Type} [DecidableEq α] {univ : List α} :
    ∀ {seen fr cs : List α}, (∀ c ∈ cs, c ∈ univ) →
      (pushFresh seen fr cs).2.length +
        (univ.filter (fun u => decide (u ∉ (pushFresh seen fr cs).1))).length ≤
      fr.length + (univ.filter (fun u => decide (u ∉ seen))).length := by
  intro seen fr cs
  induction cs generalizing seen fr with
  | nil => intro; simp [pushFresh]
  | cons c cs ih =>
    intro h
    simp only [pushFresh]
    by_cases hc : c ∈ seen
    · simp only [if_pos hc]
      exact ih (fun x hx => h x (List.mem_cons.mpr (Or.inr hx)))
    · simp only [if_neg hc]
      have h1 := @ih (c :: seen) (fr ++ [c])
        (fun x hx => h x (List.mem_cons.mpr (Or.inr hx)))
      have h2 : (univ.filter (fun u => decide (u ∉ c :: seen))).length <
          (univ.filter (fun u => decide (u ∉ seen))).length :=
        filter_not_mem_cons_lt (h c (List.mem_cons.mpr (Or.inl rfl))) hc
      have h3 : (fr ++ [c]).length = fr.length + 1 := by simp
      omega

/-- Bounded breadth-first closure: repeatedly pop a frontier node and push
its unseen children, stopping when the frontier or the fuel is exhausted. -/
def bfsClose {α : Type} [DecidableEq α] (ch : α → List α) :
    Nat → List α → List α → List α
  | 0, _, seen => seen
  | _ + 1, [], seen => seen
  | fuel + 1, m :: fr, seen =>
    bfsClose ch fuel (pushFresh seen fr (ch m)).2 (pushFresh seen fr (ch m)).1

theorem bfsClose_seen_sub {α : Type} [DecidableEq α] {ch : α → List α} :
    ∀ {fuel : Nat} {fr seen : List α} {x : α}, x ∈ seen →
      x ∈ bfsClose ch fuel fr seen := by
  intro fuel
  induction fuel with
  | zero => intro fr seen x hx; exact hx
  | succ fuel ih =>
    intro fr seen x hx
    cases fr with
    | nil => exact hx
    | cons m fr => exact ih (pushFresh_seen_sub hx)

theorem bfsClose_sound {α : Type} [DecidableEq α] {ch : α → List α} {P : α → Prop}
    (hcl : ∀ x, P x → ∀ c ∈ ch x, P c) :
    ∀ {fuel : Nat} {fr seen : List α}, (∀ x ∈ seen, P x) → (∀ x ∈ fr, x ∈ seen) →
      ∀ x ∈ bfsClose ch fuel fr seen, P x := by
  intro fuel
  induction fuel with
  | zero => intro fr seen hseen _ x hx; exact hseen x hx
  | succ fuel ih =>
    intro fr seen hseen hfr x hx
    cases fr with
    | nil => exact hseen x hx
    | cons m fr =>
      have hm : P m := hseen m (hfr m (List.mem_cons.mpr (Or.inl rfl)))
      refine ih ?_ ?_ x hx
      · intro y hy
        rcases pushFresh_seen_src hy with h | h
        · exact hseen y h
        · exact hcl m hm y h
      · intro y hy
        rcases pushFresh_fr_src hy with h | h
        · exact pushFresh_seen_sub (hfr y (List.mem_cons.mpr (Or.inr h)))
        · exact pushFresh_cs_sub h

theorem bfsClose_nodup {α : Type} [DecidableEq α] {ch : α → List α} :
    ∀ {fuel : Nat} {fr seen : List α}, seen.Nodup → (bfsClose ch fuel fr seen).Nodup := by
  intro fuel
  induction fuel with
  | zero => intro fr seen h; exact h
  | succ fuel ih =>
    intro fr seen h
    cases fr with
    | nil => exact h
    | cons m fr => exact ih (pushFresh_nodup h)

theorem bfsClose_closed {α : Type} [DecidableEq α] {ch : α → List α} {univ : List α}
    (hu : ∀ x, ∀ c ∈ ch x, c ∈ univ) :
    ∀ {fuel : Nat} {fr seen : List α},
      fr.length + (univ.filter (fun u => decide (u ∉ seen))).length ≤ fuel →
      (∀ x ∈ seen, x ∈ fr ∨ ∀ c ∈ ch x, c ∈ seen) →
      (∀ x ∈ fr, x ∈ seen) →
      ∀ x ∈ bfsClose ch fuel fr seen, ∀ c ∈ ch x, c ∈ bfsClose ch fuel fr seen := by
  intro fuel
  induction fuel with
  | zero =>
    intro fr seen hbud hinv hfr x hx c hc
    have hfr0 : fr = [] := by
      cases fr with
      | nil => rfl
      | cons a l => simp at hbud
    subst hfr0
    rcases hinv x hx with h | h
    · simp at h
    · exact h c hc
  | succ fuel ih =>
    intro fr seen hbud hinv hfr x hx c hc
    cases fr with
    | nil =>
      rcases hinv x hx with h | h
      · simp at h
      · exact h c hc
    | cons m fr =>
      simp only [bfsClose] at hx ⊢
      refine ih ?_ ?_ ?_ x hx c hc
      · have hpb : (pushFresh seen fr (ch m)).2.length +
            (univ.filter (fun u => decide (u ∉ (pushFresh seen fr (ch m)).1))).length ≤
            fr.length + (univ.filter (fun u => decide (u ∉ seen))).length :=
          pushFresh_budget (hu m)
        have : (m :: fr).length = fr.length + 1 := by simp
        omega
      · intro y hy
        rcases pushFresh_seen_src hy with h | h
        · rcases hinv y h with h2 | h2
          · rcases List.mem_cons.mp h2 with h3 | h3
            · subst h3
              exact Or.inr (fun c2 hc2 => pushFresh_cs_sub hc2)
            · exact Or.inl (pushFresh_fr_sub h3)
          · exact Or.inr (fun c2 hc2 => pushFresh_seen_sub (h2 c2 hc2))
        · by_cases hys : y ∈ seen
          · rcases hinv y hys with h2 | h2
            · rcases List.mem_cons.mp h2 with h3 | h3
              · subst h3
                exact Or.inr (fun c2 hc2 => pushFresh_cs_sub hc2)
              · exact Or.inl (pushFresh_fr_sub h3)
            · exact Or.inr (fun c2 hc2 => pushFresh_seen_sub (h2 c2 hc2))
          · exact Or.inl (pushFresh_new_in_fr hy hys)
      · intro y hy
        rcases pushFresh_fr_src hy with h | h
        · exact pushFresh_seen_sub (hfr y (List.mem_cons.mpr (Or.inr h)))
        · exact pushFresh_cs_sub h

/-- Every node that can appear as an edge target in the graph, plus the
root: a finite universe containing every node the walk can discover. -/
def graphUniv (g : RGraph) : List ModuleId :=
  g.root :: g.reqs.bind (fun e => e.2.d ++ e.2.i)

theorem childrenOf_sub_univ (g : RGraph) (x : ModuleId) :
    ∀ c ∈ childrenOf g x, c ∈ graphUniv g := by
  intro c hc
  unfold childrenOf at hc
  cases h : reqsFind g x with
  | none => rw [h] at hc; simp at hc
  | some rs =>
    rw [h] at hc
    unfold reqsFind at h
    rcases Option.map_eq_some'.mp h with ⟨e, he, hee⟩
    have hmem := List.mem_of_find?_eq_some he
    unfold graphUniv
    refine List.mem_cons.mpr (Or.inr ?_)
    rw [List.mem_bind]
    exact ⟨e, hmem, by rw [hee]; exact hc⟩

/-- The set of requirements reachable from the root, as computed by a
breadth-first closure with enough fuel to terminate naturally. -/
def reachList (g : RGraph) : List ModuleId :=
  bfsClose (childrenOf g) ((graphUniv g).length + 1) [g.root] [g.root]

theorem reachList_root (g : RGraph) : g.root ∈ reachList g :=
  bfsClose_seen_sub (List.mem_singleton.mpr rfl)

theorem reachList_sound (g : RGraph) :
    ∀ x ∈ reachList g, Reaches (childrenOf g) g.root x := by
  refine bfsClose_sound (fun x hx c hc => Reaches.step hx hc) ?_ ?_
  · intro x hx
    rw [List.mem_singleton.mp hx]
    exact Reaches.refl
  · intro x hx
    exact hx

theorem reachList_closed (g : RGraph) :
    ∀ x ∈ reachList g, ∀ c ∈ childrenOf g x, c ∈ reachList g := by
  refine bfsClose_closed (childrenOf_sub_univ g) ?_ ?_ ?_
  · have h1 : ([g.root] : List ModuleId).length = 1 := rfl
    have h2 : ((graphUniv g).filter
        (fun u => decide (u ∉ [g.root]))).length ≤ (graphUniv g).length :=
      List.length_filter_le _ _
    omega
  · intro x hx
    exact Or.inl hx
  · intro x hx
    exact hx

theorem reachList_complete (g : RGraph) :
    ∀ x, Reaches (childrenOf g) g.root x → x ∈ reachList g := by
  intro x hx
  induction hx with
  | refl => exact reachList_root g
  | step hr hc ih => exact reachList_closed g _ ih _ hc

theorem reachList_nodup (g : RGraph) : (reachList g).Nodup :=
  bfsClose_nodup (by simp)

/-- CLAIM C1 (confirmed).  When ResolveMvs succeeds on a requirement graph,
having visited the reachable requirements in some order (the walker visits
each exactly once), the selection maps each module path to a maximum of the
versions of the reachable requirements with that path, under semver
comparison; consequently, for every reachable requirement r, Selected on
r's ModuleId returns a non-nil dependency whose version is at least
r's version. -/
theorem resolveMvs_selection_max (g : RGraph) (order : List ModuleId)
    (hmem : ∀ m, m ∈ order ↔ m ∈ reachList g) :
    ∀ r ∈ order, ∃ d, selFind (resolveMvsSel order) r.path = some d ∧
      d.path = r.path ∧ d ∈ order ∧
      (∀ m2, Reaches (childrenOf g) g.root m2 → m2.path = r.path →
        0 ≤ semverCompare d.version m2.version) ∧
      0 ≤ semverCompare d.version r.version ∧
      selectedDep (resolveMvsSel order) r = some d := by
  intro r hr
  have hinv := resolveMvsSel_inv order
  rcases hinv.covered r hr with ⟨d, hd⟩
  have hent : (r.path, d) ∈ resolveMvsSel order := selFind_eq_some hd
  have hpath : d.path = r.path := hinv.entry_path (r.path, d) hent
  have hmem2 : d ∈ order := hinv.entry_mem (r.path, d) hent
  have hmax : ∀ m2 ∈ order, m2.path = r.path → 0 ≤ semverCompare d.version m2.version := by
    intro m2 hm2 hp2
    exact hinv.entry_max (r.path, d) hent m2 hm2 hp2
  have hmaxr : 0 ≤ semverCompare d.version r.version := hmax r hr rfl
  refine ⟨d, hd, hpath, hmem2, ?_, hmaxr, ?_⟩
  · intro m2 hreach hp2
    exact hmax m2 ((hmem m2).mpr (reachList_complete g m2 hreach)) hp2
  · unfold selectedDep
    rw [hd]
    show (if semverCompare d.version r.version < 0 then none else some d) = some d
    rw [if_neg (by omega)]

/-- Witness for the C1 theorem at a concrete graph: the root requires two
versions of the same module path and the newer one is selected. -/
theorem resolveMvs_selection_max_witness :
    let g : RGraph := ⟨⟨"r", "v1.0.0"⟩,
      [(⟨"r", "v1.0.0"⟩, ⟨[⟨"a", "v1.0.0"⟩, ⟨"a", "v1.2.0"⟩], []⟩),
       (⟨"a", "v1.0.0"⟩, ⟨[], []⟩), (⟨"a", "v1.2.0"⟩, ⟨[], []⟩)]⟩
    ∃ d, selFind (resolveMvsSel (reachList g)) "a" = some d ∧
      d.path = "a" ∧ d ∈ reachList g ∧
      (∀ m2, Reaches (childrenOf g) g.root m2 → m2.path = "a" →
        0 ≤ semverCompare d.version m2.version) ∧
      0 ≤ semverCompare d.version "v1.0.0" ∧
      selectedDep (resolveMvsSel (reachList g)) ⟨"a", "v1.0.0"⟩ = some d := by
  intro g
  have h := resolveMvs_selection_max g (reachList g) (fun m => Iff.rfl)
    ⟨"a", "v1.0.0"⟩ (by decide)
  exact h

/-! ## Surprise dependencies (computeSurpriseDeps, dependencygraph.go) -/

/-- Map a fallible function over a list, failing if any element fails (the
Go loops return an error as soon as a lookup yields nil). -/
def mapOption {α β : Type} (f : α → Option β) : List α → Option (List β)
  | [] => some []
  | x :: xs =>
    match f x, mapOption f xs with
    | some y, some ys => some (y :: ys)
    | _, _ => none

theorem mapOption_mem {α β : Type} {f : α → Option β} :
    ∀ {xs : List α} {ys : List β}, mapOption f xs = some ys →
      ∀ y ∈ ys, ∃ x ∈ xs, f x = some y := by
  intro xs
  induction xs with
  | nil =>
    intro ys h y hy
    have : ys = [] := by
      simp [mapOption] at h
      exact h
    subst this
    simp at hy
  | cons x xs ih =>
    intro ys h y hy
    simp only [mapOption] at h
    cases hfx : f x with
    | none => rw [hfx] at h; exact absurd h (by simp)
    | some y0 =>
      rw [hfx] at h
      cases hrest : mapOption f xs with
      | none => rw [hrest] at h; exact absurd h (by simp)
      | some ys0 =>
        rw [hrest] at h
        have : y0 :: ys0 = ys := Option.some.inj h
        subst this
        rcases List.mem_cons.mp hy with h2 | h2
        · exact ⟨x, List.mem_cons.mpr (Or.inl rfl), h2 ▸ hfx⟩
        · rcases ih hrest y h2 with ⟨x2, hx2, hfx2⟩
          exact ⟨x2, List.mem_cons.mpr (Or.inr hx2), hfx2⟩

/-- Insert every element of the second list into the first, skipping
elements already present (mapset Add over a loop). -/
def setAddAll (s : List ModuleId) (xs : List ModuleId) : List ModuleId :=
  xs.foldl (fun acc x => if x ∈ acc then acc else x :: acc) s

theorem setAddAll_mem : ∀ {xs s : List ModuleId} {x : ModuleId},
    x ∈ setAddAll s xs ↔ x ∈ s ∨ x ∈ xs := by
  intro xs
  induction xs with
  | nil => intro s x; simp [setAddAll]
  | cons a xs ih =>
    intro s x
    simp only [setAddAll, List.foldl]
    by_cases ha : a ∈ s
    · rw [if_pos ha]
      rw [show List.foldl (fun acc x => if x ∈ acc then acc else x :: acc) s xs =
        setAddAll s xs from rfl, ih]
      constructor
      · rintro (h | h)
        · exact Or.inl h
        · exact Or.inr (List.mem_cons.mpr (Or.inr h))
      · rintro (h | h)
        · exact Or.inl h
        · rcases List.mem_cons.mp h with h2 | h2
          · exact Or.inl (h2 ▸ ha)
          · exact Or.inr h2
    · rw [if_neg ha]
      rw [show List.foldl (fun acc x => if x ∈ acc then acc else x :: acc) (a :: s) xs =
        setAddAll (a :: s) xs from rfl, ih]
      constructor
      · rintro (h | h)
        · rcases List.mem_cons.mp h with h2 | h2
          · exact Or.inr (List.mem_cons.mpr (Or.inl h2))
          · exact Or.inl h2
        · exact Or.inr (List.mem_cons.mpr (Or.inr h))
      · rintro (h | h)
        · exact Or.inl (List.mem_cons.mpr (Or.inr h))
        · rcases List.mem_cons.mp h with h2 | h2
          · exact Or.inl (List.mem_cons.mpr (Or.inl h2))
          · exact Or.inr h2

/-- DependencyGraph.DirectDeps (dependencygraph.go lines 66 to 82): map each
direct requirement of the node through Selected, failing (the Go code
panics) if the node has no requirement or a lookup returns nil. -/
def directDeps (g : RGraph) (sel : List (String × ModuleId)) (m : ModuleId) :
    Option (List ModuleId) :=
  match reqsFind g m with
  | none => none
  | some rs => mapOption (fun rr => selectedDep sel rr) rs.d

/-- Direct-dependency children as a total function (empty where DirectDeps
would fail), used to phrase reachability through direct dependencies. -/
def dchildren (g : RGraph) (sel : List (String × ModuleId)) (m : ModuleId) :
    List ModuleId :=
  match directDeps g sel m with
  | none => []
  | some cs => cs

/-- Transitive closure of DirectDeps from d: everything reachable from some
direct dependency of d through direct-dependency edges. -/
def TransClosureFrom (g : RGraph) (sel : List (String × ModuleId)) (d x : ModuleId) :
    Prop :=
  ∃ c ∈ dchildren g sel d, Reaches (dchildren g sel) c x

/-- Loop of computeSurpriseDeps (dependencygraph.go lines 123 to 135): pop
the head of the haystack, remove it from the needles, stop early once the
needles are gone, otherwise push the popped node's unseen direct
dependencies onto the haystack. -/
def surpriseLoop (g : RGraph) (sel : List (String × ModuleId)) :
    Nat → List ModuleId → List ModuleId → List ModuleId → Option (List ModuleId)
  | 0, _, _, _ => none
  | _ + 1, [], _, needles => some needles
  | fuel + 1, m :: hay, seen, needles =>
    if needles.filter (fun x => decide (x ≠ m)) = [] then
      some (needles.filter (fun x => decide (x ≠ m)))
    else
      match directDeps g sel m with
      | none => none
      | some cs =>
        surpriseLoop g sel fuel (pushFresh seen hay cs).2 (pushFresh seen hay cs).1
          (needles.filter (fun x => decide (x ≠ m)))

/-- computeSurpriseDeps (dependencygraph.go lines 92 to 137): check the
dependency's id, look up its requirement, seed the haystack and seen set
from the direct requirements' selected dependencies and the needles from
the immediate-indirect ones, add d itself to seen, then run the
breadth-first search.  The fuel is large enough that it never runs out. -/
def computeSurpriseDeps (g : RGraph) (sel : List (String × ModuleId)) (d : ModuleId) :
    Option (List ModuleId) :=
  if versionCheckOk d.version then
    match reqsFind g d with
    | none => none
    | some rs =>
      match mapOption (fun dr => selectedDep sel dr) rs.d,
            mapOption (fun dr => selectedDep sel dr) rs.i with
      | some hay, some nd =>
        surpriseLoop g sel (hay.length + (sel.map Prod.snd).length + 1) hay
          (setAddAll (setAddAll [] hay) [d]) (setAddAll [] nd)
      | _, _ => none
  else none

theorem selectedDep_some_inv {sel : List (String × ModuleId)} {r dd : ModuleId}
    (h : selectedDep sel r = some dd) :
    selFind sel r.path = some dd ∧ 0 ≤ semverCompare dd.version r.version := by
  unfold selectedDep at h
  cases hf : selFind sel r.path with
  | none => rw [hf] at h; exact absurd h (by simp)
  | some d0 =>
    rw [hf] at h
    have h2 : (if semverCompare d0.version r.version < 0 then none else some d0) =
        some dd := h
    by_cases hc : semverCompare d0.version r.version < 0
    · rw [if_pos hc] at h2
      exact absurd h2 (by simp)
    · rw [if_neg hc] at h2
      have : d0 = dd := Option.some.inj h2
      subst this
      exact ⟨rfl, by omega⟩

theorem selectedDep_mem_values {sel : List (String × ModuleId)} {r dd : ModuleId}
    (h : selectedDep sel r = some dd) : dd ∈ sel.map Prod.snd := by
  rcases selectedDep_some_inv h with ⟨hf, _⟩
  unfold selFind at hf
  rcases Option.map_eq_some'.mp hf with ⟨e, he, hee⟩
  have := List.mem_of_find?_eq_some he
  exact hee ▸ List.mem_map.mpr ⟨e, this, rfl⟩

theorem dchildren_sub_values (g : RGraph) (sel : List (String × ModuleId)) :
    ∀ x : ModuleId, ∀ c ∈ dchildren g sel x, c ∈ sel.map Prod.snd := by
  intro x c hc
  unfold dchildren at hc
  cases h : directDeps g sel x with
  | none => rw [h] at hc; simp at hc
  | some cs =>
    rw [h] at hc
    unfold directDeps at h
    cases h2 : reqsFind g x with
    | none => rw [h2] at h; exact absurd h (by simp)
    | some rs =>
      rw [h2] at h
      rcases mapOption_mem h c hc with ⟨rr, _, hrr⟩
      exact selectedDep_mem_values hrr

/-- Reachability that never steps out of a forbidden node: every node a
step is taken from differs from the avoided node. -/
inductive ReachAvoid {α : Type} (ch : α → List α) (avoid : α) : α → α → Prop where
  | refl : ∀ {x}, ReachAvoid ch avoid x x
  | step : ∀ {x y c}, ReachAvoid ch avoid x y → y ≠ avoid → c ∈ ch y →
      ReachAvoid ch avoid x c

/-- A reachability path to a node other than the avoided node can be
rerouted to start at a child of the avoided node and never step out of the
avoided node again. -/
theorem reach_to_avoid {α : Type} {ch : α → List α} {dd c n : α}
    (h : Reaches ch c n) (hc : c ∈ ch dd) (hn : n ≠ dd) :
    ∃ c2 ∈ ch dd, ReachAvoid ch dd c2 n := by
  induction h with
  | refl => exact ⟨c, hc, ReachAvoid.refl⟩
  | step hr hmem ih =>
    rename_i y c2
    by_cases hy : y = dd
    · subst hy
      exact ⟨c2, hmem, ReachAvoid.refl⟩
    · rcases ih hy with ⟨c3, hc3, hra⟩
      exact ⟨c3, hc3, ReachAvoid.step hra hy hmem⟩

/-- In a seen set that is closed at every node other than the avoided one,
avoiding reachability stays inside the seen set. -/
theorem reachAvoid_in_closed {α : Type} {ch : α → List α} {dd : α} {seen : List α}
    (hcl : ∀ x ∈ seen, x = dd ∨ ∀ c ∈ ch x, c ∈ seen) :
    ∀ {c2 n : α}, ReachAvoid ch dd c2 n → c2 ∈ seen → n ∈ seen := by
  intro c2 n h
  induction h with
  | refl => intro h2; exact h2
  | step hr hne hmem ih =>
    intro h2
    rename_i y c3
    have hy : y ∈ seen := ih h2
    rcases hcl y hy with h3 | h3
    · exact absurd h3 hne
    · exact h3 c3 hmem

theorem surpriseLoop_sub_needles {g : RGraph} {sel : List (String × ModuleId)} :
    ∀ {fuel : Nat} {hay seen needles res : List ModuleId},
      surpriseLoop g sel fuel hay seen needles = some res →
      ∀ n ∈ res, n ∈ needles := by
  intro fuel
  induction fuel with
  | zero => intro hay seen needles res h; exact absurd h (by simp [surpriseLoop])
  | succ fuel ih =>
    intro hay seen needles res h n hn
    cases hay with
    | nil =>
      simp only [surpriseLoop] at h
      have : needles = res := Option.some.inj h
      exact this ▸ hn
    | cons m hay =>
      simp only [surpriseLoop] at h
      by_cases hnil : needles.filter (fun x => decide (x ≠ m)) = []
      · rw [if_pos hnil] at h
        have : needles.filter (fun x => decide (x ≠ m)) = res := Option.some.inj h
        rw [← this] at hn
        exact List.mem_of_mem_filter hn
      · rw [if_neg hnil] at h
        cases hdd : directDeps g sel m with
        | none => rw [hdd] at h; exact absurd h (by simp)
        | some cs =>
          rw [hdd] at h
          have := ih h n hn
          exact List.mem_of_mem_filter this

/-- Main loop invariant argument: any node left in the needles when the
loop finishes, other than the avoided dependency itself, is not reachable
from the seeds through direct-dependency edges that avoid the dependency. -/
theorem surpriseLoop_disjoint {g : RGraph} {sel : List (String × ModuleId)}
    {dd : ModuleId} {seeds : List ModuleId} :
    ∀ {fuel : Nat} {hay seen needles res : List ModuleId},
      hay.length +
        ((sel.map Prod.snd).filter (fun u => decide (u ∉ seen))).length + 1 ≤ fuel →
      (∀ x ∈ hay, x ∈ seen) →
      (∀ x ∈ seen, x ∈ hay ∨ x = dd ∨ ∀ c ∈ dchildren g sel x, c ∈ seen) →
      (∀ n ∈ needles, n ∈ hay ∨ n = dd ∨ n ∉ seen) →
      (∀ s ∈ seeds, s ∈ seen) →
      surpriseLoop g sel fuel hay seen needles = some res →
      ∀ n ∈ res, n ≠ dd → ∀ c2 ∈ seeds, ¬ ReachAvoid (dchildren g sel) dd c2 n := by
  intro fuel
  induction fuel with
  | zero =>
    intro hay seen needles res hbud _ _ _ _ h
    exact absurd h (by simp [surpriseLoop])
  | succ fuel ih =>
    intro hay seen needles res hbud hfr hinv hnd hseed h n hn hne c2 hc2 hra
    cases hay with
    | nil =>
      simp only [surpriseLoop] at h
      have hres : needles = res := Option.some.inj h
      subst hres
      have hcl : ∀ x ∈ seen, x = dd ∨ ∀ c ∈ dchildren g sel x, c ∈ seen := by
        intro x hx
        rcases hinv x hx with h2 | h2 | h2
        · simp at h2
        · exact Or.inl h2
        · exact Or.inr h2
      have hnseen : n ∈ seen := reachAvoid_in_closed hcl hra (hseed c2 hc2)
      rcases hnd n hn with h2 | h2 | h2
      · simp at h2
      · exact hne h2
      · exact h2 hnseen
    | cons m hay =>
      simp only [surpriseLoop] at h
      by_cases hnil : needles.filter (fun x => decide (x ≠ m)) = []
      · rw [if_pos hnil] at h
        have : needles.filter (fun x => decide (x ≠ m)) = res := Option.some.inj h
        rw [← this, hnil] at hn
        simp at hn
      · rw [if_neg hnil] at h
        cases hdd2 : directDeps g sel m with
        | none => rw [hdd2] at h; exact absurd h (by simp)
        | some cs =>
          rw [hdd2] at h
          have hcs : dchildren g sel m = cs := by
            unfold dchildren
            rw [hdd2]
          have hcsu : ∀ c ∈ cs, c ∈ sel.map Prod.snd := by
            intro c hc
            exact dchildren_sub_values g sel m c (hcs ▸ hc)
          refine ih ?_ ?_ ?_ ?_ ?_ h n hn hne c2 hc2 hra
          · have hpb : (pushFresh seen hay cs).2.length +
                ((sel.map Prod.snd).filter
                  (fun u => decide (u ∉ (pushFresh seen hay cs).1))).length ≤
                hay.length +
                ((sel.map Prod.snd).filter (fun u => decide (u ∉ seen))).length :=
              pushFresh_budget hcsu
            have : (m :: hay).length = hay.length + 1 := by simp
            omega
          · intro x hx
            rcases pushFresh_fr_src hx with h2 | h2
            · exact pushFresh_seen_sub (hfr x (List.mem_cons.mpr (Or.inr h2)))
            · exact pushFresh_cs_sub h2
          · intro x hx
            rcases pushFresh_seen_src hx with h2 | h2
            · rcases hinv x h2 with h3 | h3 | h3
              · rcases List.mem_cons.mp h3 with h4 | h4
                · subst h4
                  refine Or.inr (Or.inr ?_)
                  rw [hcs]
                  intro c hc
                  exact pushFresh_cs_sub hc
                · exact Or.inl (pushFresh_fr_sub h4)
              · exact Or.inr (Or.inl h3)
              · exact Or.inr (Or.inr (fun c hc => pushFresh_seen_sub (h3 c hc)))
            · by_cases hxs : x ∈ seen
              · rcases hinv x hxs with h3 | h3 | h3
                · rcases List.mem_cons.mp h3 with h4 | h4
                  · subst h4
                    refine Or.inr (Or.inr ?_)
                    rw [hcs]
                    intro c hc
                    exact pushFresh_cs_sub hc
                  · exact Or.inl (pushFresh_fr_sub h4)
                · exact Or.inr (Or.inl h3)
                · exact Or.inr (Or.inr (fun c hc => pushFresh_seen_sub (h3 c hc)))
              · exact Or.inl (pushFresh_new_in_fr hx hxs)
          · intro n2 hn2
            have hn2m : n2 ∈ needles := List.mem_of_mem_filter hn2
            have hn2ne : n2 ≠ m := by
              have := List.of_mem_filter hn2
              simpa using this
            rcases hnd n2 hn2m with h2 | h2 | h2
            · rcases List.mem_cons.mp h2 with h3 | h3
              · exact absurd h3 hn2ne
              · exact Or.inl (pushFresh_fr_sub h3)
            · exact Or.inr (Or.inl h2)
            · by_cases hn2s : n2 ∈ (pushFresh seen hay cs).1
              · rcases pushFresh_seen_src hn2s with h3 | h3
                · exact absurd h3 h2
                · exact Or.inl (pushFresh_new_in_fr hn2s h2)
              · exact Or.inr (Or.inr hn2s)
          · intro s hs
            exact pushFresh_seen_sub (hseed s hs)

/-- CLAIM C3 (corrected).  Amended claim: every member of the computed
surprise set other than d itself lies outside the transitive closure of
DirectDeps from d (d itself can be both a surprise dependency and on a
direct-dependency cycle, see the counterexample); and every member
satisfies an immediate-indirect requirement of d's requirement. -/
theorem computeSurpriseDeps_amended (g : RGraph) (sel : List (String × ModuleId))
    (d : ModuleId) (res : List ModuleId)
    (h : computeSurpriseDeps g sel d = some res) :
    (∀ n ∈ res, n ≠ d → ¬ TransClosureFrom g sel d n) ∧
    (∀ n ∈ res, ∃ rs, reqsFind g d = some rs ∧ ∃ dr ∈ rs.i,
      selFind sel dr.path = some n ∧ 0 ≤ semverCompare n.version dr.version) := by
  unfold computeSurpriseDeps at h
  by_cases hok : versionCheckOk d.version
  · rw [if_pos hok] at h
    cases hrs : reqsFind g d with
    | none => rw [hrs] at h; exact absurd h (by simp)
    | some rs =>
      rw [hrs] at h
      replace h : (match mapOption (fun dr => selectedDep sel dr) rs.d,
          mapOption (fun dr => selectedDep sel dr) rs.i with
        | some hay, some nd =>
          surpriseLoop g sel (hay.length + (sel.map Prod.snd).length + 1) hay
            (setAddAll (setAddAll [] hay) [d]) (setAddAll [] nd)
        | _, _ => none) = some res := h
      cases hhay : mapOption (fun dr => selectedDep sel dr) rs.d with
      | none => rw [hhay] at h; exact absurd h (by simp)
      | some hay =>
        rw [hhay] at h
        cases hnd : mapOption (fun dr => selectedDep sel dr) rs.i with
        | none => rw [hnd] at h; exact absurd h (by simp)
        | some nd =>
          rw [hnd] at h
          replace h : surpriseLoop g sel (hay.length + (sel.map Prod.snd).length + 1) hay
            (setAddAll (setAddAll [] hay) [d]) (setAddAll [] nd) = some res := h
          have hseen0 : ∀ x, x ∈ setAddAll (setAddAll [] hay) [d] ↔ x ∈ hay ∨ x = d := by
            intro x
            rw [setAddAll_mem]
            constructor
            · rintro (h2 | h2)
              · rcases setAddAll_mem.mp h2 with h3 | h3
                · simp at h3
                · exact Or.inl h3
              · exact Or.inr (List.mem_singleton.mp h2)
            · rintro (h2 | h2)
              · exact Or.inl (setAddAll_mem.mpr (Or.inr h2))
              · exact Or.inr (List.mem_singleton.mpr h2)
          have hdch : dchildren g sel d = hay := by
            unfold dchildren directDeps
            rw [hrs]
            show (match mapOption (fun rr => selectedDep sel rr) rs.d with
              | none => [] | some cs => cs) = hay
            rw [hhay]
          constructor
          · intro n hn hne htc
            rcases htc with ⟨c, hc, hreach⟩
            rcases reach_to_avoid hreach hc hne with ⟨c2, hc2, hra⟩
            refine surpriseLoop_disjoint ?_ ?_ ?_ ?_ ?_ h n hn hne c2 hc2 hra
            · have := List.length_filter_le
                (fun u => decide (u ∉ setAddAll (setAddAll [] hay) [d]))
                (sel.map Prod.snd)
              omega
            · intro x hx
              exact (hseen0 x).mpr (Or.inl hx)
            · intro x hx
              rcases (hseen0 x).mp hx with h2 | h2
              · exact Or.inl h2
              · exact Or.inr (Or.inl h2)
            · intro n2 hn2
              by_cases hn2s : n2 ∈ setAddAll (setAddAll [] hay) [d]
              · rcases (hseen0 n2).mp hn2s with h2 | h2
                · exact Or.inl h2
                · exact Or.inr (Or.inl h2)
              · exact Or.inr (Or.inr hn2s)
            · intro s hs
              exact (hseen0 s).mpr (Or.inl (hdch ▸ hs))
          · intro n hn
            have hmem : n ∈ setAddAll [] nd := surpriseLoop_sub_needles h n hn
            have : n ∈ nd := by
              rcases setAddAll_mem.mp hmem with h2 | h2
              · simp at h2
              · exact h2
            rcases mapOption_mem hnd n this with ⟨dr, hdr, hsel⟩
            rcases selectedDep_some_inv hsel with ⟨hf, hc⟩
            exact ⟨rs, rfl, dr, hdr, hf, hc⟩
  · rw [if_neg hok] at h
    exact absurd h (by simp)

/-- Witness for the C3 amended theorem: a root with one immediate-indirect
requirement and no direct requirements; its selected dependency is a
surprise dependency satisfying that requirement, and it is outside the
(empty) direct closure. -/
theorem computeSurpriseDeps_amended_witness :
    let g : RGraph := ⟨⟨"r", "v1.0.0"⟩,
      [(⟨"r", "v1.0.0"⟩, ⟨[], [⟨"b", "v1.0.0"⟩]⟩), (⟨"b", "v1.0.0"⟩, ⟨[], []⟩)]⟩
    let sel := resolveMvsSel (reachList g)
    (∀ n ∈ [(⟨"b", "v1.0.0"⟩ : ModuleId)], n ≠ ⟨"r", "v1.0.0"⟩ →
      ¬ TransClosureFrom g sel ⟨"r", "v1.0.0"⟩ n) ∧
    (∀ n ∈ [(⟨"b", "v1.0.0"⟩ : ModuleId)], ∃ rs,
      reqsFind g ⟨"r", "v1.0.0"⟩ = some rs ∧ ∃ dr ∈ rs.i,
      selFind sel dr.path = some n ∧ 0 ≤ semverCompare n.version dr.version) := by
  intro g sel
  exact computeSurpriseDeps_amended g sel ⟨"r", "v1.0.0"⟩ [⟨"b", "v1.0.0"⟩] (by decide)

/-- CLAIM C3 counterexample.  A dependency graph produced by ResolveMvs in
which the root both lies on a direct-dependency cycle and satisfies its own
immediate-indirect requirement: the computed surprise set contains the root
itself, which is also in the transitive closure of DirectDeps from the
root, so the two sets are not disjoint. -/
theorem computeSurpriseDeps_not_disjoint :
    let g : RGraph := ⟨⟨"p", "v2.0.0"⟩,
      [(⟨"p", "v2.0.0"⟩, ⟨[⟨"al", "v1.0.0"⟩], [⟨"p", "v1.0.0"⟩]⟩),
       (⟨"al", "v1.0.0"⟩, ⟨[⟨"p", "v2.0.0"⟩], []⟩),
       (⟨"p", "v1.0.0"⟩, ⟨[], []⟩)]⟩
    let sel := resolveMvsSel (reachList g)
    computeSurpriseDeps g sel ⟨"p", "v2.0.0"⟩ = some [⟨"p", "v2.0.0"⟩] ∧
    TransClosureFrom g sel ⟨"p", "v2.0.0"⟩ ⟨"p", "v2.0.0"⟩ := by
  intro g sel
  constructor
  · decide
  · refine ⟨⟨"al", "v1.0.0"⟩, by decide, ?_⟩
    exact Reaches.step Reaches.refl (by decide)

/-! ## The SAT encoding (buildSatProblem, ResolveSat)

buildSatProblem enumerates the reachable requirements, sorts them by
RequirementCompare, numbers them, and emits: a unit clause selecting the
root, an at-most-one constraint per multi-version path group, and, for
every requirement edge, a clause from the negated parent literal and the
literals of the sorted run starting at the required node with the same
path.  Literals are 1-based as in DIMACS (gophersat Var.Int is index plus
one); a negative literal is the negated integer.  The cost function is not
modelled (no claim mentions it).
-/

/-- One pseudo-boolean constraint of the SAT problem. -/
inductive SatConstr where
  | clause (lits : List Int)
  | atMost (lits : List Int) (k : Nat)
deriving DecidableEq

/-- Variable of a requirement: its index in the sorted node list; a
requirement absent from the list gets the zero variable, as a Go map lookup
of a missing key does. -/
def varOf (nodes : List ModuleId) (m : ModuleId) : Nat :=
  if m ∈ nodes then nodes.indexOf m else 0

/-- Literal run for a requirement clause (buildSatProblem inner loop):
starting at index s, take successive indices while the node path equals the
required path, emitting the 1-based literal of each. -/
def reqRange (nodes : List ModuleId) (p : String) (s : Nat) : List Int :=
  if h : s < nodes.length then
    if (nodes.get ⟨s, h⟩).path = p then
      (Int.ofNat s + 1) :: reqRange nodes p (s + 1)
    else []
  else []
termination_by nodes.length - s

/-- One step of the buildSatProblem main loop at index v: emit the
at-most-one constraint when the path group ends here, then the requirement
clauses of the node, then continue with the next index. -/
def buildLoopAux (g : RGraph) (nodes : List ModuleId) :
    List ModuleId → Nat → List Int → List SatConstr
  | [], _, _ => []
  | m :: rest, v, pathLits =>
    (match rest with
     | [] => if 1 < (pathLits ++ [Int.ofNat v + 1]).length then
          [SatConstr.atMost (pathLits ++ [Int.ofNat v + 1]) 1] else []
     | m2 :: _ =>
        if m2.path ≠ m.path then
          (if 1 < (pathLits ++ [Int.ofNat v + 1]).length then
            [SatConstr.atMost (pathLits ++ [Int.ofNat v + 1]) 1] else [])
        else []) ++
    (childrenOf g m).map (fun req =>
      SatConstr.clause ((-(Int.ofNat v + 1)) :: reqRange nodes req.path (varOf nodes req))) ++
    buildLoopAux g nodes rest (v + 1)
      (match rest with
       | [] => []
       | m2 :: _ => if m2.path ≠ m.path then [] else pathLits ++ [Int.ofNat v + 1])

/-- All constraints of the SAT problem built by buildSatProblem: the root
unit clause followed by the main loop output. -/
def buildSatConstrs (g : RGraph) (nodes : List ModuleId) : List SatConstr :=
  SatConstr.clause [Int.ofNat (varOf nodes g.root) + 1] :: buildLoopAux g nodes nodes 0 []

/-- Literals of every index below v whose node has the given path. -/
def prefixLits (nodes : List ModuleId) (v : Nat) (p : String) : List Int :=
  (List.range v).filterMap (fun w =>
    if h : w < nodes.length then
      (if (nodes.get ⟨w, h⟩).path = p then some (Int.ofNat w + 1) else none)
    else none)

/-- Literals of every node with the given path. -/
def pathLitsOf (nodes : List ModuleId) (p : String) : List Int :=
  prefixLits nodes nodes.length p

theorem reqRange_sound {nodes : List ModuleId} {p : String} :
    ∀ {s : Nat}, ∀ lit ∈ reqRange nodes p s, ∃ w, ∃ hw : w < nodes.length,
      lit = Int.ofNat w + 1 ∧ s ≤ w ∧ (nodes.get ⟨w, hw⟩).path = p := by
  intro s
  induction s using reqRange.induct nodes p with
  | case1 s h hp ih =>
    intro lit hlit
    rw [reqRange, dif_pos h, if_pos hp] at hlit
    rcases List.mem_cons.mp hlit with h2 | h2
    · exact ⟨s, h, h2, Nat.le_refl s, hp⟩
    · rcases ih lit h2 with ⟨w, hw, h3, h4, h5⟩
      exact ⟨w, hw, h3, Nat.le_of_succ_le h4, h5⟩
  | case2 s h hp =>
    intro lit hlit
    rw [reqRange, dif_pos h, if_neg hp] at hlit
    simp at hlit
  | case3 s h =>
    intro lit hlit
    rw [reqRange, dif_neg h] at hlit
    simp at hlit

theorem reqRange_complete {nodes : List ModuleId} {p : String} :
    ∀ {s w : Nat} (hw : w < nodes.length), s ≤ w →
      (∀ k (hk1 : s ≤ k) (hk2 : k ≤ w), (nodes.get ⟨k, Nat.lt_of_le_of_lt hk2 hw⟩).path = p) →
      (Int.ofNat w + 1) ∈ reqRange nodes p s := by
  intro s
  induction s using reqRange.induct nodes p with
  | case1 s h hp ih =>
    intro w hw hsw hall
    rw [reqRange, dif_pos h, if_pos hp]
    rcases Nat.eq_or_lt_of_le hsw with h2 | h2
    · exact List.mem_cons.mpr (Or.inl (by rw [h2]))
    · refine List.mem_cons.mpr (Or.inr (ih hw h2 ?_))
      intro k hk1 hk2
      exact hall k (Nat.le_of_succ_le hk1) hk2
  | case2 s h hp =>
    intro w hw hsw hall
    exact absurd (hall s (Nat.le_refl s) hsw) hp
  | case3 s h =>
    intro w hw hsw hall
    exact absurd (Nat.lt_of_le_of_lt hsw hw) (by omega)

theorem stringCmp_refl (s : String) : stringCmp s s = 0 :=
  stringCmp_eq_zero_iff.mpr rfl

/-- A nonpositive ModuleIdCompare forces a nonpositive path comparison. -/
theorem mic_le_path {a b : ModuleId} (h : moduleIdCompare a b ≤ 0) :
    stringCmp a.path b.path ≤ 0 := by
  unfold moduleIdCompare at h
  by_cases h0 : stringCmp a.path b.path = 0
  · omega
  · rw [thenCmp_of_ne h0] at h
    exact h

/-- On equal paths a nonpositive ModuleIdCompare is a nonpositive version
comparison. -/
theorem mic_le_ver {a b : ModuleId} (h : moduleIdCompare a b ≤ 0)
    (hp : a.path = b.path) : semverCompare a.version b.version ≤ 0 := by
  unfold moduleIdCompare at h
  rw [stringCmp_eq_zero_iff.mpr hp, thenCmp_of_eq rfl] at h
  exact h

/-- Index access into the pairwise sortedness hypothesis. -/
theorem sorted_get {nodes : List ModuleId}
    (hs : List.Pairwise (fun a b => moduleIdCompare a b ≤ 0) nodes)
    {i j : Nat} (hi : i < nodes.length) (hj : j < nodes.length) (hij : i < j) :
    moduleIdCompare (nodes.get ⟨i, hi⟩) (nodes.get ⟨j, hj⟩) ≤ 0 := by
  exact List.pairwise_iff_getElem.mp hs i j hi hj hij

theorem sorted_get_le {nodes : List ModuleId}
    (hs : List.Pairwise (fun a b => moduleIdCompare a b ≤ 0) nodes)
    {i j : Nat} (hi : i < nodes.length) (hj : j < nodes.length) (hij : i ≤ j) :
    moduleIdCompare (nodes.get ⟨i, hi⟩) (nodes.get ⟨j, hj⟩) ≤ 0 := by
  rcases Nat.eq_or_lt_of_le hij with h | h
  · subst h
    have h0 : moduleIdCompare (nodes.get ⟨i, hi⟩) (nodes.get ⟨i, hi⟩) = 0 :=
      moduleIdCompare_isCmp.refl trivial
    omega
  · exact sorted_get hs hi hj h

/-- Contiguity of path groups in a sorted node list: an index between two
indices holding the same path also holds that path. -/
theorem path_run {nodes : List ModuleId}
    (hs : List.Pairwise (fun a b => moduleIdCompare a b ≤ 0) nodes)
    {i k j : Nat} (hj : j < nodes.length) (hik : i ≤ k) (hkj : k ≤ j)
    (hp : (nodes.get ⟨i, Nat.lt_of_le_of_lt (Nat.le_trans hik hkj) hj⟩).path =
      (nodes.get ⟨j, hj⟩).path) :
    (nodes.get ⟨k, Nat.lt_of_le_of_lt hkj hj⟩).path =
      (nodes.get ⟨j, hj⟩).path := by
  have hi : i < nodes.length := Nat.lt_of_le_of_lt (Nat.le_trans hik hkj) hj
  have hk : k < nodes.length := Nat.lt_of_le_of_lt hkj hj
  have h1 : stringCmp (nodes.get ⟨i, hi⟩).path (nodes.get ⟨k, hk⟩).path ≤ 0 :=
    mic_le_path (sorted_get_le hs hi hk hik)
  have h2 : stringCmp (nodes.get ⟨k, hk⟩).path (nodes.get ⟨j, hj⟩).path ≤ 0 :=
    mic_le_path (sorted_get_le hs hk hj hkj)
  rw [hp] at h1
  have h3 : stringCmp (nodes.get ⟨j, hj⟩).path (nodes.get ⟨k, hk⟩).path =
      -(stringCmp (nodes.get ⟨k, hk⟩).path (nodes.get ⟨j, hj⟩).path) :=
    listCmp_symm _ _
  have h4 : stringCmp (nodes.get ⟨k, hk⟩).path (nodes.get ⟨j, hj⟩).path = 0 := by omega
  exact stringCmp_eq_zero_iff.mp h4

theorem prefixLits_mem {nodes : List ModuleId} {v : Nat} {p : String} {lit : Int} :
    lit ∈ prefixLits nodes v p ↔ ∃ w, ∃ hw : w < nodes.length,
      w < v ∧ lit = Int.ofNat w + 1 ∧ (nodes.get ⟨w, hw⟩).path = p := by
  unfold prefixLits
  rw [List.mem_filterMap]
  constructor
  · rintro ⟨w, hw1, hw2⟩
    have hwv : w < v := List.mem_range.mp hw1
    by_cases h : w < nodes.length
    · rw [dif_pos h] at hw2
      by_cases hp : (nodes.get ⟨w, h⟩).path = p
      · rw [if_pos hp] at hw2
        exact ⟨w, h, hwv, (Option.some.inj hw2).symm, hp⟩
      · rw [if_neg hp] at hw2
        exact absurd hw2 (by simp)
    · rw [dif_neg h] at hw2
      exact absurd hw2 (by simp)
  · rintro ⟨w, hw, hwv, hlit, hp⟩
    refine ⟨w, List.mem_range.mpr hwv, ?_⟩
    rw [dif_pos hw, if_pos hp, hlit]

theorem prefixLits_succ {nodes : List ModuleId} {v : Nat} {p : String}
    (hv : v < nodes.length) :
    prefixLits nodes (v + 1) p = prefixLits nodes v p ++
      (if (nodes.get ⟨v, hv⟩).path = p then [Int.ofNat v + 1] else []) := by
  unfold prefixLits
  rw [List.range_succ, List.filterMap_append]
  congr 1
  by_cases hp : (nodes.get ⟨v, hv⟩).path = p
  · simp only [List.get_eq_getElem] at hp
    simp [hv, hp]
  · simp only [List.get_eq_getElem] at hp
    simp [hv, hp]

theorem pathLitsOf_mem {nodes : List ModuleId} {p : String} {lit : Int} :
    lit ∈ pathLitsOf nodes p ↔ ∃ w, ∃ hw : w < nodes.length,
      lit = Int.ofNat w + 1 ∧ (nodes.get ⟨w, hw⟩).path = p := by
  unfold pathLitsOf
  rw [prefixLits_mem]
  constructor
  · rintro ⟨w, hw, _, h2, h3⟩
    exact ⟨w, hw, h2, h3⟩
  · rintro ⟨w, hw, h2, h3⟩
    exact ⟨w, hw, hw, h2, h3⟩

theorem two_mem_length {α : Type} {l : List α} {a b : α}
    (ha : a ∈ l) (hb : b ∈ l) (hab : a ≠ b) : 2 ≤ l.length := by
  match l with
  | [] => cases ha
  | [x] =>
    rw [List.mem_singleton] at ha hb
    exact absurd (ha.trans hb.symm) hab
  | x :: y :: t => simp only [List.length_cons]; omega

theorem buildLoopAux_cons (g : RGraph) (nodes : List ModuleId) (m : ModuleId)
    (rest : List ModuleId) (v : Nat) (pathLits : List Int) :
    buildLoopAux g nodes (m :: rest) v pathLits =
    (match rest with
     | [] => if 1 < (pathLits ++ [Int.ofNat v + 1]).length then
          [SatConstr.atMost (pathLits ++ [Int.ofNat v + 1]) 1] else []
     | m2 :: _ =>
        if m2.path ≠ m.path then
          (if 1 < (pathLits ++ [Int.ofNat v + 1]).length then
            [SatConstr.atMost (pathLits ++ [Int.ofNat v + 1]) 1] else [])
        else []) ++
    (childrenOf g m).map (fun req =>
      SatConstr.clause ((-(Int.ofNat v + 1)) :: reqRange nodes req.path (varOf nodes req))) ++
    buildLoopAux g nodes rest (v + 1)
      (match rest with
       | [] => []
       | m2 :: _ => if m2.path ≠ m.path then [] else pathLits ++ [Int.ofNat v + 1]) := rfl

/-- The main loop emits the requirement clause of every edge of every
remaining node. -/
theorem buildLoopAux_req_mem (g : RGraph) (nodes : List ModuleId) :
    ∀ (rest : List ModuleId) (v0 : Nat) (pl : List Int) (j : Nat) (hj : j < rest.length)
      (req : ModuleId), req ∈ childrenOf g (rest.get ⟨j, hj⟩) →
      SatConstr.clause ((-(Int.ofNat (v0 + j) + 1)) ::
        reqRange nodes req.path (varOf nodes req)) ∈ buildLoopAux g nodes rest v0 pl := by
  intro rest
  induction rest with
  | nil =>
    intro v0 pl j hj req hreq
    exact absurd hj (by simp)
  | cons m rest2 ih =>
    intro v0 pl j hj req hreq
    rw [buildLoopAux_cons]
    match j with
    | 0 =>
      refine List.mem_append.mpr (Or.inl (List.mem_append.mpr (Or.inr ?_)))
      refine List.mem_map.mpr ⟨req, hreq, ?_⟩
      rw [Nat.add_zero]
    | j2 + 1 =>
      refine List.mem_append.mpr (Or.inr ?_)
      have h2 : v0 + (j2 + 1) = (v0 + 1) + j2 := by omega
      rw [h2]
      exact ih (v0 + 1) _ j2 (Nat.lt_of_succ_lt_succ hj) req hreq

/-- Soundness of the clause range: in a sorted node list, every literal of
the run starting at the required node names a node with the required path
whose version compares at least the required version. -/
theorem reqRange_version_ge {nodes : List ModuleId}
    (hs : List.Pairwise (fun a b => moduleIdCompare a b ≤ 0) nodes)
    {r : ModuleId} (hr : r ∈ nodes) :
    ∀ lit ∈ reqRange nodes r.path (varOf nodes r), ∃ w, ∃ hw : w < nodes.length,
      lit = Int.ofNat w + 1 ∧ (nodes.get ⟨w, hw⟩).path = r.path ∧
      0 ≤ semverCompare (nodes.get ⟨w, hw⟩).version r.version := by
  intro lit hlit
  rcases reqRange_sound lit hlit with ⟨w, hw, h1, h2, h3⟩
  have hidx : nodes.indexOf r < nodes.length := List.indexOf_lt_length.mpr hr
  have hvar : varOf nodes r = nodes.indexOf r := by
    unfold varOf
    rw [if_pos hr]
  rw [hvar] at h2
  have hgetr : nodes.get ⟨nodes.indexOf r, hidx⟩ = r := by
    simp only [List.get_eq_getElem]
    exact List.getElem_indexOf hidx
  refine ⟨w, hw, h1, h3, ?_⟩
  rcases Nat.eq_or_lt_of_le h2 with he | hlt
  · subst he
    have h4 : nodes.get ⟨nodes.indexOf r, hw⟩ = r := hgetr
    rw [h4, semverCompare_refl]
  · have hcmp : moduleIdCompare r (nodes.get ⟨w, hw⟩) ≤ 0 := by
      have := sorted_get hs hidx hw hlt
      rw [hgetr] at this
      exact this
    have hle : semverCompare r.version (nodes.get ⟨w, hw⟩).version ≤ 0 :=
      mic_le_ver hcmp h3.symm
    have := semverCompare_symm (nodes.get ⟨w, hw⟩).version r.version
    omega

/-- Completeness of the clause range under tie-freedom: every node with the
required path and a version at least the required version contributes its
literal to the clause. -/
theorem reqRange_covers {nodes : List ModuleId}
    (hs : List.Pairwise (fun a b => moduleIdCompare a b ≤ 0) nodes)
    (htf : ∀ a ∈ nodes, ∀ b ∈ nodes, moduleIdCompare a b = 0 → a = b)
    {r : ModuleId} (hr : r ∈ nodes) {n : ModuleId} (hn : n ∈ nodes)
    (hp : n.path = r.path) (hv : 0 ≤ semverCompare n.version r.version) :
    (Int.ofNat (nodes.indexOf n) + 1) ∈ reqRange nodes r.path (varOf nodes r) := by
  have hidr : nodes.indexOf r < nodes.length := List.indexOf_lt_length.mpr hr
  have hidn : nodes.indexOf n < nodes.length := List.indexOf_lt_length.mpr hn
  have hvar : varOf nodes r = nodes.indexOf r := by
    unfold varOf
    rw [if_pos hr]
  have hgetr : nodes.get ⟨nodes.indexOf r, hidr⟩ = r := by
    simp only [List.get_eq_getElem]
    exact List.getElem_indexOf hidr
  have hgetn : nodes.get ⟨nodes.indexOf n, hidn⟩ = n := by
    simp only [List.get_eq_getElem]
    exact List.getElem_indexOf hidn
  have hle : nodes.indexOf r ≤ nodes.indexOf n := by
    by_contra hcon
    have hlt : nodes.indexOf n < nodes.indexOf r := by omega
    have hcmp : moduleIdCompare n r ≤ 0 := by
      have := sorted_get hs hidn hidr hlt
      rw [hgetr, hgetn] at this
      exact this
    have hvle : semverCompare n.version r.version ≤ 0 := mic_le_ver hcmp hp
    have hz : moduleIdCompare n r = 0 := by
      unfold moduleIdCompare
      rw [stringCmp_eq_zero_iff.mpr hp, thenCmp_of_eq rfl]
      omega
    have : n = r := htf n hn r hr hz
    rw [this] at hlt
    omega
  rw [hvar]
  refine reqRange_complete hidn hle ?_
  intro k hk1 hk2
  have h1 : (nodes.get ⟨nodes.indexOf r, hidr⟩).path = (nodes.get ⟨nodes.indexOf n, hidn⟩).path := by
    rw [hgetr, hgetn, hp]
  have := path_run hs hidn hk1 hk2 h1
  rw [hgetn, hp] at this
  exact this

theorem buildLoopAux_nil (g : RGraph) (nodes : List ModuleId) (v : Nat) (pl : List Int) :
    buildLoopAux g nodes [] v pl = [] := rfl

theorem buildLoopAux_single (g : RGraph) (nodes : List ModuleId) (m : ModuleId)
    (v : Nat) (pl : List Int) :
    buildLoopAux g nodes [m] v pl =
    (if 1 < (pl ++ [Int.ofNat v + 1]).length then
        [SatConstr.atMost (pl ++ [Int.ofNat v + 1]) 1] else []) ++
    (childrenOf g m).map (fun req =>
      SatConstr.clause ((-(Int.ofNat v + 1)) :: reqRange nodes req.path (varOf nodes req))) ++
    buildLoopAux g nodes [] (v + 1) [] := rfl

theorem buildLoopAux_pair (g : RGraph) (nodes : List ModuleId) (m m2 : ModuleId)
    (rest : List ModuleId) (v : Nat) (pl : List Int) :
    buildLoopAux g nodes (m :: m2 :: rest) v pl =
    (if m2.path ≠ m.path then
        (if 1 < (pl ++ [Int.ofNat v + 1]).length then
          [SatConstr.atMost (pl ++ [Int.ofNat v + 1]) 1] else [])
      else []) ++
    (childrenOf g m).map (fun req =>
      SatConstr.clause ((-(Int.ofNat v + 1)) :: reqRange nodes req.path (varOf nodes req))) ++
    buildLoopAux g nodes (m2 :: rest) (v + 1)
      (if m2.path ≠ m.path then [] else pl ++ [Int.ofNat v + 1]) := rfl

theorem prefixLits_succ_ge {nodes : List ModuleId} {v : Nat} {p : String}
    (h : nodes.length ≤ v) : prefixLits nodes (v + 1) p = prefixLits nodes v p := by
  unfold prefixLits
  rw [List.range_succ, List.filterMap_append]
  have h2 : ¬ v < nodes.length := by omega
  simp [h2]

theorem prefixLits_stable {nodes : List ModuleId} {v : Nat} {p : String}
    (hnone : ∀ w (hw : w < nodes.length), v ≤ w → (nodes.get ⟨w, hw⟩).path ≠ p) :
    ∀ d, prefixLits nodes (v + d) p = prefixLits nodes v p := by
  intro d
  induction d with
  | zero => rfl
  | succ d ih =>
    by_cases h : v + d < nodes.length
    · rw [show v + (d + 1) = (v + d) + 1 by omega, prefixLits_succ h,
        if_neg (hnone _ h (by omega)), List.append_nil, ih]
    · rw [show v + (d + 1) = (v + d) + 1 by omega, prefixLits_succ_ge (by omega), ih]

theorem pathLitsOf_eq_prefix {nodes : List ModuleId} {v : Nat} {p : String}
    (hv : v ≤ nodes.length)
    (hnone : ∀ w (hw : w < nodes.length), v ≤ w → (nodes.get ⟨w, hw⟩).path ≠ p) :
    pathLitsOf nodes p = prefixLits nodes v p := by
  unfold pathLitsOf
  rw [show nodes.length = v + (nodes.length - v) by omega]
  exact prefixLits_stable hnone _

/-- The main loop emits the at-most-one constraint of every path group that
holds more than one literal, provided the incoming pathLits accumulator is
the group prefix. -/
theorem buildLoopAux_amo_aux (g : RGraph) {nodes : List ModuleId}
    (hs : List.Pairwise (fun a b => moduleIdCompare a b ≤ 0) nodes)
    {p : String} (hgt : 1 < (pathLitsOf nodes p).length) :
    ∀ (fuel v0 : Nat) (pl : List Int), nodes.length - v0 ≤ fuel →
      (∃ w, ∃ hw : w < nodes.length, v0 ≤ w ∧ (nodes.get ⟨w, hw⟩).path = p) →
      (∀ hv0 : v0 < nodes.length, (nodes.get ⟨v0, hv0⟩).path = p →
        pl = prefixLits nodes v0 p) →
      SatConstr.atMost (pathLitsOf nodes p) 1 ∈
        buildLoopAux g nodes (nodes.drop v0) v0 pl := by
  intro fuel
  induction fuel with
  | zero =>
    intro v0 pl hfuel hafter hpl
    rcases hafter with ⟨w, hw, hvw, hwp⟩
    omega
  | succ fuel ih =>
    intro v0 pl hfuel hafter hpl
    rcases hafter with ⟨w, hw, hvw, hwp⟩
    have hv0 : v0 < nodes.length := Nat.lt_of_le_of_lt hvw hw
    rw [List.drop_eq_getElem_cons hv0]
    by_cases hm : (nodes.get ⟨v0, hv0⟩).path = p
    · have hpleq : pl = prefixLits nodes v0 p := hpl hv0 hm
      cases hrest : nodes.drop (v0 + 1) with
      | nil =>
        have hlen0 := congrArg List.length hrest
        simp at hlen0
        rw [buildLoopAux_single]
        have hpeq : pathLitsOf nodes p = pl ++ [Int.ofNat v0 + 1] := by
          have h1 : pathLitsOf nodes p = prefixLits nodes (v0 + 1) p :=
            pathLitsOf_eq_prefix (by omega) (fun w2 hw2 hge => by omega)
          rw [h1, prefixLits_succ hv0, if_pos hm, hpleq]
        rw [hpeq]
        have hlength : 1 < (pl ++ [Int.ofNat v0 + 1]).length := by
          rw [← hpeq]
          exact hgt
        rw [if_pos hlength]
        exact List.mem_append.mpr (Or.inl (List.mem_append.mpr
          (Or.inl (List.mem_singleton.mpr rfl))))
      | cons m2 rest2 =>
        have hlen1 := congrArg List.length hrest
        simp at hlen1
        have hv1 : v0 + 1 < nodes.length := by omega
        have hm2 : m2 = nodes.get ⟨v0 + 1, hv1⟩ := by
          have h2 := List.drop_eq_getElem_cons hv1
          rw [hrest] at h2
          simp only [List.get_eq_getElem]
          exact (List.cons.injEq m2 rest2 _ _).mp h2 |>.1
        rw [buildLoopAux_pair]
        by_cases hb : m2.path = (nodes.get ⟨v0, hv0⟩).path
        · have hcond : ¬ (m2.path ≠ (nodes.get ⟨v0, hv0⟩).path) := fun hne => hne hb
          simp only [List.get_eq_getElem] at hcond
          rw [if_neg hcond, if_neg hcond]
          refine List.mem_append.mpr (Or.inr ?_)
          rw [← hrest]
          refine ih (v0 + 1) (pl ++ [Int.ofNat v0 + 1]) (by omega)
            ⟨v0 + 1, hv1, Nat.le_refl _, by rw [← hm2, hb, hm]⟩ ?_
          intro hv0b hpb
          rw [prefixLits_succ hv0, if_pos hm, hpleq]
        · have hcond : m2.path ≠ (nodes.get ⟨v0, hv0⟩).path := hb
          simp only [List.get_eq_getElem] at hcond
          rw [if_pos hcond]
          have hnone : ∀ w2 (hw2 : w2 < nodes.length), v0 + 1 ≤ w2 →
              (nodes.get ⟨w2, hw2⟩).path ≠ p := by
            intro w2 hw2 hge hpw2
            have h1 : (nodes.get ⟨v0, Nat.lt_of_le_of_lt (Nat.le_trans (by omega) hge) hw2⟩).path =
                (nodes.get ⟨w2, hw2⟩).path := by
              rw [hpw2]
              exact hm
            have h2 := path_run hs hw2 (show v0 ≤ v0 + 1 by omega) hge h1
            rw [hpw2] at h2
            rw [← hm2] at h2
            exact hcond (h2.trans hm.symm)
          have hpeq : pathLitsOf nodes p = pl ++ [Int.ofNat v0 + 1] := by
            have h1 : pathLitsOf nodes p = prefixLits nodes (v0 + 1) p :=
              pathLitsOf_eq_prefix (by omega) hnone
            rw [h1, prefixLits_succ hv0, if_pos hm, hpleq]
          rw [hpeq]
          have hlength : 1 < (pl ++ [Int.ofNat v0 + 1]).length := by
            rw [← hpeq]
            exact hgt
          rw [if_pos hlength]
          exact List.mem_append.mpr (Or.inl (List.mem_append.mpr
            (Or.inl (List.mem_singleton.mpr rfl))))
    · have hne : w ≠ v0 := by
        intro h
        subst h
        exact hm hwp
      have hge : v0 + 1 ≤ w := by omega
      have hv1 : v0 + 1 < nodes.length := Nat.lt_of_le_of_lt hge hw
      rw [List.drop_eq_getElem_cons hv1, buildLoopAux_pair]
      refine List.mem_append.mpr (Or.inr ?_)
      rw [← List.drop_eq_getElem_cons hv1]
      refine ih (v0 + 1) _ (by omega) ⟨w, hw, hge, hwp⟩ ?_
      intro hv0b hpb
      have hcond : (nodes.get ⟨v0 + 1, hv1⟩).path ≠ (nodes.get ⟨v0, hv0⟩).path := by
        intro heq
        apply hm
        rw [← heq]
        exact hpb
      simp only [List.get_eq_getElem] at hcond
      rw [if_pos hcond]
      have hemp : prefixLits nodes (v0 + 1) p = [] := by
        rw [List.eq_nil_iff_forall_not_mem]
        intro lit hlit
        rcases prefixLits_mem.mp hlit with ⟨w2, hw2, hlt2, hlit2, hp2⟩
        have h1 : (nodes.get ⟨w2, Nat.lt_of_le_of_lt (Nat.le_trans (by omega)
            (show v0 ≤ w by omega)) hw⟩).path = (nodes.get ⟨w, hw⟩).path := by
          rw [hp2, hwp]
        have h2 := path_run hs hw (show w2 ≤ v0 by omega) (show v0 ≤ w by omega) h1
        rw [hwp] at h2
        exact hm h2
      rw [hemp]

/-- Top-level at-most-one emission: a path held by two distinct nodes of a
sorted node list gets an AtMost constraint over all its literals. -/
theorem buildSatConstrs_amo (g : RGraph) {nodes : List ModuleId}
    (hs : List.Pairwise (fun a b => moduleIdCompare a b ≤ 0) nodes)
    {p : String} {n1 n2 : ModuleId} (h1 : n1 ∈ nodes) (h2 : n2 ∈ nodes)
    (h12 : n1 ≠ n2) (hp1 : n1.path = p) (hp2 : n2.path = p) :
    SatConstr.atMost (pathLitsOf nodes p) 1 ∈ buildSatConstrs g nodes ∧
    2 ≤ (pathLitsOf nodes p).length := by
  have hi1 : nodes.indexOf n1 < nodes.length := List.indexOf_lt_length.mpr h1
  have hi2 : nodes.indexOf n2 < nodes.length := List.indexOf_lt_length.mpr h2
  have hg1 : nodes.get ⟨nodes.indexOf n1, hi1⟩ = n1 := by
    simp only [List.get_eq_getElem]
    exact List.getElem_indexOf hi1
  have hg2 : nodes.get ⟨nodes.indexOf n2, hi2⟩ = n2 := by
    simp only [List.get_eq_getElem]
    exact List.getElem_indexOf hi2
  have hl1 : (Int.ofNat (nodes.indexOf n1) + 1) ∈ pathLitsOf nodes p :=
    pathLitsOf_mem.mpr ⟨nodes.indexOf n1, hi1, rfl, by rw [hg1, hp1]⟩
  have hl2 : (Int.ofNat (nodes.indexOf n2) + 1) ∈ pathLitsOf nodes p :=
    pathLitsOf_mem.mpr ⟨nodes.indexOf n2, hi2, rfl, by rw [hg2, hp2]⟩
  have hidx : nodes.indexOf n1 ≠ nodes.indexOf n2 := by
    intro h
    apply h12
    rw [← hg1, ← hg2]
    congr 1
    exact Fin.ext h
  have hltne : (Int.ofNat (nodes.indexOf n1) + 1) ≠ (Int.ofNat (nodes.indexOf n2) + 1) := by
    intro h
    have h3 := add_right_cancel h
    exact hidx (Int.ofNat.inj h3)
  have hgt : 2 ≤ (pathLitsOf nodes p).length := two_mem_length hl1 hl2 hltne
  refine ⟨?_, hgt⟩
  unfold buildSatConstrs
  refine List.mem_cons.mpr (Or.inr ?_)
  have hdz : nodes.drop 0 = nodes := List.drop_zero nodes
  rw [← hdz]
  refine buildLoopAux_amo_aux g hs (by omega) nodes.length 0 [] (by omega)
    ⟨nodes.indexOf n1, hi1, Nat.zero_le _, by rw [hg1, hp1]⟩ ?_
  intro hv0 hp0
  rfl

/-- CLAIM C6 (corrected).  In the SAT encoding built by buildSatProblem over
a node list sorted by RequirementCompare that enumerates the reachable
requirements: a unit clause forces the root variable; every requirement edge
m to r yields a clause of the negated parent literal followed by the
contiguous literal run starting at r's own position, every literal of which
names a node with r's path and a version at least r's version; when no two
distinct nodes compare equal under ModuleIdCompare the run contains the
literal of every node with r's path and version at least r's version (the
tie-freedom hypothesis is necessary: see the counterexample); and every path
held by two distinct nodes gets an at-most-one constraint over exactly the
literals of that path. -/
theorem buildSatProblem_clauses (g : RGraph) (nodes : List ModuleId)
    (hs : List.Pairwise (fun a b => moduleIdCompare a b ≤ 0) nodes)
    (hperm : nodes.Perm (reachList g))
    (htf : ∀ a ∈ nodes, ∀ b ∈ nodes, moduleIdCompare a b = 0 → a = b) :
    (SatConstr.clause [Int.ofNat (varOf nodes g.root) + 1] ∈ buildSatConstrs g nodes) ∧
    (∀ m ∈ nodes, ∀ r, r ∈ childrenOf g m →
      (SatConstr.clause ((-(Int.ofNat (varOf nodes m) + 1)) ::
        reqRange nodes r.path (varOf nodes r)) ∈ buildSatConstrs g nodes) ∧
      (∀ lit ∈ reqRange nodes r.path (varOf nodes r), ∃ w, ∃ hw : w < nodes.length,
        lit = Int.ofNat w + 1 ∧ (nodes.get ⟨w, hw⟩).path = r.path ∧
        0 ≤ semverCompare (nodes.get ⟨w, hw⟩).version r.version) ∧
      (∀ n ∈ nodes, n.path = r.path → 0 ≤ semverCompare n.version r.version →
        (Int.ofNat (nodes.indexOf n) + 1) ∈ reqRange nodes r.path (varOf nodes r))) ∧
    (∀ p : String, ∀ n1 n2 : ModuleId, n1 ∈ nodes → n2 ∈ nodes → n1 ≠ n2 →
      n1.path = p → n2.path = p →
      (SatConstr.atMost (pathLitsOf nodes p) 1 ∈ buildSatConstrs g nodes) ∧
      2 ≤ (pathLitsOf nodes p).length ∧
      (∀ lit : Int, lit ∈ pathLitsOf nodes p ↔ ∃ w, ∃ hw : w < nodes.length,
        lit = Int.ofNat w + 1 ∧ (nodes.get ⟨w, hw⟩).path = p)) := by
  refine ⟨?_, ?_, ?_⟩
  · unfold buildSatConstrs
    exact List.mem_cons.mpr (Or.inl rfl)
  · intro m hm r hr
    have hrnodes : r ∈ nodes := by
      have h1 : m ∈ reachList g := hperm.mem_iff.mp hm
      have h2 : r ∈ reachList g := reachList_closed g m h1 r hr
      exact hperm.mem_iff.mpr h2
    refine ⟨?_, reqRange_version_ge hs hrnodes, ?_⟩
    · have hj : nodes.indexOf m < nodes.length := List.indexOf_lt_length.mpr hm
      have hget : nodes.get ⟨nodes.indexOf m, hj⟩ = m := by
        simp only [List.get_eq_getElem]
        exact List.getElem_indexOf hj
      have h3 := buildLoopAux_req_mem g nodes nodes 0 [] (nodes.indexOf m) hj r
        (by rw [hget]; exact hr)
      rw [Nat.zero_add] at h3
      have hvar : varOf nodes m = nodes.indexOf m := by
        unfold varOf
        rw [if_pos hm]
      rw [hvar]
      unfold buildSatConstrs
      exact List.mem_cons.mpr (Or.inr h3)
    · intro n hn hp hv
      exact reqRange_covers hs htf hrnodes hn hp hv
  · intro p n1 n2 h1 h2 h12 hp1 hp2
    rcases buildSatConstrs_amo g hs h1 h2 h12 hp1 hp2 with ⟨ha, hb⟩
    exact ⟨ha, hb, fun lit => pathLitsOf_mem⟩

/-- Concrete tie-free instance for the C6 witness: a root requiring one path
at two distinct comparable versions. -/
def witGraph6 : RGraph :=
  ⟨⟨"m", "v1.0.0"⟩,
   [(⟨"m", "v1.0.0"⟩, ⟨[⟨"p", "v1.1.0"⟩], [⟨"p", "v1.0.0"⟩]⟩),
    (⟨"p", "v1.0.0"⟩, ⟨[], []⟩),
    (⟨"p", "v1.1.0"⟩, ⟨[], []⟩)]⟩

def witNodes6 : List ModuleId :=
  [⟨"m", "v1.0.0"⟩, ⟨"p", "v1.0.0"⟩, ⟨"p", "v1.1.0"⟩]

/-- Witness for the C6 theorem at concrete inputs. -/
theorem buildSatProblem_clauses_witness :
    (List.Pairwise (fun a b => moduleIdCompare a b ≤ 0) witNodes6) ∧
    (witNodes6.Perm (reachList witGraph6)) ∧
    (∀ a ∈ witNodes6, ∀ b ∈ witNodes6, moduleIdCompare a b = 0 → a = b) ∧
    ((SatConstr.clause [Int.ofNat (varOf witNodes6 witGraph6.root) + 1] ∈
        buildSatConstrs witGraph6 witNodes6) ∧
    (∀ m ∈ witNodes6, ∀ r, r ∈ childrenOf witGraph6 m →
      (SatConstr.clause ((-(Int.ofNat (varOf witNodes6 m) + 1)) ::
        reqRange witNodes6 r.path (varOf witNodes6 r)) ∈ buildSatConstrs witGraph6 witNodes6) ∧
      (∀ lit ∈ reqRange witNodes6 r.path (varOf witNodes6 r), ∃ w, ∃ hw : w < witNodes6.length,
        lit = Int.ofNat w + 1 ∧ (witNodes6.get ⟨w, hw⟩).path = r.path ∧
        0 ≤ semverCompare (witNodes6.get ⟨w, hw⟩).version r.version) ∧
      (∀ n ∈ witNodes6, n.path = r.path → 0 ≤ semverCompare n.version r.version →
        (Int.ofNat (witNodes6.indexOf n) + 1) ∈ reqRange witNodes6 r.path (varOf witNodes6 r))) ∧
    (∀ p : String, ∀ n1 n2 : ModuleId, n1 ∈ witNodes6 → n2 ∈ witNodes6 → n1 ≠ n2 →
      n1.path = p → n2.path = p →
      (SatConstr.atMost (pathLitsOf witNodes6 p) 1 ∈ buildSatConstrs witGraph6 witNodes6) ∧
      2 ≤ (pathLitsOf witNodes6 p).length ∧
      (∀ lit : Int, lit ∈ pathLitsOf witNodes6 p ↔ ∃ w, ∃ hw : w < witNodes6.length,
        lit = Int.ofNat w + 1 ∧ (witNodes6.get ⟨w, hw⟩).path = p))) :=
  ⟨by decide, by decide, by decide,
    buildSatProblem_clauses witGraph6 witNodes6 (by decide) (by decide) (by decide)⟩

/-- Concrete instance for the C6 counterexample: the root requires one path
at two canonical versions that differ only in build metadata. -/
def cexGraph6 : RGraph :=
  ⟨⟨"m", "v1.0.0"⟩,
   [(⟨"m", "v1.0.0"⟩, ⟨[⟨"p", "v1.0.0+a"⟩, ⟨"p", "v1.0.0+b"⟩], []⟩),
    (⟨"p", "v1.0.0+a"⟩, ⟨[], []⟩),
    (⟨"p", "v1.0.0+b"⟩, ⟨[], []⟩)]⟩

/-- A valid RequirementCompare-sorted enumeration of the reachable nodes of
cexGraph6 in which the build-metadata tie is ordered b before a. -/
def cexNodes6 : List ModuleId :=
  [⟨"m", "v1.0.0"⟩, ⟨"p", "v1.0.0+b"⟩, ⟨"p", "v1.0.0+a"⟩]

/-- CLAIM C6 counterexample: with a build-metadata tie the clause emitted for
the edge from the root to p at v1.0.0+a is the run starting at that node's
own position, which omits the literal of p at v1.0.0+b even though its path
matches and its version compares greater than or equal (semver.Compare
ignores build metadata, so both orders of the tied pair are valid sort
outputs); the clause therefore does not contain exactly the variables of all
requirements with that path and a version at least v1.0.0+a. -/
theorem buildSatProblem_range_not_complete :
    (List.Pairwise (fun a b => moduleIdCompare a b ≤ 0) cexNodes6) ∧
    (cexNodes6.Perm (reachList cexGraph6)) ∧
    ((⟨"p", "v1.0.0+a"⟩ : ModuleId) ∈ childrenOf cexGraph6 cexGraph6.root) ∧
    (reqRange cexNodes6 "p" (varOf cexNodes6 ⟨"p", "v1.0.0+a"⟩) = [3]) ∧
    ((⟨"p", "v1.0.0+b"⟩ : ModuleId) ∈ cexNodes6) ∧
    ((⟨"p", "v1.0.0+b"⟩ : ModuleId).path = (⟨"p", "v1.0.0+a"⟩ : ModuleId).path) ∧
    (0 ≤ semverCompare "v1.0.0+b" "v1.0.0+a") ∧
    (Int.ofNat (cexNodes6.indexOf ⟨"p", "v1.0.0+b"⟩) + 1 = 2) ∧
    ((2 : Int) ∉ reqRange cexNodes6 "p" (varOf cexNodes6 ⟨"p", "v1.0.0+a"⟩)) := by
  have hv : varOf cexNodes6 ⟨"p", "v1.0.0+a"⟩ = 2 := by decide
  have h3 : reqRange cexNodes6 "p" 3 = [] := by
    rw [reqRange, dif_neg (by decide : ¬ (3 < cexNodes6.length))]
  have h2 : reqRange cexNodes6 "p" 2 = [3] := by
    rw [reqRange, dif_pos (by decide : 2 < cexNodes6.length)]
    rw [if_pos (by decide : (cexNodes6.get ⟨2, by decide⟩).path = "p"), h3]
    decide
  refine ⟨by decide, by decide, by decide, ?_, by decide, by decide, by decide,
    by decide, ?_⟩
  · rw [hv, h2]
  · rw [hv, h2]
    decide

/-! ## The concurrent graph walker (walkGraph)

walkGraph spawns goroutines: a serial main loop reads edge entries off an
unbuffered channel; the first entry naming a node creates that node's ready
channel and spawns a node goroutine (nodeVisit, then close ready, then on
descend load and enqueue the outgoing edges one by one); every entry with a
non-zero parent spawns an edge goroutine that blocks until the child's ready
channel closes, panics if the parent's ready channel is still open, and
otherwise invokes edgeVisit.  The model is a small-step transition system:
one action per atomic instant, scheduler-chosen; callback results travel in
the actions (so arbitrary, even stateful, callbacks are covered); context
cancellation is modelled by drop actions and failure flags.  nodeVisit
return and ready-channel close are one atomic step, which preserves the set
of observable event traces because nothing can synchronise with a node
between its callback returning and its channel closing.  The trace records
callback invocations newest first.
-/

/-- Remaining program of a spawned node goroutine: about to call nodeVisit,
about to call load, or enqueueing the remaining outgoing edges. -/
inductive NStage (N E : Type) where
  | atVisit
  | atLoad
  | enq (rem : List (N × E))
deriving DecidableEq

/-- Observable callback events: nodeVisit returned (with its descend
result), load returned, edgeVisit invoked. -/
inductive WEv (N E : Type) where
  | node (m : N) (d : Bool)
  | load (m : N)
  | edge (p m : N) (c : E)
deriving DecidableEq

/-- Walker state: queued/in-flight edge entries (parent none marks the
initial start entry), the keys of the seen map, the nodes whose ready
channel is closed, the live node and edge goroutines, the event trace
(newest first), and whether the parent-not-ready panic fired. -/
structure WState (N E : Type) where
  pending : List (Option N × N × E)
  seen : List N
  ready : List N
  nodeTasks : List (N × NStage N E)
  edgeTasks : List (N × N × E)
  events : List (WEv N E)
  panicked : Bool
deriving DecidableEq

/-- Scheduler actions: process an entry in the main loop, let a node
goroutine run its next instruction (callback results carried by the
action), let an edge goroutine fire, or drop work to model context
cancellation. -/
inductive WAct (N E : Type) where
  | process (i : Nat)
  | visitNode (m : N) (d : Bool) (fail : Bool)
  | loadStep (m : N) (fail : Bool)
  | enqEdge (m : N)
  | fireEdge (j : Nat)
  | dropPending (i : Nat)
  | dropNodeTask (m : N)
  | dropEdgeTask (j : Nat)
deriving DecidableEq

/-- Initial state: exactly the enqueue of the start entry with the zero
parent and zero color. -/
def initW {N E : Type} (start : N) (e0 : E) : WState N E :=
  ⟨[(none, start, e0)], [], [], [], [], [], false⟩

/-- Pop the first goroutine of node m off the task list. -/
def popTask {N E : Type} [DecidableEq N] :
    List (N × NStage N E) → N → Option (NStage N E × List (N × NStage N E))
  | [], _ => none
  | t :: ts, m =>
    if t.1 = m then some (t.2, ts)
    else (popTask ts m).map (fun r => (r.1, t :: r.2))

/-- One atomic step of walkGraph; none when the action is not enabled. -/
def stepW {N E : Type} [DecidableEq N] (edges : N → List (N × E))
    (s : WState N E) : WAct N E → Option (WState N E)
  | WAct.process i =>
    match s.pending.get? i with
    | none => none
    | some (po, m, c) =>
      some { s with
        pending := s.pending.eraseIdx i,
        seen := if m ∈ s.seen then s.seen else m :: s.seen,
        nodeTasks := if m ∈ s.seen then s.nodeTasks
          else (m, NStage.atVisit) :: s.nodeTasks,
        edgeTasks := match po with
          | none => s.edgeTasks
          | some p => (p, m, c) :: s.edgeTasks }
  | WAct.visitNode m d fail =>
    match popTask s.nodeTasks m with
    | some (NStage.atVisit, rest) =>
      some { s with
        events := WEv.node m d :: s.events,
        ready := if fail then s.ready else m :: s.ready,
        nodeTasks := if fail then rest
          else if d then (m, NStage.atLoad) :: rest else rest }
    | _ => none
  | WAct.loadStep m fail =>
    match popTask s.nodeTasks m with
    | some (NStage.atLoad, rest) =>
      some { s with
        events := WEv.load m :: s.events,
        nodeTasks := if fail then rest
          else match edges m with
            | [] => rest
            | es => (m, NStage.enq es) :: rest }
    | _ => none
  | WAct.enqEdge m =>
    match popTask s.nodeTasks m with
    | some (NStage.enq ((c, col) :: rem), rest) =>
      some { s with
        pending := s.pending ++ [(some m, c, col)],
        nodeTasks := match rem with
          | [] => rest
          | _ => (m, NStage.enq rem) :: rest }
    | _ => none
  | WAct.fireEdge j =>
    match s.edgeTasks.get? j with
    | none => none
    | some (p, m, c) =>
      if m ∈ s.ready then
        if p ∈ s.ready then
          some { s with
            edgeTasks := s.edgeTasks.eraseIdx j,
            events := WEv.edge p m c :: s.events }
        else
          some { s with
            edgeTasks := s.edgeTasks.eraseIdx j,
            panicked := true }
      else none
  | WAct.dropPending i =>
    if i < s.pending.length then
      some { s with pending := s.pending.eraseIdx i }
    else none
  | WAct.dropNodeTask m =>
    match popTask s.nodeTasks m with
    | some (_, rest) => some { s with nodeTasks := rest }
    | none => none
  | WAct.dropEdgeTask j =>
    if j < s.edgeTasks.length then
      some { s with edgeTasks := s.edgeTasks.eraseIdx j }
    else none

/-- A whole scheduled run of the walker. -/
def runW {N E : Type} [DecidableEq N] (edges : N → List (N × E)) :
    WState N E → List (WAct N E) → Option (WState N E)
  | s, [] => some s
  | s, a :: acts =>
    match stepW edges s a with
    | none => none
    | some s2 => runW edges s2 acts

theorem popTask_perm {N E : Type} [DecidableEq N] :
    ∀ {ts : List (N × NStage N E)} {m : N} {st rest},
      popTask ts m = some (st, rest) → ts.Perm ((m, st) :: rest) := by
  intro ts
  induction ts with
  | nil =>
    intro m st rest h
    simp [popTask] at h
  | cons t ts2 ih =>
    intro m st rest h
    rw [popTask] at h
    by_cases ht : t.1 = m
    · rw [if_pos ht] at h
      have h1 : t.2 = st ∧ ts2 = rest := by
        have := Option.some.inj h
        exact ⟨congrArg Prod.fst this, congrArg Prod.snd this⟩
      have ht2 : t = (m, st) := by
        rcases t with ⟨t1, t2⟩
        simp at ht h1 ⊢
        exact ⟨ht, h1.1⟩
      rw [ht2, h1.2]
    · rw [if_neg ht] at h
      cases hp : popTask ts2 m with
      | none =>
        rw [hp] at h
        simp at h
      | some r =>
        rw [hp] at h
        rcases r with ⟨st2, rest2⟩
        simp at h
        rcases h with ⟨h1, h2⟩
        have hperm := ih hp
        have hA : (t :: ts2).Perm (t :: (m, st2) :: rest2) := hperm.cons t
        have hB : (t :: (m, st2) :: rest2).Perm ((m, st2) :: t :: rest2) :=
          List.Perm.swap _ _ _
        rw [← h2, ← h1]
        exact hA.trans hB

theorem popTask_mem {N E : Type} [DecidableEq N]
    {ts : List (N × NStage N E)} {m : N} {st rest}
    (h : popTask ts m = some (st, rest)) : (m, st) ∈ ts :=
  (popTask_perm h).mem_iff.mpr (List.mem_cons_self _ _)

theorem popTask_rest_sub {N E : Type} [DecidableEq N]
    {ts : List (N × NStage N E)} {m : N} {st rest}
    (h : popTask ts m = some (st, rest)) : ∀ t ∈ rest, t ∈ ts := by
  intro t ht
  exact (popTask_perm h).mem_iff.mpr (List.mem_cons_of_mem _ ht)

theorem get_eraseIdx_perm {α : Type} :
    ∀ {l : List α} {i : Nat} {x : α}, l.get? i = some x →
      l.Perm (x :: l.eraseIdx i) := by
  intro l
  induction l with
  | nil =>
    intro i x h
    simp at h
  | cons y l2 ih =>
    intro i x h
    match i with
    | 0 =>
      have hx : y = x := by simpa using h
      rw [hx]
      simp [List.eraseIdx]
    | i2 + 1 =>
      have h2 : l2.get? i2 = some x := by simpa using h
      have hperm := ih h2
      have hA : (y :: l2).Perm (y :: x :: l2.eraseIdx i2) := hperm.cons y
      have hB : (y :: x :: l2.eraseIdx i2).Perm (x :: y :: l2.eraseIdx i2) :=
        List.Perm.swap _ _ _
      exact hA.trans hB

theorem get_mem_of_get? {α : Type} {l : List α} {i : Nat} {x : α}
    (h : l.get? i = some x) : x ∈ l :=
  (get_eraseIdx_perm h).mem_iff.mpr (List.mem_cons_self _ _)

theorem eraseIdx_sub {α : Type} {l : List α} {i : Nat} :
    ∀ x ∈ l.eraseIdx i, x ∈ l := by
  intro x hx
  exact List.IsPrefix.subset (List.prefix_refl l) (List.eraseIdx_sublist l i |>.subset hx)

/-- Splitting a list extended on the left around a designated element. -/
theorem cons_split {α : Type} {x y : α} {l l1 l2 : List α}
    (h : x :: l = l1 ++ y :: l2) :
    (l1 = [] ∧ x = y ∧ l2 = l) ∨ ∃ l1b, l1 = x :: l1b ∧ l = l1b ++ y :: l2 := by
  cases l1 with
  | nil =>
    simp at h
    exact Or.inl ⟨rfl, h.1, h.2.symm⟩
  | cons a l1b =>
    simp at h
    exact Or.inr ⟨l1b, by rw [h.1], h.2⟩

/-- Safety invariant of the walker: the panic never fires, every queued or
waiting edge has a ready parent, every closed ready channel follows a
recorded nodeVisit return, node goroutines past their visit are ready, and
every edgeVisit invocation in the trace is preceded by the nodeVisit
returns of both endpoints. -/
structure WInv {N E : Type} (s : WState N E) : Prop where
  panic_false : s.panicked = false
  pend_par_ready : ∀ e ∈ s.pending, ∀ p : N, e.1 = some p → p ∈ s.ready
  etask_par_ready : ∀ e ∈ s.edgeTasks, e.1 ∈ s.ready
  ready_event : ∀ m ∈ s.ready, ∃ d, WEv.node m d ∈ s.events
  task_ready : ∀ t ∈ s.nodeTasks, t.2 ≠ NStage.atVisit → t.1 ∈ s.ready
  edge_order : ∀ l1 l2 (p m : N) (c : E), s.events = l1 ++ WEv.edge p m c :: l2 →
    (∃ d, WEv.node p d ∈ l2) ∧ (∃ d, WEv.node m d ∈ l2)

theorem initW_inv {N E : Type} (start : N) (e0 : E) : WInv (initW start e0) := by
  refine ⟨rfl, ?_, ?_, ?_, ?_, ?_⟩
  · intro e he p hp
    have : e = (none, start, e0) := by simpa [initW] using he
    rw [this] at hp
    simp at hp
  · intro e he
    simp [initW] at he
  · intro m hm
    simp [initW] at hm
  · intro t ht
    simp [initW] at ht
  · intro l1 l2 p m c h
    have : (initW start e0).events = [] := rfl
    rw [this] at h
    exact absurd h (by simp)

theorem stepW_inv {N E : Type} [DecidableEq N] {edges : N → List (N × E)}
    {s s2 : WState N E} {a : WAct N E}
    (h : stepW edges s a = some s2) (inv : WInv s) : WInv s2 := by
  cases a with
  | process i =>
    simp only [stepW] at h
    cases hg : s.pending.get? i with
    | none =>
      rw [hg] at h
      exact absurd h (by simp)
    | some e =>
      rcases e with ⟨po, m, c⟩
      rw [hg] at h
      simp only [] at h
      injection h with h2
      subst h2
      have hent : (po, m, c) ∈ s.pending := get_mem_of_get? hg
      refine ⟨inv.panic_false, ?_, ?_, inv.ready_event, ?_, inv.edge_order⟩
      · intro e he p hp
        exact inv.pend_par_ready e (eraseIdx_sub e he) p hp
      · intro e he
        cases po with
        | none => exact inv.etask_par_ready e he
        | some p =>
          simp only [] at he
          rcases List.mem_cons.mp he with h1 | h1
          · rw [h1]
            exact inv.pend_par_ready (some p, m, c) hent p rfl
          · exact inv.etask_par_ready e h1
      · intro t ht hstage
        by_cases hseen : m ∈ s.seen
        · simp only [if_pos hseen] at ht
          exact inv.task_ready t ht hstage
        · simp only [if_neg hseen] at ht
          rcases List.mem_cons.mp ht with h1 | h1
          · rw [h1] at hstage
            exact absurd rfl hstage
          · exact inv.task_ready t h1 hstage
  | visitNode m d fail =>
    simp only [stepW] at h
    cases hpt : popTask s.nodeTasks m with
    | none =>
      rw [hpt] at h
      exact absurd h (by simp)
    | some r =>
      rcases r with ⟨st, rest⟩
      rw [hpt] at h
      cases st with
      | atVisit =>
        simp only [] at h
        injection h with h2
        subst h2
        have hsubr : ∀ t ∈ rest, t ∈ s.nodeTasks := popTask_rest_sub hpt
        refine ⟨inv.panic_false, ?_, ?_, ?_, ?_, ?_⟩
        · intro e he p hp
          have h1 := inv.pend_par_ready e he p hp
          by_cases hfail : fail = true
          · simp only [hfail, if_pos rfl]
            exact h1
          · have hfail2 : fail = false := by
              cases fail
              · rfl
              · exact absurd rfl hfail
            simp only [hfail2]
            simp only [if_neg (by simp : ¬ (false = true))]
            exact List.mem_cons_of_mem _ h1
        · intro e he
          have h1 := inv.etask_par_ready e he
          cases fail
          · simp only [if_neg (by simp : ¬ (false = true))]
            exact List.mem_cons_of_mem _ h1
          · simp only [if_pos rfl]
            exact h1
        · intro x hx
          cases fail
          · simp only [if_neg (by simp : ¬ (false = true))] at hx
            rcases List.mem_cons.mp hx with h1 | h1
            · exact ⟨d, by rw [h1]; exact List.mem_cons_self _ _⟩
            · rcases inv.ready_event x h1 with ⟨d2, hd2⟩
              exact ⟨d2, List.mem_cons_of_mem _ hd2⟩
          · simp only [if_pos rfl] at hx
            rcases inv.ready_event x hx with ⟨d2, hd2⟩
            exact ⟨d2, List.mem_cons_of_mem _ hd2⟩
        · intro t ht hstage
          cases fail
          · simp only [if_neg (by simp : ¬ (false = true))] at ht ⊢
            cases d
            · simp only [if_neg (by simp : ¬ (false = true))] at ht
              have := inv.task_ready t (hsubr t ht) hstage
              exact List.mem_cons_of_mem _ this
            · simp only [if_pos rfl] at ht
              rcases List.mem_cons.mp ht with h1 | h1
              · rw [h1]
                exact List.mem_cons_self _ _
              · have := inv.task_ready t (hsubr t h1) hstage
                exact List.mem_cons_of_mem _ this
          · simp only [if_pos rfl] at ht ⊢
            have := inv.task_ready t (hsubr t ht) hstage
            exact this
        · intro l1 l2 p mm c hsplit
          rcases cons_split hsplit with ⟨_, habs, _⟩ | ⟨l1b, _, h2⟩
          · exact absurd habs (by simp)
          · exact inv.edge_order l1b l2 p mm c h2
      | atLoad =>
        exact absurd h (by simp)
      | enq rem =>
        exact absurd h (by simp)
  | loadStep m fail =>
    simp only [stepW] at h
    cases hpt : popTask s.nodeTasks m with
    | none =>
      rw [hpt] at h
      exact absurd h (by simp)
    | some r =>
      rcases r with ⟨st, rest⟩
      rw [hpt] at h
      cases st with
      | atVisit =>
        exact absurd h (by simp)
      | atLoad =>
        simp only [] at h
        injection h with h2
        subst h2
        have hsubr : ∀ t ∈ rest, t ∈ s.nodeTasks := popTask_rest_sub hpt
        have hmready : m ∈ s.ready :=
          inv.task_ready (m, NStage.atLoad) (popTask_mem hpt) (by simp)
        refine ⟨inv.panic_false, inv.pend_par_ready, inv.etask_par_ready, ?_, ?_, ?_⟩
        · intro x hx
          rcases inv.ready_event x hx with ⟨d2, hd2⟩
          exact ⟨d2, List.mem_cons_of_mem _ hd2⟩
        · intro t ht hstage
          cases fail
          · simp only [if_neg (by simp : ¬ (false = true))] at ht
            cases hes : edges m with
            | nil =>
              rw [hes] at ht
              exact inv.task_ready t (hsubr t ht) hstage
            | cons e2 es2 =>
              rw [hes] at ht
              simp only [] at ht
              rcases List.mem_cons.mp ht with h1 | h1
              · rw [h1]
                exact hmready
              · exact inv.task_ready t (hsubr t h1) hstage
          · simp only [if_pos rfl] at ht
            exact inv.task_ready t (hsubr t ht) hstage
        · intro l1 l2 p mm c hsplit
          rcases cons_split hsplit with ⟨_, habs, _⟩ | ⟨l1b, _, h2⟩
          · exact absurd habs (by simp)
          · exact inv.edge_order l1b l2 p mm c h2
      | enq rem =>
        exact absurd h (by simp)
  | enqEdge m =>
    simp only [stepW] at h
    cases hpt : popTask s.nodeTasks m with
    | none =>
      rw [hpt] at h
      exact absurd h (by simp)
    | some r =>
      rcases r with ⟨st, rest⟩
      rw [hpt] at h
      cases st with
      | atVisit =>
        exact absurd h (by simp)
      | atLoad =>
        exact absurd h (by simp)
      | enq rem =>
        cases rem with
        | nil =>
          exact absurd h (by simp)
        | cons e2 rem2 =>
          rcases e2 with ⟨c, col⟩
          simp only [] at h
          injection h with h2
          subst h2
          have hsubr : ∀ t ∈ rest, t ∈ s.nodeTasks := popTask_rest_sub hpt
          have hmready : m ∈ s.ready :=
            inv.task_ready (m, NStage.enq ((c, col) :: rem2)) (popTask_mem hpt) (by simp)
          refine ⟨inv.panic_false, ?_, inv.etask_par_ready, inv.ready_event, ?_,
            inv.edge_order⟩
          · intro e he p hp
            rcases List.mem_append.mp he with h1 | h1
            · exact inv.pend_par_ready e h1 p hp
            · have he2 : e = (some m, c, col) := by simpa using h1
              rw [he2] at hp
              have hpm : p = m := by
                simpa using hp.symm
              rw [hpm]
              exact hmready
          · intro t ht hstage
            cases rem2 with
            | nil =>
              simp only [] at ht
              exact inv.task_ready t (hsubr t ht) hstage
            | cons e3 rem3 =>
              simp only [] at ht
              rcases List.mem_cons.mp ht with h1 | h1
              · rw [h1]
                exact hmready
              · exact inv.task_ready t (hsubr t h1) hstage
  | fireEdge j =>
    simp only [stepW] at h
    cases hg : s.edgeTasks.get? j with
    | none =>
      rw [hg] at h
      exact absurd h (by simp)
    | some e =>
      rcases e with ⟨p, m, c⟩
      rw [hg] at h
      simp only [] at h
      have hpready : p ∈ s.ready :=
        inv.etask_par_ready (p, m, c) (get_mem_of_get? hg)
      by_cases hm : m ∈ s.ready
      · rw [if_pos hm, if_pos hpready] at h
        injection h with h2
        subst h2
        refine ⟨inv.panic_false, inv.pend_par_ready, ?_, ?_, inv.task_ready, ?_⟩
        · intro e he
          exact inv.etask_par_ready e (eraseIdx_sub e he)
        · intro x hx
          rcases inv.ready_event x hx with ⟨d2, hd2⟩
          exact ⟨d2, List.mem_cons_of_mem _ hd2⟩
        · intro l1 l2 p2 m2 c2 hsplit
          rcases cons_split hsplit with ⟨_, heq, hl2⟩ | ⟨l1b, _, h2⟩
          · have hp2 : p = p2 ∧ m = m2 := by
              have := heq
              injection this with a1 a2 a3
              exact ⟨a1, a2⟩
            rw [hl2, ← hp2.1, ← hp2.2]
            exact ⟨inv.ready_event p hpready, inv.ready_event m hm⟩
          · exact inv.edge_order l1b l2 p2 m2 c2 h2
      · rw [if_neg hm] at h
        exact absurd h (by simp)
  | dropPending i =>
    simp only [stepW] at h
    by_cases hi : i < s.pending.length
    · rw [if_pos hi] at h
      injection h with h2
      subst h2
      refine ⟨inv.panic_false, ?_, inv.etask_par_ready, inv.ready_event,
        inv.task_ready, inv.edge_order⟩
      intro e he p hp
      exact inv.pend_par_ready e (eraseIdx_sub e he) p hp
    · rw [if_neg hi] at h
      exact absurd h (by simp)
  | dropNodeTask m =>
    simp only [stepW] at h
    cases hpt : popTask s.nodeTasks m with
    | none =>
      rw [hpt] at h
      exact absurd h (by simp)
    | some r =>
      rcases r with ⟨st, rest⟩
      rw [hpt] at h
      simp only [] at h
      injection h with h2
      subst h2
      refine ⟨inv.panic_false, inv.pend_par_ready, inv.etask_par_ready,
        inv.ready_event, ?_, inv.edge_order⟩
      intro t ht hstage
      exact inv.task_ready t (popTask_rest_sub hpt t ht) hstage
  | dropEdgeTask j =>
    simp only [stepW] at h
    by_cases hj : j < s.edgeTasks.length
    · rw [if_pos hj] at h
      injection h with h2
      subst h2
      refine ⟨inv.panic_false, inv.pend_par_ready, ?_, inv.ready_event,
        inv.task_ready, inv.edge_order⟩
      intro e he
      exact inv.etask_par_ready e (eraseIdx_sub e he)
    · rw [if_neg hj] at h
      exact absurd h (by simp)

theorem runW_inv {N E : Type} [DecidableEq N] {edges : N → List (N × E)} :
    ∀ {acts : List (WAct N E)} {s s2 : WState N E},
      runW edges s acts = some s2 → WInv s → WInv s2 := by
  intro acts
  induction acts with
  | nil =>
    intro s s2 h inv
    have : s = s2 := by simpa [runW] using h
    rw [← this]
    exact inv
  | cons a acts2 ih =>
    intro s s2 h inv
    rw [runW] at h
    cases hst : stepW edges s a with
    | none =>
      rw [hst] at h
      exact absurd h (by simp)
    | some s3 =>
      rw [hst] at h
      exact ih h (stepW_inv hst inv)

/-- CLAIM C4 (confirmed).  In every scheduled run of the graph walker, over
any graph (cyclic or not), with arbitrary callback results and arbitrary
cancellation: the parent-not-ready panic never fires, and every edgeVisit
invocation in the trace is strictly preceded by the returns of the
nodeVisit callbacks of both the parent and the child (events are recorded
newest first, so the preceding returns appear in the suffix after the edge
event). -/
theorem walkGraph_edge_after_nodes {N E : Type} [DecidableEq N]
    (edges : N → List (N × E)) (start : N) (e0 : E)
    (acts : List (WAct N E)) (s : WState N E)
    (hrun : runW edges (initW start e0) acts = some s) :
    s.panicked = false ∧
    ∀ l1 l2 (p m : N) (c : E), s.events = l1 ++ WEv.edge p m c :: l2 →
      (∃ d, WEv.node p d ∈ l2) ∧ (∃ d, WEv.node m d ∈ l2) := by
  have inv : WInv s := runW_inv hrun (initW_inv start e0)
  exact ⟨inv.panic_false, inv.edge_order⟩

/-- Concrete two-node line graph for the C4 witness. -/
def wEdges4 : Nat → List (Nat × Nat) := fun n => if n = 0 then [(1, 5)] else []

/-- Concrete full schedule for the C4 witness. -/
def wActs4 : List (WAct Nat Nat) :=
  [WAct.process 0, WAct.visitNode 0 true false, WAct.loadStep 0 false,
   WAct.enqEdge 0, WAct.process 0, WAct.visitNode 1 true false,
   WAct.loadStep 1 false, WAct.fireEdge 0]

/-- Final state of the C4 witness schedule. -/
def wFinal4 : WState Nat Nat :=
  ⟨[], [1, 0], [1, 0], [], [],
   [WEv.edge 0 1 5, WEv.load 1, WEv.node 1 true, WEv.load 0, WEv.node 0 true],
   false⟩

/-- Witness for the C4 theorem at a concrete graph and schedule. -/
theorem walkGraph_edge_after_nodes_witness :
    runW wEdges4 (initW 0 9) wActs4 = some wFinal4 ∧
    (wFinal4.panicked = false ∧
    ∀ l1 l2 (p m : Nat) (c : Nat), wFinal4.events = l1 ++ WEv.edge p m c :: l2 →
      (∃ d, WEv.node p d ∈ l2) ∧ (∃ d, WEv.node m d ∈ l2)) :=
  ⟨by decide, walkGraph_edge_after_nodes wEdges4 0 9 wActs4 wFinal4 (by decide)⟩

/-! ## Exactly-once visitation in clean complete runs -/

/-- Reachability through descended nodes: the nodes the walk discovers when
nodeVisit deterministically returns desc and no errors occur. -/
inductive WReach {N E : Type} (edges : N → List (N × E)) (desc : N → Bool)
    (start : N) : N → Prop where
  | refl : WReach edges desc start start
  | step : ∀ {p c col}, WReach edges desc start p → desc p = true →
      (c, col) ∈ edges p → WReach edges desc start c

/-- An action of an error-free run with callback results desc: no failures,
no cancellation, nodeVisit results agree with desc. -/
def cleanActB {N E : Type} [DecidableEq N] (desc : N → Bool) : WAct N E → Bool
  | WAct.process _ => true
  | WAct.visitNode m d fail => !fail && (d == desc m)
  | WAct.loadStep _ fail => !fail
  | WAct.enqEdge _ => true
  | WAct.fireEdge _ => true
  | WAct.dropPending _ => false
  | WAct.dropNodeTask _ => false
  | WAct.dropEdgeTask _ => false

def countNode {N E : Type} [DecidableEq N] (m : N) (evs : List (WEv N E)) : Nat :=
  evs.countP (fun e => match e with
    | WEv.node m2 _ => decide (m2 = m)
    | _ => false)

def countLoad {N E : Type} [DecidableEq N] (m : N) (evs : List (WEv N E)) : Nat :=
  evs.countP (fun e => match e with
    | WEv.load m2 => decide (m2 = m)
    | _ => false)

def countEdge {N E : Type} [DecidableEq N] [DecidableEq E] (p c : N) (col : E)
    (evs : List (WEv N E)) : Nat :=
  evs.countP (fun e => decide (e = WEv.edge p c col))

def countTaskAtVisit {N E : Type} [DecidableEq N] [DecidableEq E] (m : N)
    (ts : List (N × NStage N E)) : Nat :=
  ts.countP (fun t => decide (t = (m, NStage.atVisit)))

def countTaskAtLoad {N E : Type} [DecidableEq N] [DecidableEq E] (m : N)
    (ts : List (N × NStage N E)) : Nat :=
  ts.countP (fun t => decide (t = (m, NStage.atLoad)))

def countETask {N E : Type} [DecidableEq N] [DecidableEq E] (p c : N) (col : E)
    (ets : List (N × N × E)) : Nat :=
  ets.countP (fun e => decide (e = (p, c, col)))

def countPendingEdge {N E : Type} [DecidableEq N] [DecidableEq E] (p c : N) (col : E)
    (pend : List (Option N × N × E)) : Nat :=
  pend.countP (fun e => decide (e = (some p, c, col)))

/-- Edge occurrences a node goroutine will still enqueue. -/
def tfContrib {N E : Type} [DecidableEq N] [DecidableEq E]
    (edges : N → List (N × E)) (p c : N) (col : E) : N × NStage N E → Nat
  | (n, st) =>
    if n = p then
      match st with
      | NStage.atVisit => 0
      | NStage.atLoad => (edges p).count (c, col)
      | NStage.enq rem => rem.count (c, col)
    else 0

def countTaskFuture {N E : Type} [DecidableEq N] [DecidableEq E]
    (edges : N → List (N × E)) (p c : N) (col : E)
    (ts : List (N × NStage N E)) : Nat :=
  (ts.map (tfContrib edges p c col)).sum

theorem countNode_pos_iff {N E : Type} [DecidableEq N] {m : N}
    {evs : List (WEv N E)} : 0 < countNode m evs ↔ ∃ d, WEv.node m d ∈ evs := by
  unfold countNode
  rw [List.countP_pos]
  constructor
  · rintro ⟨e, he, hp⟩
    cases e with
    | node m2 d =>
      simp at hp
      rw [hp] at he
      exact ⟨d, he⟩
    | load m2 => simp at hp
    | edge p2 m2 c2 => simp at hp
  · rintro ⟨d, hd⟩
    exact ⟨WEv.node m d, hd, by simp⟩

theorem countLoad_pos_iff {N E : Type} [DecidableEq N] {m : N}
    {evs : List (WEv N E)} : 0 < countLoad m evs ↔ WEv.load m ∈ evs := by
  unfold countLoad
  rw [List.countP_pos]
  constructor
  · rintro ⟨e, he, hp⟩
    cases e with
    | node m2 d => simp at hp
    | load m2 =>
      simp at hp
      rw [hp] at he
      exact he
    | edge p2 m2 c2 => simp at hp
  · intro hd
    exact ⟨WEv.load m, hd, by simp⟩

theorem countEdge_pos_iff {N E : Type} [DecidableEq N] [DecidableEq E]
    {p c : N} {col : E} {evs : List (WEv N E)} :
    0 < countEdge p c col evs ↔ WEv.edge p c col ∈ evs := by
  unfold countEdge
  rw [List.countP_pos]
  constructor
  · rintro ⟨e, he, hp⟩
    simp at hp
    rw [hp] at he
    exact he
  · intro hd
    exact ⟨WEv.edge p c col, hd, by simp⟩

theorem countNode_cons_node {N E : Type} [DecidableEq N] (m m2 : N) (d : Bool)
    (evs : List (WEv N E)) :
    countNode m (WEv.node m2 d :: evs) = countNode m evs + (if m2 = m then 1 else 0) := by
  by_cases h : m2 = m <;> simp [countNode, List.countP_cons, h]

theorem countNode_cons_load {N E : Type} [DecidableEq N] (m m2 : N)
    (evs : List (WEv N E)) :
    countNode m (WEv.load m2 :: evs) = countNode m evs := by
  simp [countNode, List.countP_cons]

theorem countNode_cons_edge {N E : Type} [DecidableEq N] (m p2 m2 : N) (c2 : E)
    (evs : List (WEv N E)) :
    countNode m (WEv.edge p2 m2 c2 :: evs) = countNode m evs := by
  simp [countNode, List.countP_cons]

theorem countLoad_cons_node {N E : Type} [DecidableEq N] (m m2 : N) (d : Bool)
    (evs : List (WEv N E)) :
    countLoad m (WEv.node m2 d :: evs) = countLoad m evs := by
  simp [countLoad, List.countP_cons]

theorem countLoad_cons_load {N E : Type} [DecidableEq N] (m m2 : N)
    (evs : List (WEv N E)) :
    countLoad m (WEv.load m2 :: evs) = countLoad m evs + (if m2 = m then 1 else 0) := by
  by_cases h : m2 = m <;> simp [countLoad, List.countP_cons, h]

theorem countLoad_cons_edge {N E : Type} [DecidableEq N] (m p2 m2 : N) (c2 : E)
    (evs : List (WEv N E)) :
    countLoad m (WEv.edge p2 m2 c2 :: evs) = countLoad m evs := by
  simp [countLoad, List.countP_cons]

theorem countEdge_cons_node {N E : Type} [DecidableEq N] [DecidableEq E]
    (p c : N) (col : E) (m2 : N) (d : Bool) (evs : List (WEv N E)) :
    countEdge p c col (WEv.node m2 d :: evs) = countEdge p c col evs := by
  simp [countEdge, List.countP_cons]

theorem countEdge_cons_load {N E : Type} [DecidableEq N] [DecidableEq E]
    (p c : N) (col : E) (m2 : N) (evs : List (WEv N E)) :
    countEdge p c col (WEv.load m2 :: evs) = countEdge p c col evs := by
  simp [countEdge, List.countP_cons]

theorem countEdge_cons_edge {N E : Type} [DecidableEq N] [DecidableEq E]
    (p c : N) (col : E) (p2 c2 : N) (col2 : E) (evs : List (WEv N E)) :
    countEdge p c col (WEv.edge p2 c2 col2 :: evs) =
      countEdge p c col evs + (if p2 = p ∧ c2 = c ∧ col2 = col then 1 else 0) := by
  by_cases h : p2 = p ∧ c2 = c ∧ col2 = col
  · rcases h with ⟨h1, h2, h3⟩
    subst h1; subst h2; subst h3
    simp [countEdge, List.countP_cons]
  · have h2 : ¬ (WEv.edge p2 c2 col2 = WEv.edge p c col) := by
      intro heq
      injection heq with a1 a2 a3
      exact h ⟨a1, a2, a3⟩
    simp [countEdge, List.countP_cons, h2, h]

theorem countTaskAtVisit_cons {N E : Type} [DecidableEq N] [DecidableEq E]
    (m n : N) (st : NStage N E) (ts : List (N × NStage N E)) :
    countTaskAtVisit m ((n, st) :: ts) =
      countTaskAtVisit m ts + (if n = m ∧ st = NStage.atVisit then 1 else 0) := by
  by_cases h : n = m ∧ st = NStage.atVisit
  · rcases h with ⟨h1, h2⟩
    subst h1; subst h2
    simp [countTaskAtVisit, List.countP_cons]
  · have h2 : ¬ ((n, st) = (m, NStage.atVisit)) := by
      intro heq
      injection heq with a1 a2
      exact h ⟨a1, a2⟩
    simp [countTaskAtVisit, List.countP_cons, h2, h]

theorem countTaskAtLoad_cons {N E : Type} [DecidableEq N] [DecidableEq E]
    (m n : N) (st : NStage N E) (ts : List (N × NStage N E)) :
    countTaskAtLoad m ((n, st) :: ts) =
      countTaskAtLoad m ts + (if n = m ∧ st = NStage.atLoad then 1 else 0) := by
  by_cases h : n = m ∧ st = NStage.atLoad
  · rcases h with ⟨h1, h2⟩
    subst h1; subst h2
    simp [countTaskAtLoad, List.countP_cons]
  · have h2 : ¬ ((n, st) = (m, NStage.atLoad)) := by
      intro heq
      injection heq with a1 a2
      exact h ⟨a1, a2⟩
    simp [countTaskAtLoad, List.countP_cons, h2, h]

theorem countETask_cons {N E : Type} [DecidableEq N] [DecidableEq E]
    (p c : N) (col : E) (e : N × N × E) (ets : List (N × N × E)) :
    countETask p c col (e :: ets) =
      countETask p c col ets + (if e = (p, c, col) then 1 else 0) := by
  by_cases h : e = (p, c, col) <;> simp [countETask, List.countP_cons, h]

theorem countPendingEdge_cons {N E : Type} [DecidableEq N] [DecidableEq E]
    (p c : N) (col : E) (e : Option N × N × E) (l : List (Option N × N × E)) :
    countPendingEdge p c col (e :: l) =
      countPendingEdge p c col l + (if e = (some p, c, col) then 1 else 0) := by
  by_cases h : e = (some p, c, col) <;> simp [countPendingEdge, List.countP_cons, h]

theorem countPendingEdge_append {N E : Type} [DecidableEq N] [DecidableEq E]
    (p c : N) (col : E) (l1 l2 : List (Option N × N × E)) :
    countPendingEdge p c col (l1 ++ l2) =
      countPendingEdge p c col l1 + countPendingEdge p c col l2 := by
  simp [countPendingEdge, List.countP_append]

theorem countTaskFuture_cons {N E : Type} [DecidableEq N] [DecidableEq E]
    (edges : N → List (N × E)) (p c : N) (col : E) (t : N × NStage N E)
    (ts : List (N × NStage N E)) :
    countTaskFuture edges p c col (t :: ts) =
      tfContrib edges p c col t + countTaskFuture edges p c col ts := by
  simp [countTaskFuture]

theorem countNode_perm {N E : Type} [DecidableEq N] {evs evs2 : List (WEv N E)}
    (h : evs.Perm evs2) (m : N) : countNode m evs = countNode m evs2 :=
  h.countP_eq _

theorem countTaskAtVisit_perm {N E : Type} [DecidableEq N] [DecidableEq E]
    {ts ts2 : List (N × NStage N E)} (h : ts.Perm ts2) (m : N) :
    countTaskAtVisit m ts = countTaskAtVisit m ts2 :=
  h.countP_eq _

theorem countTaskAtLoad_perm {N E : Type} [DecidableEq N] [DecidableEq E]
    {ts ts2 : List (N × NStage N E)} (h : ts.Perm ts2) (m : N) :
    countTaskAtLoad m ts = countTaskAtLoad m ts2 :=
  h.countP_eq _

theorem countETask_perm {N E : Type} [DecidableEq N] [DecidableEq E]
    {l l2 : List (N × N × E)} (h : l.Perm l2) (p c : N) (col : E) :
    countETask p c col l = countETask p c col l2 :=
  h.countP_eq _

theorem countPendingEdge_perm {N E : Type} [DecidableEq N] [DecidableEq E]
    {l l2 : List (Option N × N × E)} (h : l.Perm l2) (p c : N) (col : E) :
    countPendingEdge p c col l = countPendingEdge p c col l2 :=
  h.countP_eq _

theorem countTaskFuture_perm {N E : Type} [DecidableEq N] [DecidableEq E]
    (edges : N → List (N × E)) {ts ts2 : List (N × NStage N E)} (h : ts.Perm ts2)
    (p c : N) (col : E) :
    countTaskFuture edges p c col ts = countTaskFuture edges p c col ts2 :=
  (h.map _).sum_eq

/-- Accounting invariant of clean (error-free, drop-free, desc-consistent)
walker runs: per-node visit and load latches, conservation of edge
occurrences from a descended parent across the queue, the goroutines and
the trace, discovery only of reachable nodes, and trace consistency. -/
structure C5Inv {N E : Type} [DecidableEq N] [DecidableEq E]
    (edges : N → List (N × E)) (desc : N → Bool) (start : N)
    (s : WState N E) : Prop where
  winv : WInv s
  task_seen : ∀ t ∈ s.nodeTasks, t.1 ∈ s.seen
  task_stage_desc : ∀ t ∈ s.nodeTasks, t.2 ≠ NStage.atVisit →
    desc t.1 = true ∧ WEv.node t.1 true ∈ s.events
  task_enq_sub : ∀ t ∈ s.nodeTasks, ∀ rem, t.2 = NStage.enq rem →
    ∀ e ∈ rem, e ∈ edges t.1
  nv_latch : ∀ m, countNode m s.events + countTaskAtVisit m s.nodeTasks
      = if m ∈ s.seen then 1 else 0
  ready_iff : ∀ m, m ∈ s.ready ↔ ∃ d, WEv.node m d ∈ s.events
  nv_desc : ∀ m d, WEv.node m d ∈ s.events → d = desc m
  seen_reach : ∀ m ∈ s.seen, WReach edges desc start m
  pend_reach : ∀ e ∈ s.pending, (e.1 = none ∧ e.2.1 = start) ∨
    (∃ p, e.1 = some p ∧ WReach edges desc start p ∧ desc p = true ∧
      (e.2.1, e.2.2) ∈ edges p)
  load_latch : ∀ m, countLoad m s.events + countTaskAtLoad m s.nodeTasks
      = if WEv.node m true ∈ s.events then 1 else 0
  edge_acct : ∀ (p c : N) (col : E),
      countEdge p c col s.events + countETask p c col s.edgeTasks
      + countPendingEdge p c col s.pending + countTaskFuture edges p c col s.nodeTasks
      = if WEv.node p true ∈ s.events then (edges p).count (c, col) else 0
  edge_child_visited : ∀ (p c : N) (col : E), WEv.edge p c col ∈ s.events →
    ∃ d, WEv.node c d ∈ s.events
  start_latch : start ∈ s.seen ∨ ∃ c, (none, start, c) ∈ s.pending

theorem initW_c5inv {N E : Type} [DecidableEq N] [DecidableEq E]
    (edges : N → List (N × E)) (desc : N → Bool) (start : N) (e0 : E) :
    C5Inv edges desc start (initW start e0) := by
  refine ⟨initW_inv start e0, ?_, ?_, ?_, ?_, ?_, ?_, ?_, ?_, ?_, ?_, ?_, ?_⟩
  · intro t ht
    simp [initW] at ht
  · intro t ht
    simp [initW] at ht
  · intro t ht
    simp [initW] at ht
  · intro m
    have h1 : countNode m (initW start e0 : WState N E).events = 0 := rfl
    have h2 : countTaskAtVisit m (initW start e0 : WState N E).nodeTasks = 0 := rfl
    have h3 : m ∉ (initW start e0 : WState N E).seen := by simp [initW]
    rw [h1, h2, if_neg h3]
  · intro m
    constructor
    · intro hm
      simp [initW] at hm
    · rintro ⟨d, hd⟩
      simp [initW] at hd
  · intro m d hd
    simp [initW] at hd
  · intro m hm
    simp [initW] at hm
  · intro e he
    have : e = (none, start, e0) := by simpa [initW] using he
    rw [this]
    exact Or.inl ⟨rfl, rfl⟩
  · intro m
    have h1 : countLoad m (initW start e0 : WState N E).events = 0 := rfl
    have h2 : countTaskAtLoad m (initW start e0 : WState N E).nodeTasks = 0 := rfl
    have h3 : WEv.node m true ∉ (initW start e0 : WState N E).events := by simp [initW]
    rw [h1, h2, if_neg h3]
  · intro p c col
    have h3 : WEv.node p true ∉ (initW start e0 : WState N E).events := by simp [initW]
    rw [if_neg h3]
    rfl
  · intro p c col hmem
    simp [initW] at hmem
  · exact Or.inr ⟨e0, by simp [initW]⟩

theorem tfContrib_atVisit {N E : Type} [DecidableEq N] [DecidableEq E]
    (edges : N → List (N × E)) (p c : N) (col : E) (n : N) :
    tfContrib edges p c col (n, NStage.atVisit) = 0 := by
  by_cases h : n = p <;> simp [tfContrib, h]

theorem c5_process {N E : Type} [DecidableEq N] [DecidableEq E]
    {edges : N → List (N × E)} {desc : N → Bool} {start : N}
    {s s2 : WState N E} {i : Nat}
    (h : stepW edges s (WAct.process i) = some s2)
    (inv : C5Inv edges desc start s) : C5Inv edges desc start s2 := by
  have hw : WInv s2 := stepW_inv h inv.winv
  simp only [stepW] at h
  cases hg : s.pending.get? i with
  | none =>
    rw [hg] at h
    exact absurd h (by simp)
  | some e =>
    rcases e with ⟨po, m, c⟩
    rw [hg] at h
    simp only [] at h
    injection h with h2
    subst h2
    have hperm : s.pending.Perm ((po, m, c) :: s.pending.eraseIdx i) :=
      get_eraseIdx_perm hg
    have hent : (po, m, c) ∈ s.pending := get_mem_of_get? hg
    refine ⟨hw, ?_, ?_, ?_, ?_, inv.ready_iff, inv.nv_desc, ?_, ?_, ?_, ?_,
      inv.edge_child_visited, ?_⟩
    · intro t ht
      by_cases hseen : m ∈ s.seen
      · simp only [if_pos hseen] at ht ⊢
        exact inv.task_seen t ht
      · simp only [if_neg hseen] at ht ⊢
        rcases List.mem_cons.mp ht with h1 | h1
        · rw [h1]
          exact List.mem_cons_self _ _
        · exact List.mem_cons_of_mem _ (inv.task_seen t h1)
    · intro t ht hst
      by_cases hseen : m ∈ s.seen
      · simp only [if_pos hseen] at ht
        exact inv.task_stage_desc t ht hst
      · simp only [if_neg hseen] at ht
        rcases List.mem_cons.mp ht with h1 | h1
        · rw [h1] at hst
          exact absurd rfl hst
        · exact inv.task_stage_desc t h1 hst
    · intro t ht rem hrem
      by_cases hseen : m ∈ s.seen
      · simp only [if_pos hseen] at ht
        exact inv.task_enq_sub t ht rem hrem
      · simp only [if_neg hseen] at ht
        rcases List.mem_cons.mp ht with h1 | h1
        · rw [h1] at hrem
          exact absurd hrem (by simp)
        · exact inv.task_enq_sub t h1 rem hrem
    · intro x
      have hold := inv.nv_latch x
      by_cases hseen : m ∈ s.seen
      · simp only [if_pos hseen]
        exact hold
      · simp only [if_neg hseen]
        rw [countTaskAtVisit_cons]
        by_cases hx : m = x
        · rw [if_pos (And.intro hx rfl)]
          subst hx
          rw [if_neg hseen] at hold
          rw [if_pos (List.mem_cons_self m s.seen)]
          omega
        · rw [if_neg (fun hc => hx hc.1)]
          have hmem : x ∈ m :: s.seen ↔ x ∈ s.seen := by
            constructor
            · intro h1
              rcases List.mem_cons.mp h1 with h2 | h2
              · exact absurd h2.symm hx
              · exact h2
            · exact List.mem_cons_of_mem _
          by_cases hxs : x ∈ s.seen
          · rw [if_pos (hmem.mpr hxs)]
            rw [if_pos hxs] at hold
            omega
          · rw [if_neg (fun h1 => hxs (hmem.mp h1))]
            rw [if_neg hxs] at hold
            omega
    · intro x hx
      by_cases hseen : m ∈ s.seen
      · simp only [if_pos hseen] at hx
        exact inv.seen_reach x hx
      · simp only [if_neg hseen] at hx
        rcases List.mem_cons.mp hx with h1 | h1
        · rcases inv.pend_reach (po, m, c) hent with ⟨_, h3⟩ | ⟨p, hp2, h3, h4, h5⟩
          · simp only [] at h3
            rw [h1, h3]
            exact WReach.refl
          · rw [h1]
            exact WReach.step h3 h4 h5
        · exact inv.seen_reach x h1
    · intro e he
      exact inv.pend_reach e (eraseIdx_sub e he)
    · intro x
      have hold := inv.load_latch x
      by_cases hseen : m ∈ s.seen
      · simp only [if_pos hseen]
        exact hold
      · simp only [if_neg hseen]
        rw [countTaskAtLoad_cons]
        have hcond : ¬ (m = x ∧ NStage.atVisit = (NStage.atLoad : NStage N E)) :=
          fun hc => by cases hc.2
        rw [if_neg hcond]
        omega
    · intro p2 c2 col2
      have hold := inv.edge_acct p2 c2 col2
      have hpe : countPendingEdge p2 c2 col2 s.pending =
          countPendingEdge p2 c2 col2 (s.pending.eraseIdx i) +
          (if (po, m, c) = (some p2, c2, col2) then 1 else 0) := by
        rw [countPendingEdge_perm hperm, countPendingEdge_cons]
      have hfut : countTaskFuture edges p2 c2 col2
          (if m ∈ s.seen then s.nodeTasks else (m, NStage.atVisit) :: s.nodeTasks) =
          countTaskFuture edges p2 c2 col2 s.nodeTasks := by
        by_cases hseen : m ∈ s.seen
        · rw [if_pos hseen]
        · rw [if_neg hseen, countTaskFuture_cons, tfContrib_atVisit]
          omega
      rw [hfut]
      cases po with
      | none =>
        have hz : ((none : Option N), m, c) ≠ (some p2, c2, col2) := by simp
        rw [if_neg hz] at hpe
        simp only []
        omega
      | some p3 =>
        simp only []
        rw [countETask_cons]
        have hiff : ((some p3 : Option N), m, c) = (some p2, c2, col2) ↔
            (p3, m, c) = (p2, c2, col2) := by
          constructor
          · intro h1
            injection h1 with a1 a2
            rw [Option.some.inj a1, a2]
          · intro h1
            injection h1 with a1 a2
            rw [a1, a2]
        by_cases hc1 : (p3, m, c) = (p2, c2, col2)
        · rw [if_pos (hiff.mpr hc1)] at hpe
          rw [if_pos hc1]
          omega
        · rw [if_neg (fun h1 => hc1 (hiff.mp h1))] at hpe
          rw [if_neg hc1]
          omega
    · rcases inv.start_latch with h1 | ⟨c2, h2⟩
      · left
        by_cases hseen : m ∈ s.seen
        · simp only [if_pos hseen]
          exact h1
        · simp only [if_neg hseen]
          exact List.mem_cons_of_mem _ h1
      · by_cases heq : ((none : Option N), start, c2) = (po, m, c)
        · left
          have hm : m = start := by
            injection heq with a1 a2
            injection a2 with a3 a4
            exact a3.symm
          subst hm
          by_cases hseen : m ∈ s.seen
          · simp only [if_pos hseen]
            exact hseen
          · simp only [if_neg hseen]
            exact List.mem_cons_self _ _
        · right
          refine ⟨c2, ?_⟩
          have h3 := hperm.mem_iff.mp h2
          rcases List.mem_cons.mp h3 with h4 | h4
          · exact absurd h4 heq
          · exact h4

theorem c5_visit {N E : Type} [DecidableEq N] [DecidableEq E]
    {edges : N → List (N × E)} {desc : N → Bool} {start : N}
    {s s2 : WState N E} {m : N} {d : Bool}
    (h : stepW edges s (WAct.visitNode m d false) = some s2)
    (hd : d = desc m)
    (inv : C5Inv edges desc start s) : C5Inv edges desc start s2 := by
  have hw : WInv s2 := stepW_inv h inv.winv
  simp only [stepW] at h
  cases hpt : popTask s.nodeTasks m with
  | none =>
    rw [hpt] at h
    exact absurd h (by simp)
  | some r =>
    rcases r with ⟨st, rest⟩
    rw [hpt] at h
    cases st
    case atLoad => exact absurd h (by simp)
    case enq rem => exact absurd h (by simp)
    case atVisit =>
    simp only [Bool.false_eq_true, if_false] at h
    injection h with h2
    subst h2
    have hperm : s.nodeTasks.Perm ((m, NStage.atVisit) :: rest) := popTask_perm hpt
    have hsubr : ∀ t ∈ rest, t ∈ s.nodeTasks := popTask_rest_sub hpt
    have hmseen : m ∈ s.seen := inv.task_seen (m, NStage.atVisit) (popTask_mem hpt)
    have hcTVold : countTaskAtVisit m s.nodeTasks = countTaskAtVisit m rest + 1 := by
      rw [countTaskAtVisit_perm hperm, countTaskAtVisit_cons,
        if_pos (And.intro rfl rfl)]
    have hlatch := inv.nv_latch m
    rw [if_pos hmseen] at hlatch
    have hcnm : countNode m s.events = 0 := by omega
    have hcTVrest : countTaskAtVisit m rest = 0 := by omega
    have hnoev : ∀ d2 : Bool, WEv.node m d2 ∉ s.events := by
      intro d2 hd2
      have := countNode_pos_iff.mpr ⟨d2, hd2⟩
      omega
    have hnotrue : WEv.node m true ∉ s.events := hnoev true
    have hll := inv.load_latch m
    rw [if_neg hnotrue] at hll
    have hclm : countLoad m s.events = 0 := by omega
    have hcALold : countTaskAtLoad m s.nodeTasks = 0 := by omega
    have hcALpop : countTaskAtLoad m s.nodeTasks = countTaskAtLoad m rest := by
      rw [countTaskAtLoad_perm hperm, countTaskAtLoad_cons,
        if_neg (fun hc => absurd hc.2 (by simp))]
      omega
    have hcALrest : countTaskAtLoad m rest = 0 := by omega
    have hfutpop : ∀ (p c : N) (col : E), countTaskFuture edges p c col s.nodeTasks =
        countTaskFuture edges p c col rest := by
      intro p c col
      rw [countTaskFuture_perm edges hperm, countTaskFuture_cons, tfContrib_atVisit]
      omega
    refine ⟨hw, ?_, ?_, ?_, ?_, ?_, ?_, inv.seen_reach, inv.pend_reach, ?_, ?_, ?_,
      inv.start_latch⟩
    · intro t ht
      cases d
      · simp only [Bool.false_eq_true, if_false] at ht
        exact inv.task_seen t (hsubr t ht)
      · simp only [if_pos rfl, if_true] at ht
        rcases List.mem_cons.mp ht with h1 | h1
        · rw [h1]
          exact hmseen
        · exact inv.task_seen t (hsubr t h1)
    · intro t ht hst
      cases d
      · simp only [Bool.false_eq_true, if_false] at ht
        rcases inv.task_stage_desc t (hsubr t ht) hst with ⟨ha, hb⟩
        exact ⟨ha, List.mem_cons_of_mem _ hb⟩
      · simp only [if_pos rfl, if_true] at ht
        rcases List.mem_cons.mp ht with h1 | h1
        · rw [h1]
          exact ⟨hd.symm, List.mem_cons_self _ _⟩
        · rcases inv.task_stage_desc t (hsubr t h1) hst with ⟨ha, hb⟩
          exact ⟨ha, List.mem_cons_of_mem _ hb⟩
    · intro t ht rem hrem
      cases d
      · simp only [Bool.false_eq_true, if_false] at ht
        exact inv.task_enq_sub t (hsubr t ht) rem hrem
      · simp only [if_pos rfl, if_true] at ht
        rcases List.mem_cons.mp ht with h1 | h1
        · rw [h1] at hrem
          exact absurd hrem (by simp)
        · exact inv.task_enq_sub t (hsubr t h1) rem hrem
    · intro x
      rw [countNode_cons_node]
      by_cases hx : m = x
      · subst hx
        rw [if_pos rfl, if_pos hmseen]
        cases d
        · simp only [Bool.false_eq_true, if_false]
          omega
        · simp only [if_pos rfl, if_true]
          rw [countTaskAtVisit_cons, if_neg (fun hc => absurd hc.2 (by simp))]
          omega
      · rw [if_neg hx]
        have hold := inv.nv_latch x
        have hctvx : countTaskAtVisit x s.nodeTasks = countTaskAtVisit x rest := by
          rw [countTaskAtVisit_perm hperm, countTaskAtVisit_cons,
            if_neg (fun hc => hx hc.1)]
          omega
        cases d
        · simp only [Bool.false_eq_true, if_false]
          omega
        · simp only [if_pos rfl, if_true]
          rw [countTaskAtVisit_cons, if_neg (fun hc => hx hc.1)]
          omega
    · intro x
      constructor
      · intro hx
        rcases List.mem_cons.mp hx with h1 | h1
        · exact ⟨d, by rw [h1]; exact List.mem_cons_self _ _⟩
        · rcases (inv.ready_iff x).mp h1 with ⟨d2, hd2⟩
          exact ⟨d2, List.mem_cons_of_mem _ hd2⟩
      · rintro ⟨d2, hd2⟩
        rcases List.mem_cons.mp hd2 with h1 | h1
        · have hxm : x = m := by
            injection h1 with a1 a2
          rw [hxm]
          exact List.mem_cons_self _ _
        · exact List.mem_cons_of_mem _ ((inv.ready_iff x).mpr ⟨d2, h1⟩)
    · intro x d2 hd2
      rcases List.mem_cons.mp hd2 with h1 | h1
      · injection h1 with a1 a2
        rw [a2, a1, hd]
      · exact inv.nv_desc x d2 h1
    · intro x
      rw [countLoad_cons_node]
      by_cases hx : m = x
      · subst hx
        cases d
        · simp only [Bool.false_eq_true, if_false]
          have hmem2 : WEv.node m true ∉ WEv.node m false :: s.events := by
            intro hc
            rcases List.mem_cons.mp hc with h1 | h1
            · injection h1 with a1 a2
              exact absurd a2.symm (by simp)
            · exact hnotrue h1
          rw [if_neg hmem2]
          omega
        · simp only [if_pos rfl, if_true]
          rw [countTaskAtLoad_cons, if_pos (And.intro rfl rfl)]
          rw [if_pos (List.mem_cons_self _ _)]
          omega
      · have hcALx : countTaskAtLoad x s.nodeTasks = countTaskAtLoad x rest := by
          rw [countTaskAtLoad_perm hperm, countTaskAtLoad_cons,
            if_neg (fun hc => hx hc.1)]
          omega
        have hmemx : WEv.node x true ∈ WEv.node m d :: s.events ↔
            WEv.node x true ∈ s.events := by
          constructor
          · intro hc
            rcases List.mem_cons.mp hc with h1 | h1
            · injection h1 with a1 a2
              exact absurd a1.symm hx
            · exact h1
          · exact List.mem_cons_of_mem _
        have hold := inv.load_latch x
        cases d
        · simp only [Bool.false_eq_true, if_false]
          by_cases hevx : WEv.node x true ∈ s.events
          · rw [if_pos (hmemx.mpr hevx)]
            rw [if_pos hevx] at hold
            omega
          · rw [if_neg (fun hc => hevx (hmemx.mp hc))]
            rw [if_neg hevx] at hold
            omega
        · simp only [if_pos rfl, if_true]
          rw [countTaskAtLoad_cons, if_neg (fun hc => hx hc.1)]
          by_cases hevx : WEv.node x true ∈ s.events
          · rw [if_pos (hmemx.mpr hevx)]
            rw [if_pos hevx] at hold
            omega
          · rw [if_neg (fun hc => hevx (hmemx.mp hc))]
            rw [if_neg hevx] at hold
            omega
    · intro p c col
      dsimp only
      rw [countEdge_cons_node]
      have hold := inv.edge_acct p c col
      by_cases hp : m = p
      · subst hp
        have hrhs0 : WEv.node m true ∉ s.events := hnotrue
        rw [if_neg hrhs0] at hold
        have hfut0 : countTaskFuture edges m c col rest = 0 := by
          have := hfutpop m c col
          omega
        cases d
        · simp only [Bool.false_eq_true, if_false]
          have hmem2 : WEv.node m true ∉ WEv.node m false :: s.events := by
            intro hc
            rcases List.mem_cons.mp hc with h1 | h1
            · injection h1 with a1 a2
              exact absurd a2.symm (by simp)
            · exact hnotrue h1
          rw [if_neg hmem2]
          omega
        · simp only [if_pos rfl, if_true]
          rw [countTaskFuture_cons]
          have htf : tfContrib edges m c col (m, NStage.atLoad) =
              (edges m).count (c, col) := by
            simp [tfContrib]
          rw [htf, if_pos (List.mem_cons_self _ _)]
          omega
      · have hmemp : WEv.node p true ∈ WEv.node m d :: s.events ↔
            WEv.node p true ∈ s.events := by
          constructor
          · intro hc
            rcases List.mem_cons.mp hc with h1 | h1
            · injection h1 with a1 a2
              exact absurd a1.symm hp
            · exact h1
          · exact List.mem_cons_of_mem _
        have hfutx : countTaskFuture edges p c col
            (if d = true then (m, NStage.atLoad) :: rest else rest) =
            countTaskFuture edges p c col rest := by
          cases d
          · simp only [Bool.false_eq_true, if_false]
          · simp only [if_pos rfl, if_true]
            rw [countTaskFuture_cons]
            have htf : tfContrib edges p c col (m, NStage.atLoad) = 0 := by
              simp [tfContrib, hp]
            omega
        rw [hfutx]
        have hfr := hfutpop p c col
        by_cases hevp : WEv.node p true ∈ s.events
        · rw [if_pos (hmemp.mpr hevp)]
          rw [if_pos hevp] at hold
          omega
        · rw [if_neg (fun hc => hevp (hmemp.mp hc))]
          rw [if_neg hevp] at hold
          omega
    · intro p c col hmem
      rcases List.mem_cons.mp hmem with h1 | h1
      · exact absurd h1 (by simp)
      · rcases inv.edge_child_visited p c col h1 with ⟨d2, hd2⟩
        exact ⟨d2, List.mem_cons_of_mem _ hd2⟩

theorem c5_load {N E : Type} [DecidableEq N] [DecidableEq E]
    {edges : N → List (N × E)} {desc : N → Bool} {start : N}
    {s s2 : WState N E} {m : N}
    (h : stepW edges s (WAct.loadStep m false) = some s2)
    (inv : C5Inv edges desc start s) : C5Inv edges desc start s2 := by
  have hw : WInv s2 := stepW_inv h inv.winv
  simp only [stepW] at h
  cases hpt : popTask s.nodeTasks m with
  | none =>
    rw [hpt] at h
    exact absurd h (by simp)
  | some r =>
    rcases r with ⟨st, rest⟩
    rw [hpt] at h
    cases st
    case atVisit => exact absurd h (by simp)
    case enq rem => exact absurd h (by simp)
    case atLoad =>
    simp only [Bool.false_eq_true, if_false] at h
    injection h with h2
    subst h2
    have hperm : s.nodeTasks.Perm ((m, NStage.atLoad) :: rest) := popTask_perm hpt
    have hsubr : ∀ t ∈ rest, t ∈ s.nodeTasks := popTask_rest_sub hpt
    have hmem0 : (m, NStage.atLoad) ∈ s.nodeTasks := popTask_mem hpt
    have hmseen : m ∈ s.seen := inv.task_seen (m, NStage.atLoad) hmem0
    have hdm : desc m = true ∧ WEv.node m true ∈ s.events :=
      inv.task_stage_desc (m, NStage.atLoad) hmem0 (by simp)
    have hll := inv.load_latch m
    rw [if_pos hdm.2] at hll
    have hcALold : countTaskAtLoad m s.nodeTasks = countTaskAtLoad m rest + 1 := by
      rw [countTaskAtLoad_perm hperm, countTaskAtLoad_cons,
        if_pos (And.intro rfl rfl)]
    have hclm : countLoad m s.events = 0 := by omega
    have hcALrest : countTaskAtLoad m rest = 0 := by omega
    refine ⟨hw, ?_, ?_, ?_, ?_, ?_, ?_, inv.seen_reach, inv.pend_reach, ?_, ?_, ?_,
      inv.start_latch⟩
    · intro t ht
      dsimp only at ht
      cases hes : edges m with
      | nil =>
        rw [hes] at ht
        exact inv.task_seen t (hsubr t ht)
      | cons e2 es2 =>
        rw [hes] at ht
        simp only [] at ht
        rcases List.mem_cons.mp ht with h1 | h1
        · rw [h1]
          exact hmseen
        · exact inv.task_seen t (hsubr t h1)
    · intro t ht hst
      dsimp only at ht
      cases hes : edges m with
      | nil =>
        rw [hes] at ht
        rcases inv.task_stage_desc t (hsubr t ht) hst with ⟨ha, hb⟩
        exact ⟨ha, List.mem_cons_of_mem _ hb⟩
      | cons e2 es2 =>
        rw [hes] at ht
        simp only [] at ht
        rcases List.mem_cons.mp ht with h1 | h1
        · rw [h1]
          exact ⟨hdm.1, List.mem_cons_of_mem _ hdm.2⟩
        · rcases inv.task_stage_desc t (hsubr t h1) hst with ⟨ha, hb⟩
          exact ⟨ha, List.mem_cons_of_mem _ hb⟩
    · intro t ht rem hrem
      dsimp only at ht
      cases hes : edges m with
      | nil =>
        rw [hes] at ht
        exact inv.task_enq_sub t (hsubr t ht) rem hrem
      | cons e2 es2 =>
        rw [hes] at ht
        simp only [] at ht
        rcases List.mem_cons.mp ht with h1 | h1
        · rw [h1] at hrem
          have hrem2 : e2 :: es2 = rem := by
            injection hrem
          intro e he
          rw [← hrem2] at he
          rw [h1]
          rw [← hes] at he
          exact he
        · exact inv.task_enq_sub t (hsubr t h1) rem hrem
    · intro x
      dsimp only
      rw [countNode_cons_load]
      have hctvx : countTaskAtVisit x s.nodeTasks = countTaskAtVisit x rest := by
        rw [countTaskAtVisit_perm hperm, countTaskAtVisit_cons,
          if_neg (fun hc => absurd hc.2 (by simp))]
        omega
      have hold := inv.nv_latch x
      cases hes : edges m with
      | nil =>
        simp only []
        omega
      | cons e2 es2 =>
        simp only []
        rw [countTaskAtVisit_cons, if_neg (fun hc => absurd hc.2 (by simp))]
        omega
    · intro x
      dsimp only
      constructor
      · intro hx
        rcases (inv.ready_iff x).mp hx with ⟨d2, hd2⟩
        exact ⟨d2, List.mem_cons_of_mem _ hd2⟩
      · rintro ⟨d2, hd2⟩
        rcases List.mem_cons.mp hd2 with h1 | h1
        · exact absurd h1 (by simp)
        · exact (inv.ready_iff x).mpr ⟨d2, h1⟩
    · intro x d2 hd2
      dsimp only at hd2
      rcases List.mem_cons.mp hd2 with h1 | h1
      · exact absurd h1 (by simp)
      · exact inv.nv_desc x d2 h1
    · intro x
      dsimp only
      rw [countLoad_cons_load]
      have hmemx : WEv.node x true ∈ WEv.load m :: s.events ↔
          WEv.node x true ∈ s.events := by
        constructor
        · intro hc
          rcases List.mem_cons.mp hc with h1 | h1
          · exact absurd h1 (by simp)
          · exact h1
        · exact List.mem_cons_of_mem _
      have hold := inv.load_latch x
      by_cases hx : m = x
      · subst hx
        rw [if_pos rfl, if_pos (hmemx.mpr hdm.2)]
        have hcALx : countTaskAtLoad m
            (match edges m with
             | [] => rest
             | es => (m, NStage.enq es) :: rest) = 0 := by
          cases hes : edges m with
          | nil => exact hcALrest
          | cons e2 es2 =>
            rw [countTaskAtLoad_cons, if_neg (fun hc => absurd hc.2 (by simp))]
            omega
        rw [hcALx]
        omega
      · rw [if_neg hx]
        have hcALx : countTaskAtLoad x s.nodeTasks = countTaskAtLoad x rest := by
          rw [countTaskAtLoad_perm hperm, countTaskAtLoad_cons,
            if_neg (fun hc => hx hc.1)]
          omega
        have hcALx2 : countTaskAtLoad x
            (match edges m with
             | [] => rest
             | es => (m, NStage.enq es) :: rest) = countTaskAtLoad x rest := by
          cases hes : edges m with
          | nil => rfl
          | cons e2 es2 =>
            rw [countTaskAtLoad_cons, if_neg (fun hc => hx hc.1)]
            omega
        rw [hcALx2]
        by_cases hevx : WEv.node x true ∈ s.events
        · rw [if_pos (hmemx.mpr hevx)]
          rw [if_pos hevx] at hold
          omega
        · rw [if_neg (fun hc => hevx (hmemx.mp hc))]
          rw [if_neg hevx] at hold
          omega
    · intro p c col
      dsimp only
      rw [countEdge_cons_load]
      have hmemp : WEv.node p true ∈ WEv.load m :: s.events ↔
          WEv.node p true ∈ s.events := by
        constructor
        · intro hc
          rcases List.mem_cons.mp hc with h1 | h1
          · exact absurd h1 (by simp)
          · exact h1
        · exact List.mem_cons_of_mem _
      have hold := inv.edge_acct p c col
      have hfutold : countTaskFuture edges p c col s.nodeTasks =
          tfContrib edges p c col (m, NStage.atLoad) + countTaskFuture edges p c col rest := by
        rw [countTaskFuture_perm edges hperm, countTaskFuture_cons]
      have hfutnew : countTaskFuture edges p c col
          (match edges m with
           | [] => rest
           | es => (m, NStage.enq es) :: rest) =
          tfContrib edges p c col (m, NStage.atLoad) + countTaskFuture edges p c col rest := by
        cases hes : edges m with
        | nil =>
          have htf0 : tfContrib edges p c col (m, NStage.atLoad) = 0 := by
            by_cases hp : m = p
            · subst hp
              simp [tfContrib, hes]
            · simp [tfContrib, hp]
          rw [htf0]
          simp only []
          omega
        | cons e2 es2 =>
          rw [countTaskFuture_cons]
          have htfeq : tfContrib edges p c col (m, NStage.enq (e2 :: es2)) =
              tfContrib edges p c col (m, NStage.atLoad) := by
            by_cases hp : m = p
            · subst hp
              simp [tfContrib, hes]
            · simp [tfContrib, hp]
          rw [htfeq]
      rw [hfutnew]
      by_cases hevp : WEv.node p true ∈ s.events
      · rw [if_pos (hmemp.mpr hevp)]
        rw [if_pos hevp] at hold
        omega
      · rw [if_neg (fun hc => hevp (hmemp.mp hc))]
        rw [if_neg hevp] at hold
        omega
    · intro p c col hmem
      dsimp only at hmem
      rcases List.mem_cons.mp hmem with h1 | h1
      · exact absurd h1 (by simp)
      · rcases inv.edge_child_visited p c col h1 with ⟨d2, hd2⟩
        exact ⟨d2, List.mem_cons_of_mem _ hd2⟩

theorem c5_enq {N E : Type} [DecidableEq N] [DecidableEq E]
    {edges : N → List (N × E)} {desc : N → Bool} {start : N}
    {s s2 : WState N E} {m : N}
    (h : stepW edges s (WAct.enqEdge m) = some s2)
    (inv : C5Inv edges desc start s) : C5Inv edges desc start s2 := by
  have hw : WInv s2 := stepW_inv h inv.winv
  simp only [stepW] at h
  cases hpt : popTask s.nodeTasks m with
  | none =>
    rw [hpt] at h
    exact absurd h (by simp)
  | some r =>
    rcases r with ⟨st, rest⟩
    rw [hpt] at h
    cases st
    case atVisit => exact absurd h (by simp)
    case atLoad => exact absurd h (by simp)
    case enq rem =>
    cases rem with
    | nil => exact absurd h (by simp)
    | cons e2 rem2 =>
    rcases e2 with ⟨c, col⟩
    simp only [] at h
    injection h with h2
    subst h2
    have hperm : s.nodeTasks.Perm ((m, NStage.enq ((c, col) :: rem2)) :: rest) :=
      popTask_perm hpt
    have hsubr : ∀ t ∈ rest, t ∈ s.nodeTasks := popTask_rest_sub hpt
    have hmem0 : (m, NStage.enq ((c, col) :: rem2)) ∈ s.nodeTasks := popTask_mem hpt
    have hmseen : m ∈ s.seen := inv.task_seen _ hmem0
    have hdm : desc m = true ∧ WEv.node m true ∈ s.events :=
      inv.task_stage_desc _ hmem0 (by simp)
    have hsub0 : ∀ e ∈ (c, col) :: rem2, e ∈ edges m :=
      inv.task_enq_sub _ hmem0 ((c, col) :: rem2) rfl
    refine ⟨hw, ?_, ?_, ?_, ?_, inv.ready_iff, inv.nv_desc, inv.seen_reach, ?_, ?_,
      ?_, inv.edge_child_visited, ?_⟩
    · intro t ht
      dsimp only at ht
      cases rem2 with
      | nil =>
        exact inv.task_seen t (hsubr t ht)
      | cons e3 rem3 =>
        simp only [] at ht
        rcases List.mem_cons.mp ht with h1 | h1
        · rw [h1]
          exact hmseen
        · exact inv.task_seen t (hsubr t h1)
    · intro t ht hst
      dsimp only at ht
      cases rem2 with
      | nil =>
        exact inv.task_stage_desc t (hsubr t ht) hst
      | cons e3 rem3 =>
        simp only [] at ht
        rcases List.mem_cons.mp ht with h1 | h1
        · rw [h1]
          exact hdm
        · exact inv.task_stage_desc t (hsubr t h1) hst
    · intro t ht rem hrem
      dsimp only at ht
      cases rem2 with
      | nil =>
        exact inv.task_enq_sub t (hsubr t ht) rem hrem
      | cons e3 rem3 =>
        simp only [] at ht
        rcases List.mem_cons.mp ht with h1 | h1
        · rw [h1] at hrem
          have hr2 : e3 :: rem3 = rem := by
            injection hrem
          intro e he
          rw [← hr2] at he
          rw [h1]
          exact hsub0 e (List.mem_cons_of_mem _ he)
        · exact inv.task_enq_sub t (hsubr t h1) rem hrem
    · intro x
      dsimp only
      have hctvx : countTaskAtVisit x s.nodeTasks = countTaskAtVisit x rest := by
        rw [countTaskAtVisit_perm hperm, countTaskAtVisit_cons,
          if_neg (fun hc => absurd hc.2 (by simp))]
        omega
      have hold := inv.nv_latch x
      cases rem2 with
      | nil =>
        simp only []
        omega
      | cons e3 rem3 =>
        simp only []
        rw [countTaskAtVisit_cons, if_neg (fun hc => absurd hc.2 (by simp))]
        omega
    · intro e he
      dsimp only at he
      rcases List.mem_append.mp he with h1 | h1
      · exact inv.pend_reach e h1
      · have he2 : e = (some m, c, col) := by simpa using h1
        rw [he2]
        exact Or.inr ⟨m, rfl, inv.seen_reach m hmseen, hdm.1,
          hsub0 (c, col) (List.mem_cons_self _ _)⟩
    · intro x
      dsimp only
      have hcALx : countTaskAtLoad x s.nodeTasks = countTaskAtLoad x rest := by
        rw [countTaskAtLoad_perm hperm, countTaskAtLoad_cons,
          if_neg (fun hc => absurd hc.2 (by simp))]
        omega
      have hold := inv.load_latch x
      cases rem2 with
      | nil =>
        simp only []
        omega
      | cons e3 rem3 =>
        simp only []
        rw [countTaskAtLoad_cons, if_neg (fun hc => absurd hc.2 (by simp))]
        omega
    · intro p c2 col2
      dsimp only
      have hold := inv.edge_acct p c2 col2
      rw [countPendingEdge_append]
      have hfutold : countTaskFuture edges p c2 col2 s.nodeTasks =
          tfContrib edges p c2 col2 (m, NStage.enq ((c, col) :: rem2)) +
          countTaskFuture edges p c2 col2 rest := by
        rw [countTaskFuture_perm edges hperm, countTaskFuture_cons]
      by_cases hp : m = p
      · subst hp
        have htf1 : tfContrib edges m c2 col2 (m, NStage.enq ((c, col) :: rem2)) =
            ((c, col) :: rem2).count (c2, col2) := by
          simp [tfContrib]
        have hcnt : ((c, col) :: rem2).count (c2, col2) =
            rem2.count (c2, col2) + (if (c, col) = (c2, col2) then 1 else 0) := by
          rw [List.count_cons]
          by_cases hcc : (c, col) = (c2, col2)
          · simp [hcc]
          · simp [hcc]
        have hpe1 : countPendingEdge m c2 col2 [(some m, c, col)] =
            (if (c, col) = (c2, col2) then 1 else 0) := by
          by_cases hcc : (c, col) = (c2, col2)
          · rw [if_pos hcc]
            have : ((some m, c, col) : Option N × N × E) = (some m, c2, col2) := by
              rw [show c = c2 from congrArg Prod.fst hcc,
                show col = col2 from congrArg Prod.snd hcc]
            simp [countPendingEdge, this]
          · rw [if_neg hcc]
            have : ((some m, c, col) : Option N × N × E) ≠ (some m, c2, col2) :=
              fun hcon => hcc (congrArg Prod.snd hcon)
            simp [countPendingEdge, this]
        rw [hpe1]
        cases rem2 with
        | nil =>
          simp only []
          have htf2 : countTaskFuture edges m c2 col2 rest =
              countTaskFuture edges m c2 col2 rest := rfl
          rw [htf1, hcnt] at hfutold
          have hz : (([] : List (N × E)).count (c2, col2)) = 0 := rfl
          rw [hz] at hfutold
          omega
        | cons e3 rem3 =>
          simp only []
          rw [countTaskFuture_cons]
          have htf3 : tfContrib edges m c2 col2 (m, NStage.enq (e3 :: rem3)) =
              (e3 :: rem3).count (c2, col2) := by
            simp [tfContrib]
          rw [htf3]
          rw [htf1, hcnt] at hfutold
          omega
      · have htf1 : tfContrib edges p c2 col2 (m, NStage.enq ((c, col) :: rem2)) = 0 := by
          simp [tfContrib, hp]
        have hpe1 : countPendingEdge p c2 col2 [(some m, c, col)] = 0 := by
          have : ((some m, c, col) : Option N × N × E) ≠ (some p, c2, col2) := by
            intro hcon
            injection hcon with a1 a2
            exact hp (Option.some.inj a1)
          simp [countPendingEdge, this]
        rw [hpe1]
        cases rem2 with
        | nil =>
          simp only []
          rw [htf1] at hfutold
          omega
        | cons e3 rem3 =>
          simp only []
          rw [countTaskFuture_cons]
          have htf3 : tfContrib edges p c2 col2 (m, NStage.enq (e3 :: rem3)) = 0 := by
            simp [tfContrib, hp]
          rw [htf1] at hfutold
          rw [htf3]
          omega
    · rcases inv.start_latch with h1 | ⟨c2, h2⟩
      · exact Or.inl h1
      · exact Or.inr ⟨c2, List.mem_append.mpr (Or.inl h2)⟩

theorem c5_fire {N E : Type} [DecidableEq N] [DecidableEq E]
    {edges : N → List (N × E)} {desc : N → Bool} {start : N}
    {s s2 : WState N E} {j : Nat}
    (h : stepW edges s (WAct.fireEdge j) = some s2)
    (inv : C5Inv edges desc start s) : C5Inv edges desc start s2 := by
  have hw : WInv s2 := stepW_inv h inv.winv
  simp only [stepW] at h
  cases hg : s.edgeTasks.get? j with
  | none =>
    rw [hg] at h
    exact absurd h (by simp)
  | some e =>
    rcases e with ⟨p, m, c⟩
    rw [hg] at h
    simp only [] at h
    have hpready : p ∈ s.ready :=
      inv.winv.etask_par_ready (p, m, c) (get_mem_of_get? hg)
    by_cases hm : m ∈ s.ready
    case neg =>
      rw [if_neg hm] at h
      exact absurd h (by simp)
    case pos =>
    rw [if_pos hm, if_pos hpready] at h
    injection h with h2
    subst h2
    have hperm : s.edgeTasks.Perm ((p, m, c) :: s.edgeTasks.eraseIdx j) :=
      get_eraseIdx_perm hg
    refine ⟨hw, inv.task_seen, ?_, inv.task_enq_sub, ?_, ?_, ?_, inv.seen_reach,
      inv.pend_reach, ?_, ?_, ?_, inv.start_latch⟩
    · intro t ht hst
      rcases inv.task_stage_desc t ht hst with ⟨ha, hb⟩
      exact ⟨ha, List.mem_cons_of_mem _ hb⟩
    · intro x
      dsimp only
      rw [countNode_cons_edge]
      exact inv.nv_latch x
    · intro x
      dsimp only
      constructor
      · intro hx
        rcases (inv.ready_iff x).mp hx with ⟨d2, hd2⟩
        exact ⟨d2, List.mem_cons_of_mem _ hd2⟩
      · rintro ⟨d2, hd2⟩
        rcases List.mem_cons.mp hd2 with h1 | h1
        · exact absurd h1 (by simp)
        · exact (inv.ready_iff x).mpr ⟨d2, h1⟩
    · intro x d2 hd2
      dsimp only at hd2
      rcases List.mem_cons.mp hd2 with h1 | h1
      · exact absurd h1 (by simp)
      · exact inv.nv_desc x d2 h1
    · intro x
      dsimp only
      rw [countLoad_cons_edge]
      have hmemx : WEv.node x true ∈ WEv.edge p m c :: s.events ↔
          WEv.node x true ∈ s.events := by
        constructor
        · intro hc
          rcases List.mem_cons.mp hc with h1 | h1
          · exact absurd h1 (by simp)
          · exact h1
        · exact List.mem_cons_of_mem _
      have hold := inv.load_latch x
      by_cases hevx : WEv.node x true ∈ s.events
      · rw [if_pos (hmemx.mpr hevx)]
        rw [if_pos hevx] at hold
        omega
      · rw [if_neg (fun hc => hevx (hmemx.mp hc))]
        rw [if_neg hevx] at hold
        omega
    · intro p2 c2 col2
      dsimp only
      rw [countEdge_cons_edge]
      have hold := inv.edge_acct p2 c2 col2
      have hetold : countETask p2 c2 col2 s.edgeTasks =
          countETask p2 c2 col2 (s.edgeTasks.eraseIdx j) +
          (if (p, m, c) = (p2, c2, col2) then 1 else 0) := by
        rw [countETask_perm hperm, countETask_cons]
      have hmemp : WEv.node p2 true ∈ WEv.edge p m c :: s.events ↔
          WEv.node p2 true ∈ s.events := by
        constructor
        · intro hc
          rcases List.mem_cons.mp hc with h1 | h1
          · exact absurd h1 (by simp)
          · exact h1
        · exact List.mem_cons_of_mem _
      have hiff : ((p, m, c) = (p2, c2, col2)) ↔ (p = p2 ∧ m = c2 ∧ c = col2) := by
        constructor
        · intro h1
          injection h1 with a1 a2
          injection a2 with a3 a4
          exact ⟨a1, a3, a4⟩
        · rintro ⟨a1, a3, a4⟩
          rw [a1, a3, a4]
      have hif2 : (if (p, m, c) = (p2, c2, col2) then 1 else 0) =
          (if p = p2 ∧ m = c2 ∧ c = col2 then (1 : Nat) else 0) := by
        by_cases hcc : (p, m, c) = (p2, c2, col2)
        · rw [if_pos hcc, if_pos (hiff.mp hcc)]
        · rw [if_neg hcc, if_neg (fun hc2 => hcc (hiff.mpr hc2))]
      rw [hif2] at hetold
      by_cases hevp : WEv.node p2 true ∈ s.events
      · rw [if_pos (hmemp.mpr hevp)]
        rw [if_pos hevp] at hold
        omega
      · rw [if_neg (fun hc => hevp (hmemp.mp hc))]
        rw [if_neg hevp] at hold
        omega
    · intro p2 c2 col2 hmem
      dsimp only at hmem
      rcases List.mem_cons.mp hmem with h1 | h1
      · have ha : m = c2 := by
          injection h1 with a1 a2 a3
          exact a2.symm
        rcases (inv.ready_iff m).mp hm with ⟨d2, hd2⟩
        rw [← ha]
        exact ⟨d2, List.mem_cons_of_mem _ hd2⟩
      · rcases inv.edge_child_visited p2 c2 col2 h1 with ⟨d2, hd2⟩
        exact ⟨d2, List.mem_cons_of_mem _ hd2⟩

theorem c5_run {N E : Type} [DecidableEq N] [DecidableEq E]
    {edges : N → List (N × E)} {desc : N → Bool} {start : N} :
    ∀ {acts : List (WAct N E)} {s s2 : WState N E},
      runW edges s acts = some s2 →
      (∀ a ∈ acts, cleanActB desc a = true) →
      C5Inv edges desc start s → C5Inv edges desc start s2 := by
  intro acts
  induction acts with
  | nil =>
    intro s s2 h hclean inv
    have : s = s2 := by simpa [runW] using h
    rw [← this]
    exact inv
  | cons a acts2 ih =>
    intro s s2 h hclean inv
    rw [runW] at h
    cases hst : stepW edges s a with
    | none =>
      rw [hst] at h
      exact absurd h (by simp)
    | some s3 =>
      rw [hst] at h
      have hcl := hclean a (List.mem_cons_self _ _)
      have hrest : ∀ b ∈ acts2, cleanActB desc b = true :=
        fun b hb => hclean b (List.mem_cons_of_mem _ hb)
      have inv3 : C5Inv edges desc start s3 := by
        cases a with
        | process i => exact c5_process hst inv
        | visitNode m d fail =>
          simp [cleanActB] at hcl
          rcases hcl with ⟨hf, hd⟩
          rw [hf] at hst
          exact c5_visit hst hd inv
        | loadStep m fail =>
          simp [cleanActB] at hcl
          rw [hcl] at hst
          exact c5_load hst inv
        | enqEdge m => exact c5_enq hst inv
        | fireEdge j => exact c5_fire hst inv
        | dropPending i => simp [cleanActB] at hcl
        | dropNodeTask m => simp [cleanActB] at hcl
        | dropEdgeTask j => simp [cleanActB] at hcl
      exact ih h hrest inv3

/-- CLAIM C5 (confirmed).  In every error-free complete run of the graph
walker with deterministic callback results desc: nodeVisit returns exactly
once per node reachable through descended nodes and never otherwise; load
returns exactly once per reachable node with descend true and never
otherwise; and edgeVisit is invoked exactly once per occurrence of every
outgoing edge of every descended reachable node, counting multiplicity, and
never otherwise.  Error-free complete means: every action is clean (no
callback failure, no cancellation, results agree with desc) and the final
state has no queued entries and no live goroutines. -/
theorem walkGraph_exactly_once {N E : Type} [DecidableEq N] [DecidableEq E]
    (edges : N → List (N × E)) (desc : N → Bool) (start : N) (e0 : E)
    (acts : List (WAct N E)) (s : WState N E)
    (hrun : runW edges (initW start e0) acts = some s)
    (hclean : ∀ a ∈ acts, cleanActB desc a = true)
    (hpend : s.pending = []) (hnt : s.nodeTasks = []) (het : s.edgeTasks = []) :
    (∀ m : N, (∃ d, WEv.node m d ∈ s.events) ↔ WReach edges desc start m) ∧
    (∀ m : N, WReach edges desc start m → countNode m s.events = 1) ∧
    (∀ m : N, ¬ WReach edges desc start m → countNode m s.events = 0) ∧
    (∀ m : N, WEv.load m ∈ s.events ↔ (WReach edges desc start m ∧ desc m = true)) ∧
    (∀ m : N, WReach edges desc start m → desc m = true → countLoad m s.events = 1) ∧
    (∀ m : N, countLoad m s.events ≤ 1) ∧
    (∀ (p c : N) (col : E), WReach edges desc start p → desc p = true →
      countEdge p c col s.events = (edges p).count (c, col)) ∧
    (∀ (p c : N) (col : E), ¬ (WReach edges desc start p ∧ desc p = true) →
      countEdge p c col s.events = 0) := by
  have inv : C5Inv edges desc start s :=
    c5_run hrun hclean (initW_c5inv edges desc start e0)
  have hnv : ∀ m : N, countNode m s.events = if m ∈ s.seen then 1 else 0 := by
    intro m
    have h1 := inv.nv_latch m
    rw [hnt] at h1
    have h2 : countTaskAtVisit m ([] : List (N × NStage N E)) = 0 := rfl
    omega
  have hevseen : ∀ m : N, (∃ d, WEv.node m d ∈ s.events) → m ∈ s.seen := by
    intro m hev
    have h1 : 0 < countNode m s.events := countNode_pos_iff.mpr hev
    have h2 := hnv m
    by_contra hns
    rw [if_neg hns] at h2
    omega
  have hload : ∀ m : N, countLoad m s.events =
      if WEv.node m true ∈ s.events then 1 else 0 := by
    intro m
    have h1 := inv.load_latch m
    rw [hnt] at h1
    have h2 : countTaskAtLoad m ([] : List (N × NStage N E)) = 0 := rfl
    omega
  have hedge : ∀ (p c : N) (col : E), countEdge p c col s.events =
      if WEv.node p true ∈ s.events then (edges p).count (c, col) else 0 := by
    intro p c col
    have h1 := inv.edge_acct p c col
    rw [hnt, hpend, het] at h1
    have h2 : countETask p c col ([] : List (N × N × E)) = 0 := rfl
    have h3 : countPendingEdge p c col ([] : List (Option N × N × E)) = 0 := rfl
    have h4 : countTaskFuture edges p c col ([] : List (N × NStage N E)) = 0 := rfl
    omega
  have hreach_ev : ∀ m : N, WReach edges desc start m →
      ∃ d, WEv.node m d ∈ s.events := by
    intro m hm
    induction hm with
    | refl =>
      have hseen : start ∈ s.seen := by
        rcases inv.start_latch with h1 | ⟨c2, h2⟩
        · exact h1
        · rw [hpend] at h2
          exact absurd h2 (by simp)
      have h2 := hnv start
      rw [if_pos hseen] at h2
      exact countNode_pos_iff.mp (by omega)
    | @step p c col hp hdp hmem ih =>
      rcases ih with ⟨d2, hd2⟩
      have hdd : d2 = desc p := inv.nv_desc p d2 hd2
      rw [hdd, hdp] at hd2
      have h1 := hedge p c col
      rw [if_pos hd2] at h1
      have h2 : 0 < (edges p).count (c, col) := List.count_pos_iff_mem.mpr hmem
      have h3 : 0 < countEdge p c col s.events := by
        rw [h1]
        exact h2
      have h4 := countEdge_pos_iff.mp h3
      exact inv.edge_child_visited p c col h4
  have hev_reach : ∀ m : N, (∃ d, WEv.node m d ∈ s.events) →
      WReach edges desc start m :=
    fun m hev => inv.seen_reach m (hevseen m hev)
  have hnodetrue : ∀ m : N, WReach edges desc start m → desc m = true →
      WEv.node m true ∈ s.events := by
    intro m hm hd
    rcases hreach_ev m hm with ⟨d2, hd2⟩
    have hdd : d2 = desc m := inv.nv_desc m d2 hd2
    rw [hdd, hd] at hd2
    exact hd2
  have hnotrue_inv : ∀ m : N, WEv.node m true ∈ s.events →
      WReach edges desc start m ∧ desc m = true := by
    intro m hmem
    have h1 : WReach edges desc start m := hev_reach m ⟨true, hmem⟩
    have h2 : true = desc m := inv.nv_desc m true hmem
    exact ⟨h1, h2.symm⟩
  refine ⟨fun m => ⟨hev_reach m, hreach_ev m⟩, ?_, ?_, ?_, ?_, ?_, ?_, ?_⟩
  · intro m hm
    have hseen : m ∈ s.seen := hevseen m (hreach_ev m hm)
    rw [hnv m, if_pos hseen]
  · intro m hm
    have hns : m ∉ s.seen := fun hc => hm (inv.seen_reach m hc)
    rw [hnv m, if_neg hns]
  · intro m
    constructor
    · intro hmem
      have h1 : 0 < countLoad m s.events := countLoad_pos_iff.mpr hmem
      have h2 := hload m
      by_cases hev : WEv.node m true ∈ s.events
      · exact hnotrue_inv m hev
      · rw [if_neg hev] at h2
        omega
    · rintro ⟨hm, hd⟩
      have hev := hnodetrue m hm hd
      have h2 := hload m
      rw [if_pos hev] at h2
      exact countLoad_pos_iff.mp (by omega)
  · intro m hm hd
    have hev := hnodetrue m hm hd
    rw [hload m, if_pos hev]
  · intro m
    have h2 := hload m
    by_cases hev : WEv.node m true ∈ s.events
    · rw [if_pos hev] at h2
      omega
    · rw [if_neg hev] at h2
      omega
  · intro p c col hp hd
    have hev := hnodetrue p hp hd
    rw [hedge p c col, if_pos hev]
  · intro p c col hnpd
    have hev : WEv.node p true ∉ s.events := fun hc => hnpd (hnotrue_inv p hc)
    rw [hedge p c col, if_neg hev]

/-- Concrete cyclic three-node graph for the C5 witness. -/
def wEdges5 : Nat → List (Nat × Nat) := fun n =>
  if n = 0 then [(1, 7), (2, 7)] else if n = 1 then [(2, 8)] else [(0, 9)]

/-- Concrete descend decisions for the C5 witness: do not descend node 2. -/
def wDesc5 : Nat → Bool := fun n => decide (n < 2)

/-- Concrete clean complete schedule for the C5 witness. -/
def wActs5 : List (WAct Nat Nat) :=
  [WAct.process 0, WAct.visitNode 0 true false, WAct.loadStep 0 false,
   WAct.enqEdge 0, WAct.enqEdge 0, WAct.process 0, WAct.visitNode 1 true false,
   WAct.loadStep 1 false, WAct.enqEdge 1, WAct.process 0,
   WAct.visitNode 2 false false, WAct.process 0, WAct.fireEdge 0,
   WAct.fireEdge 0, WAct.fireEdge 0]

/-- Final state of the C5 witness schedule. -/
def wFinal5 : WState Nat Nat :=
  ⟨[], [2, 1, 0], [2, 1, 0], [], [],
   [WEv.edge 0 1 7, WEv.edge 0 2 7, WEv.edge 1 2 8, WEv.node 2 false,
    WEv.load 1, WEv.node 1 true, WEv.load 0, WEv.node 0 true],
   false⟩

/-- Witness for the C5 theorem at a concrete graph and schedule. -/
theorem walkGraph_exactly_once_witness :
    runW wEdges5 (initW 0 0) wActs5 = some wFinal5 ∧
    (∀ a ∈ wActs5, cleanActB wDesc5 a = true) ∧
    wFinal5.pending = [] ∧ wFinal5.nodeTasks = [] ∧ wFinal5.edgeTasks = [] ∧
    ((∀ m : Nat, (∃ d, WEv.node m d ∈ wFinal5.events) ↔ WReach wEdges5 wDesc5 0 m) ∧
    (∀ m : Nat, WReach wEdges5 wDesc5 0 m → countNode m wFinal5.events = 1) ∧
    (∀ m : Nat, ¬ WReach wEdges5 wDesc5 0 m → countNode m wFinal5.events = 0) ∧
    (∀ m : Nat, WEv.load m ∈ wFinal5.events ↔ (WReach wEdges5 wDesc5 0 m ∧ wDesc5 m = true)) ∧
    (∀ m : Nat, WReach wEdges5 wDesc5 0 m → wDesc5 m = true → countLoad m wFinal5.events = 1) ∧
    (∀ m : Nat, countLoad m wFinal5.events ≤ 1) ∧
    (∀ (p c : Nat) (col : Nat), WReach wEdges5 wDesc5 0 p → wDesc5 p = true →
      countEdge p c col wFinal5.events = (wEdges5 p).count (c, col)) ∧
    (∀ (p c : Nat) (col : Nat), ¬ (WReach wEdges5 wDesc5 0 p ∧ wDesc5 p = true) →
      countEdge p c col wFinal5.events = 0)) :=
  ⟨by decide, by decide, rfl, rfl, rfl,
    walkGraph_exactly_once wEdges5 wDesc5 0 0 wActs5 wFinal5 (by decide) (by decide)
      rfl rfl rfl⟩

/-! ## UnifyRequirements (unifyrequirements.go)

UnifyRequirements drives the concurrent walker over a requirement graph
with stateful callbacks guarded by one mutex: a max map from module path to
the newest version encountered, the output graph under construction, and a
restart flag.  The walker skeleton is the same as walkGraph; here the
callback effects are deterministic functions of the callback state, so the
actions carry no results.  The mutex serialises the callbacks, so each
callback runs atomically with its state update.  mapset sets are modelled
as duplicate-free lists (uAdd), Go maps as association lists (alFind,
alSet).  The eager in-memory graph Load (which panics on a missing node)
sets a failure flag; an execution of UnifyRequirements that returns a graph
has no failures, no cancellation and a drained queue, and if the inner walk
finished with restart still false its result is returned directly.
-/

def alFind {α β : Type} [DecidableEq α] (l : List (α × β)) (k : α) : Option β :=
  (l.find? (fun e => decide (e.1 = k))).map Prod.snd

def alSet {α β : Type} [DecidableEq α] : List (α × β) → α → β → List (α × β)
  | [], k, v => [(k, v)]
  | e :: rest, k, v => if e.1 = k then (k, v) :: rest else e :: alSet rest k v

/-- mapset.Add on a list-modelled set. -/
def uAdd (l : List ModuleId) (x : ModuleId) : List ModuleId :=
  if x ∈ l then l else l ++ [x]

/-- The callback state of one unifyRequirementsInner call: the max map, the
returned graph under construction, and the restart flag. -/
structure USt where
  maxm : List (String × String)
  retRoot : Option ModuleId
  retReqs : List (ModuleId × ReqSets)
  restart : Bool
deriving DecidableEq

/-- The nodeVisit callback of unifyRequirementsInner (lines 71 to 104):
skip older versions, flag a restart on newer ones, record the max, the
root, and a fresh node entry. -/
def uNodeVisit (root : ModuleId) (σ : USt) (m : ModuleId) : USt × Bool :=
  match alFind σ.maxm m.path with
  | some mv =>
    if semverCompare m.version mv < 0 then (σ, false)
    else
      (⟨alSet σ.maxm m.path m.version,
        if m = root then some m else σ.retRoot,
        alSet σ.retReqs m ⟨[], []⟩,
        if 0 < semverCompare m.version mv then true else σ.restart⟩, true)
  | none =>
      (⟨alSet σ.maxm m.path m.version,
        if m = root then some m else σ.retRoot,
        alSet σ.retReqs m ⟨[], []⟩,
        σ.restart⟩, true)

/-- The edgeVisit callback of unifyRequirementsInner (lines 105 to 128):
drop edges from stale parents, bump the target version to the max, add the
edge to the parent's direct or immediate-indirect set; none models the Go
panic of adding to the nil set of a never-recorded parent. -/
def uEdgeVisit (σ : USt) (p m : ModuleId) (ind : Bool) : Option USt :=
  if p.version ≠ (alFind σ.maxm p.path).getD "" then some σ
  else
    match alFind σ.retReqs p with
    | none => none
    | some rs =>
      some ⟨σ.maxm, σ.retRoot,
        alSet σ.retReqs p
          (if ind then ⟨rs.d, uAdd rs.i ⟨m.path, (alFind σ.maxm m.path).getD ""⟩⟩
           else ⟨uAdd rs.d ⟨m.path, (alFind σ.maxm m.path).getD ""⟩, rs.i⟩),
        σ.restart⟩

/-- Outgoing edges of a node as walked by Reqs: direct requirements with
ind false, then immediate-indirect ones with ind true. -/
def uChildren (g : RGraph) (m : ModuleId) : List (ModuleId × Bool) :=
  match reqsFind g m with
  | none => []
  | some rs => rs.d.map (fun c => (c, false)) ++ rs.i.map (fun c => (c, true))

/-- Walker state of one unifyRequirementsInner call. -/
structure UW where
  pending : List (Option ModuleId × ModuleId × Bool)
  seen : List ModuleId
  ready : List ModuleId
  nodeTasks : List (ModuleId × NStage ModuleId Bool)
  edgeTasks : List (ModuleId × ModuleId × Bool)
  ust : USt
  panicked : Bool
  failed : Bool
deriving DecidableEq

/-- Scheduler actions of a successful unify walk (failures and
cancellations end the call with an error, so runs that return a graph
contain neither). -/
inductive UAct where
  | process (i : Nat)
  | visitNode (m : ModuleId)
  | loadStep (m : ModuleId)
  | enqEdge (m : ModuleId)
  | fireEdge (j : Nat)
deriving DecidableEq

def uinit (g : RGraph) : UW :=
  ⟨[(none, g.root, false)], [], [], [], [], ⟨[], none, [], false⟩, false, false⟩

/-- One atomic step of the unify walk. -/
def ustepW (g : RGraph) (s : UW) : UAct → Option UW
  | UAct.process i =>
    match s.pending.get? i with
    | none => none
    | some (po, m, c) =>
      some { s with
        pending := s.pending.eraseIdx i,
        seen := if m ∈ s.seen then s.seen else m :: s.seen,
        nodeTasks := if m ∈ s.seen then s.nodeTasks
          else (m, NStage.atVisit) :: s.nodeTasks,
        edgeTasks := match po with
          | none => s.edgeTasks
          | some p => (p, m, c) :: s.edgeTasks }
  | UAct.visitNode m =>
    match popTask s.nodeTasks m with
    | some (NStage.atVisit, rest) =>
      some { s with
        ust := (uNodeVisit g.root s.ust m).1,
        ready := m :: s.ready,
        nodeTasks := if (uNodeVisit g.root s.ust m).2 then
          (m, NStage.atLoad) :: rest else rest }
    | _ => none
  | UAct.loadStep m =>
    match popTask s.nodeTasks m with
    | some (NStage.atLoad, rest) =>
      match reqsFind g m with
      | none => some { s with failed := true, nodeTasks := rest }
      | some _ =>
        some { s with nodeTasks := match uChildren g m with
          | [] => rest
          | es => (m, NStage.enq es) :: rest }
    | _ => none
  | UAct.enqEdge m =>
    match popTask s.nodeTasks m with
    | some (NStage.enq ((c, col) :: rem), rest) =>
      some { s with
        pending := s.pending ++ [(some m, c, col)],
        nodeTasks := match rem with
          | [] => rest
          | _ => (m, NStage.enq rem) :: rest }
    | _ => none
  | UAct.fireEdge j =>
    match s.edgeTasks.get? j with
    | none => none
    | some (p, m, c) =>
      if m ∈ s.ready then
        if p ∈ s.ready then
          match uEdgeVisit s.ust p m c with
          | none => some { s with
              edgeTasks := s.edgeTasks.eraseIdx j,
              panicked := true }
          | some σ2 => some { s with
              edgeTasks := s.edgeTasks.eraseIdx j,
              ust := σ2 }
        else some { s with
          edgeTasks := s.edgeTasks.eraseIdx j,
          panicked := true }
      else none

def urunW (g : RGraph) : UW → List UAct → Option UW
  | s, [] => some s
  | s, a :: acts =>
    match ustepW g s a with
    | none => none
    | some s2 => urunW g s2 acts

/-- The keys of a requirement graph, i.e. its node set. -/
def gKeys (g : RGraph) : List ModuleId := g.reqs.map Prod.fst

/-- The graph a finished unify walk returns. -/
def outG (s : UW) : RGraph :=
  ⟨(s.ust.retRoot).getD ⟨"", ""⟩, s.ust.retReqs⟩

/-- A unified requirement graph: duplicate-free node set with one version
per module path, the root a node, every edge target a node, and every node
reachable from the root. -/
structure Unified (g : RGraph) : Prop where
  keys_nodup : (gKeys g).Nodup
  one_per_path : ∀ a ∈ gKeys g, ∀ b ∈ gKeys g, a.path = b.path → a = b
  root_mem : g.root ∈ gKeys g
  closed : ∀ m ∈ gKeys g, ∀ c ∈ childrenOf g m, c ∈ gKeys g
  reach : ∀ m ∈ gKeys g, Reaches (childrenOf g) g.root m

/-- A finished, error-free state of the walk. -/
def UDone (s : UW) : Prop :=
  s.pending = [] ∧ s.nodeTasks = [] ∧ s.edgeTasks = [] ∧ s.failed = false

/-- Set-structural equality of a finished walk result with a graph: same
root, same node set, and per node the same direct and immediate-indirect
requirement sets. -/
def outEquiv (s : UW) (g : RGraph) : Prop :=
  s.ust.retRoot = some g.root ∧
  (∀ n : ModuleId, (alFind s.ust.retReqs n).isSome ↔ n ∈ gKeys g) ∧
  (∀ n ∈ gKeys g, ∀ rs rs0, alFind s.ust.retReqs n = some rs →
    reqsFind g n = some rs0 →
    (∀ x : ModuleId, x ∈ rs.d ↔ x ∈ rs0.d) ∧ (∀ x : ModuleId, x ∈ rs.i ↔ x ∈ rs0.i))

theorem alFind_nil {α β : Type} [DecidableEq α] (k : α) :
    alFind ([] : List (α × β)) k = none := rfl

theorem alFind_cons {α β : Type} [DecidableEq α] (e : α × β) (l : List (α × β)) (k : α) :
    alFind (e :: l) k = if e.1 = k then some e.2 else alFind l k := by
  by_cases h : e.1 = k
  · simp [alFind, List.find?, h]
  · simp [alFind, List.find?, h]

theorem alFind_alSet_self {α β : Type} [DecidableEq α] :
    ∀ (l : List (α × β)) (k : α) (v : β), alFind (alSet l k v) k = some v := by
  intro l
  induction l with
  | nil =>
    intro k v
    simp [alSet, alFind, List.find?]
  | cons e rest ih =>
    intro k v
    rw [alSet]
    by_cases h : e.1 = k
    · rw [if_pos h, alFind_cons]
      simp
    · rw [if_neg h, alFind_cons, if_neg h]
      exact ih k v

theorem alFind_alSet_other {α β : Type} [DecidableEq α] :
    ∀ (l : List (α × β)) (k k2 : α) (v : β), k2 ≠ k →
      alFind (alSet l k v) k2 = alFind l k2 := by
  intro l
  induction l with
  | nil =>
    intro k k2 v h
    rw [show alSet ([] : List (α × β)) k v = [(k, v)] from rfl, alFind_cons,
      if_neg (fun hc => h hc.symm)]
  | cons e rest ih =>
    intro k k2 v h
    rw [alSet]
    by_cases he : e.1 = k
    · rw [if_pos he, alFind_cons, alFind_cons]
      rw [if_neg (fun hc => h hc.symm)]
      have hne : ¬ (e.1 = k2) := fun hc => h (hc.symm.trans he)
      rw [if_neg hne]
    · rw [if_neg he, alFind_cons, alFind_cons, ih k k2 v h]

theorem alFind_isSome_iff {α β : Type} [DecidableEq α] :
    ∀ {l : List (α × β)} {k : α}, (alFind l k).isSome ↔ k ∈ l.map Prod.fst := by
  intro l
  induction l with
  | nil =>
    intro k
    simp [alFind]
  | cons e rest ih =>
    intro k
    rw [alFind_cons]
    by_cases h : e.1 = k
    · simp [h]
    · rw [if_neg h]
      simp only [List.map_cons, List.mem_cons]
      rw [ih]
      constructor
      · intro h1
        exact Or.inr h1
      · intro h1
        rcases h1 with h2 | h2
        · exact absurd h2.symm h
        · exact h2

theorem alFind_mem {α β : Type} [DecidableEq α] :
    ∀ {l : List (α × β)} {k : α} {v : β}, alFind l k = some v → (k, v) ∈ l := by
  intro l
  induction l with
  | nil =>
    intro k v h
    simp [alFind] at h
  | cons e rest ih =>
    intro k v h
    rw [alFind_cons] at h
    by_cases he : e.1 = k
    · rw [if_pos he] at h
      have h2 : e.2 = v := Option.some.inj h
      have h3 : e = (k, v) := by
        rcases e with ⟨e1, e2⟩
        simp at he h2
        rw [he, h2]
      rw [← h3]
      exact List.mem_cons_self _ _
    · rw [if_neg he] at h
      exact List.mem_cons_of_mem _ (ih h)

theorem alSet_keys_mem {α β : Type} [DecidableEq α] :
    ∀ (l : List (α × β)) (k : α) (v : β) (n : α),
      n ∈ (alSet l k v).map Prod.fst ↔ n = k ∨ n ∈ l.map Prod.fst := by
  intro l
  induction l with
  | nil =>
    intro k v n
    simp [alSet]
  | cons e rest ih =>
    intro k v n
    rw [alSet]
    by_cases he : e.1 = k
    · rw [if_pos he]
      simp only [List.map_cons, List.mem_cons]
      constructor
      · intro h1
        rcases h1 with h2 | h2
        · exact Or.inl h2
        · exact Or.inr (Or.inr h2)
      · intro h1
        rcases h1 with h2 | h2
        · exact Or.inl h2
        · rcases h2 with h3 | h3
          · exact Or.inl (by rw [h3, he])
          · exact Or.inr h3
    · rw [if_neg he]
      simp only [List.map_cons, List.mem_cons]
      rw [ih]
      constructor
      · intro h1
        rcases h1 with h2 | h2
        · exact Or.inr (Or.inl h2)
        · rcases h2 with h3 | h3
          · exact Or.inl h3
          · exact Or.inr (Or.inr h3)
      · intro h1
        rcases h1 with h2 | h2
        · exact Or.inr (Or.inl h2)
        · rcases h2 with h3 | h3
          · exact Or.inl h3
          · exact Or.inr (Or.inr h3)

theorem alSet_keys_nodup {α β : Type} [DecidableEq α] :
    ∀ (l : List (α × β)) (k : α) (v : β), (l.map Prod.fst).Nodup →
      ((alSet l k v).map Prod.fst).Nodup := by
  intro l
  induction l with
  | nil =>
    intro k v h
    simp [alSet]
  | cons e rest ih =>
    intro k v h
    simp only [List.map_cons, List.nodup_cons] at h
    rw [alSet]
    by_cases he : e.1 = k
    · rw [if_pos he]
      simp only [List.map_cons, List.nodup_cons]
      refine ⟨?_, h.2⟩
      rw [← he]
      exact h.1
    · rw [if_neg he]
      simp only [List.map_cons, List.nodup_cons]
      refine ⟨?_, ih k v h.2⟩
      intro hc
      rw [alSet_keys_mem] at hc
      rcases hc with h1 | h1
      · exact he h1
      · exact h.1 h1

theorem uChildren_childrenOf {g : RGraph} {m c : ModuleId} :
    ((c, false) ∈ uChildren g m ∨ (c, true) ∈ uChildren g m) ↔ c ∈ childrenOf g m := by
  unfold uChildren childrenOf
  cases h : reqsFind g m with
  | none => simp
  | some rs =>
    simp only [List.mem_append, List.mem_map]
    constructor
    · intro h1
      rcases h1 with (⟨x, hx1, hx2⟩ | ⟨x, hx1, hx2⟩) | (⟨x, hx1, hx2⟩ | ⟨x, hx1, hx2⟩)
      · have : x = c := congrArg Prod.fst hx2
        rw [this] at hx1
        exact Or.inl hx1
      · exact absurd (congrArg Prod.snd hx2) (by simp)
      · exact absurd (congrArg Prod.snd hx2) (by simp)
      · have : x = c := congrArg Prod.fst hx2
        rw [this] at hx1
        exact Or.inr hx1
    · intro h1
      rcases h1 with h2 | h2
      · exact Or.inl (Or.inl ⟨c, h2, rfl⟩)
      · exact Or.inr (Or.inr ⟨c, h2, rfl⟩)

theorem uChildren_d {g : RGraph} {m c : ModuleId} {rs : ReqSets}
    (h : reqsFind g m = some rs) : (c, false) ∈ uChildren g m ↔ c ∈ rs.d := by
  unfold uChildren
  rw [h]
  simp only [List.mem_append, List.mem_map]
  constructor
  · intro h1
    rcases h1 with ⟨x, hx1, hx2⟩ | ⟨x, hx1, hx2⟩
    · have : x = c := congrArg Prod.fst hx2
      rw [this] at hx1
      exact hx1
    · exact absurd (congrArg Prod.snd hx2) (by simp)
  · intro h1
    exact Or.inl ⟨c, h1, rfl⟩

theorem uChildren_i {g : RGraph} {m c : ModuleId} {rs : ReqSets}
    (h : reqsFind g m = some rs) : (c, true) ∈ uChildren g m ↔ c ∈ rs.i := by
  unfold uChildren
  rw [h]
  simp only [List.mem_append, List.mem_map]
  constructor
  · intro h1
    rcases h1 with ⟨x, hx1, hx2⟩ | ⟨x, hx1, hx2⟩
    · exact absurd (congrArg Prod.snd hx2) (by simp)
    · have : x = c := congrArg Prod.fst hx2
      rw [this] at hx1
      exact hx1
  · intro h1
    exact Or.inr ⟨c, h1, rfl⟩

theorem uChildren_univ {g : RGraph} {m : ModuleId} :
    ∀ e ∈ uChildren g m, e.1 ∈ graphUniv g := by
  intro e he
  rcases e with ⟨c, ind⟩
  cases ind
  · exact childrenOf_sub_univ g m c (uChildren_childrenOf.mp (Or.inl he))
  · exact childrenOf_sub_univ g m c (uChildren_childrenOf.mp (Or.inr he))

theorem reqsFind_eq_alFind (g : RGraph) (m : ModuleId) :
    reqsFind g m = alFind g.reqs m := rfl

theorem reqsFind_isSome_iff {g : RGraph} {m : ModuleId} :
    (reqsFind g m).isSome ↔ m ∈ gKeys g := by
  rw [reqsFind_eq_alFind]
  exact alFind_isSome_iff

theorem uAdd_mem {l : List ModuleId} {x y : ModuleId} :
    y ∈ uAdd l x ↔ y = x ∨ y ∈ l := by
  unfold uAdd
  by_cases h : x ∈ l
  · rw [if_pos h]
    constructor
    · intro h1
      exact Or.inr h1
    · intro h1
      rcases h1 with h2 | h2
      · rw [h2]
        exact h
      · exact h2
  · rw [if_neg h]
    rw [List.mem_append, List.mem_singleton]
    constructor
    · intro h1
      rcases h1 with h2 | h2
      · exact Or.inr h2
      · exact Or.inl h2
    · intro h1
      rcases h1 with h2 | h2
      · exact Or.inr h2
      · exact Or.inl h2

/-- Durable discovery links of the walk: recorded edges plus in-flight
queue entries and edge goroutines, all rooted at succeeded nodes. -/
def uLinks (s : UW) (p : ModuleId) : List ModuleId :=
  match alFind s.ust.retReqs p with
  | none => []
  | some rs =>
    rs.d ++ rs.i ++
    s.pending.filterMap (fun e => if e.1 = some p then some e.2.1 else none) ++
    s.edgeTasks.filterMap (fun e => if e.1 = p then some e.2.1 else none)

theorem reaches_mono {α : Type} {f f2 : α → List α} {root : α}
    (h : ∀ p x, x ∈ f p → x ∈ f2 p) :
    ∀ {n}, Reaches f root n → Reaches f2 root n := by
  intro n hr
  induction hr with
  | refl => exact Reaches.refl
  | step hx hc ih => exact Reaches.step ih (h _ _ hc)

theorem reaches_transfer {α : Type} {f f2 : α → List α} {succ : α → Prop} {root : α}
    (hsrc : ∀ p x, x ∈ f p → succ p)
    (hstep : ∀ p x, succ x → x ∈ f p → x ∈ f2 p) :
    ∀ {n}, Reaches f root n → succ n → Reaches f2 root n := by
  intro n hr
  induction hr with
  | refl => intro _; exact Reaches.refl
  | @step x c hx hc ih =>
    intro hsc
    exact Reaches.step (ih (hsrc x c hc)) (hstep x c hsc hc)

/-- restart is monotone along the walk. -/
theorem ustep_restart_mono {g : RGraph} {s s2 : UW} {a : UAct}
    (h : ustepW g s a = some s2) (hf : s2.ust.restart = false) :
    s.ust.restart = false := by
  cases a with
  | process i =>
    simp only [ustepW] at h
    cases hg : s.pending.get? i with
    | none => rw [hg] at h; exact absurd h (by simp)
    | some e =>
      rcases e with ⟨po, m, c⟩
      rw [hg] at h
      simp only [] at h
      injection h with h2
      rw [← h2] at hf
      exact hf
  | visitNode m =>
    simp only [ustepW] at h
    cases hpt : popTask s.nodeTasks m with
    | none => rw [hpt] at h; exact absurd h (by simp)
    | some r =>
      rcases r with ⟨st, rest⟩
      rw [hpt] at h
      cases st
      case atLoad => exact absurd h (by simp)
      case enq rem => exact absurd h (by simp)
      case atVisit =>
      simp only [] at h
      injection h with h2
      rw [← h2] at hf
      simp only [] at hf
      unfold uNodeVisit at hf
      cases hmx : alFind s.ust.maxm m.path with
      | none =>
        rw [hmx] at hf
        exact hf
      | some mv =>
        rw [hmx] at hf
        simp only [] at hf
        by_cases hlt : semverCompare m.version mv < 0
        · rw [if_pos hlt] at hf
          exact hf
        · rw [if_neg hlt] at hf
          simp only [] at hf
          by_cases hgt : 0 < semverCompare m.version mv
          · rw [if_pos hgt] at hf
            exact absurd hf (by simp)
          · rw [if_neg hgt] at hf
            exact hf
  | loadStep m =>
    simp only [ustepW] at h
    cases hpt : popTask s.nodeTasks m with
    | none => rw [hpt] at h; exact absurd h (by simp)
    | some r =>
      rcases r with ⟨st, rest⟩
      rw [hpt] at h
      cases st
      case atVisit => exact absurd h (by simp)
      case enq rem => exact absurd h (by simp)
      case atLoad =>
      simp only [] at h
      cases hrf : reqsFind g m with
      | none =>
        rw [hrf] at h
        injection h with h2
        rw [← h2] at hf
        exact hf
      | some rs =>
        rw [hrf] at h
        injection h with h2
        rw [← h2] at hf
        exact hf
  | enqEdge m =>
    simp only [ustepW] at h
    cases hpt : popTask s.nodeTasks m with
    | none => rw [hpt] at h; exact absurd h (by simp)
    | some r =>
      rcases r with ⟨st, rest⟩
      rw [hpt] at h
      cases st
      case atVisit => exact absurd h (by simp)
      case atLoad => exact absurd h (by simp)
      case enq rem =>
      cases rem with
      | nil => exact absurd h (by simp)
      | cons e2 rem2 =>
        rcases e2 with ⟨c, col⟩
        simp only [] at h
        injection h with h2
        rw [← h2] at hf
        exact hf
  | fireEdge j =>
    simp only [ustepW] at h
    cases hg : s.edgeTasks.get? j with
    | none => rw [hg] at h; exact absurd h (by simp)
    | some e =>
      rcases e with ⟨p, m, c⟩
      rw [hg] at h
      simp only [] at h
      by_cases hm : m ∈ s.ready
      · rw [if_pos hm] at h
        by_cases hp : p ∈ s.ready
        · rw [if_pos hp] at h
          cases hev : uEdgeVisit s.ust p m c with
          | none =>
            rw [hev] at h
            injection h with h2
            rw [← h2] at hf
            exact hf
          | some σ2 =>
            rw [hev] at h
            injection h with h2
            rw [← h2] at hf
            simp only [] at hf
            unfold uEdgeVisit at hev
            by_cases hdrop : p.version ≠ (alFind s.ust.maxm p.path).getD ""
            · rw [if_pos hdrop] at hev
              rw [← Option.some.inj hev] at hf
              exact hf
            · rw [if_neg hdrop] at hev
              cases hrr : alFind s.ust.retReqs p with
              | none =>
                rw [hrr] at hev
                exact absurd hev (by simp)
              | some rs =>
                rw [hrr] at hev
                simp only [] at hev
                rw [← Option.some.inj hev] at hf
                exact hf
        · rw [if_neg hp] at h
          injection h with h2
          rw [← h2] at hf
          exact hf
      · rw [if_neg hm] at h
        exact absurd h (by simp)

theorem alFind_alSet_isSome {α β : Type} [DecidableEq α]
    {l : List (α × β)} {k : α} (k2 : α) (v : β)
    (h : (alFind l k).isSome) : (alFind (alSet l k2 v) k).isSome := by
  by_cases he : k = k2
  · rw [he, alFind_alSet_self]
    rfl
  · rw [alFind_alSet_other l k2 k v he]
    exact h

theorem uAdd_sub {l : List ModuleId} {x : ModuleId} : ∀ y ∈ l, y ∈ uAdd l x := by
  intro y hy
  exact uAdd_mem.mpr (Or.inr hy)

theorem uAdd_self {l : List ModuleId} {x : ModuleId} : x ∈ uAdd l x :=
  uAdd_mem.mpr (Or.inl rfl)

theorem uLinks_mem {s : UW} {p x : ModuleId} :
    x ∈ uLinks s p ↔ ∃ rs, alFind s.ust.retReqs p = some rs ∧
      (x ∈ rs.d ∨ x ∈ rs.i ∨ (∃ c, (some p, x, c) ∈ s.pending) ∨
        (∃ c, (p, x, c) ∈ s.edgeTasks)) := by
  unfold uLinks
  cases hr : alFind s.ust.retReqs p with
  | none =>
    simp only []
    constructor
    · intro h
      simp at h
    · rintro ⟨rs, hrs, _⟩
      exact absurd hrs (by simp)
  | some rs =>
    simp only [List.mem_append, List.mem_filterMap]
    constructor
    · intro h
      refine ⟨rs, rfl, ?_⟩
      rcases h with ((h1 | h1) | h1) | h1
      · exact Or.inl h1
      · exact Or.inr (Or.inl h1)
      · rcases h1 with ⟨e, he, hfe⟩
        by_cases hc : e.1 = some p
        · rw [if_pos hc] at hfe
          have hx : e.2.1 = x := Option.some.inj hfe
          refine Or.inr (Or.inr (Or.inl ⟨e.2.2, ?_⟩))
          have : e = (some p, x, e.2.2) := by
            rcases e with ⟨e1, e21, e22⟩
            simp at hc hx ⊢
            exact ⟨hc, hx⟩
          rw [← this]
          exact he
        · rw [if_neg hc] at hfe
          exact absurd hfe (by simp)
      · rcases h1 with ⟨e, he, hfe⟩
        by_cases hc : e.1 = p
        · rw [if_pos hc] at hfe
          have hx : e.2.1 = x := Option.some.inj hfe
          refine Or.inr (Or.inr (Or.inr ⟨e.2.2, ?_⟩))
          have : e = (p, x, e.2.2) := by
            rcases e with ⟨e1, e21, e22⟩
            simp at hc hx ⊢
            exact ⟨hc, hx⟩
          rw [← this]
          exact he
        · rw [if_neg hc] at hfe
          exact absurd hfe (by simp)
    · rintro ⟨rs2, hrs2, hcase⟩
      have hrseq : rs2 = rs := (Option.some.inj hrs2).symm
      rw [hrseq] at hcase
      rcases hcase with h1 | h1 | ⟨c, h1⟩ | ⟨c, h1⟩
      · exact Or.inl (Or.inl (Or.inl h1))
      · exact Or.inl (Or.inl (Or.inr h1))
      · refine Or.inl (Or.inr ⟨(some p, x, c), h1, ?_⟩)
        rw [if_pos rfl]
      · refine Or.inr ⟨(p, x, c), h1, ?_⟩
        rw [if_pos rfl]

theorem uLinks_src {s : UW} {p x : ModuleId} (h : x ∈ uLinks s p) :
    (alFind s.ust.retReqs p).isSome := by
  rcases uLinks_mem.mp h with ⟨rs, hrs, _⟩
  rw [hrs]
  rfl

/-- Invariant of a unify walk on a graph whose universe has no two distinct
modules of one path with semver-equal versions; fields about the max map,
one version per path, the recorded graph and reachability hold as long as
no restart was flagged. -/
structure U1Inv (g : RGraph) (s : UW) : Prop where
  pan : s.panicked = false
  succ_keys_nodup : (s.ust.retReqs.map Prod.fst).Nodup
  succ_ready : ∀ n : ModuleId, (alFind s.ust.retReqs n).isSome → n ∈ s.ready
  ready_seen : ∀ m ∈ s.ready, m ∈ s.seen
  seen_univ : ∀ m ∈ s.seen, m ∈ graphUniv g
  pend_child_univ : ∀ e ∈ s.pending, e.2.1 ∈ graphUniv g
  seen_ror : ∀ m ∈ s.seen, m ∈ s.ready ∨ (m, NStage.atVisit) ∈ s.nodeTasks
  seen_link : ∀ m ∈ s.seen, m = g.root ∨ m ∈ s.ready ∨ ∃ e ∈ s.edgeTasks, e.2.1 = m
  task_seen : ∀ t ∈ s.nodeTasks, t.1 ∈ s.seen
  task_names_nodup : (s.nodeTasks.map Prod.fst).Nodup
  atVisit_not_ready : ∀ m : ModuleId, (m, NStage.atVisit) ∈ s.nodeTasks → m ∉ s.ready
  late_succ : ∀ t ∈ s.nodeTasks, t.2 ≠ NStage.atVisit →
    (alFind s.ust.retReqs t.1).isSome
  task_enq_sub : ∀ t ∈ s.nodeTasks, ∀ rem, t.2 = NStage.enq rem →
    ∀ e ∈ rem, e ∈ uChildren g t.1
  pend_par : ∀ e ∈ s.pending, (e.1 = none ∧ e.2.1 = g.root) ∨
    (∃ p, e.1 = some p ∧ (alFind s.ust.retReqs p).isSome ∧
      (e.2.1, e.2.2) ∈ uChildren g p)
  etask_par : ∀ e ∈ s.edgeTasks, (alFind s.ust.retReqs e.1).isSome ∧
    (e.2.1, e.2.2) ∈ uChildren g e.1
  ready_maxm : ∀ m ∈ s.ready, (alFind s.ust.maxm m.path).isSome
  maxm_sound : ∀ pth v, alFind s.ust.maxm pth = some v →
    ∃ n : ModuleId, (alFind s.ust.retReqs n).isSome ∧ n.path = pth ∧ n.version = v
  one_per_path : s.ust.restart = false → ∀ a b : ModuleId,
    (alFind s.ust.retReqs a).isSome → (alFind s.ust.retReqs b).isSome →
    a.path = b.path → a = b
  rec_sound : s.ust.restart = false → ∀ p rs, alFind s.ust.retReqs p = some rs →
    (∀ x ∈ rs.d, (alFind s.ust.retReqs x).isSome ∧
      ∃ c : ModuleId, (c, false) ∈ uChildren g p ∧ x.path = c.path) ∧
    (∀ x ∈ rs.i, (alFind s.ust.retReqs x).isSome ∧
      ∃ c : ModuleId, (c, true) ∈ uChildren g p ∧ x.path = c.path)
  root_first : ∀ m ∈ s.seen, m = g.root ∨ g.root ∈ s.ready
  root_ready : s.ust.restart = false → g.root ∈ s.ready →
    (alFind s.ust.retReqs g.root).isSome ∧
    s.ust.retRoot = some g.root
  retRoot_val : s.ust.retRoot = none ∨ s.ust.retRoot = some g.root
  reach : s.ust.restart = false → ∀ n : ModuleId, (alFind s.ust.retReqs n).isSome →
    Reaches (uLinks s) g.root n
  start_latch : g.root ∈ s.seen ∨ (none, g.root, false) ∈ s.pending

/-- The unique succeeded module of a path determines the max entry. -/
theorem u1_maxm_exact {g : RGraph} {s : UW} (inv : U1Inv g s)
    (hrf : s.ust.restart = false) {n : ModuleId}
    (hn : (alFind s.ust.retReqs n).isSome) :
    alFind s.ust.maxm n.path = some n.version := by
  have hready : n ∈ s.ready := inv.succ_ready n hn
  have hms := inv.ready_maxm n hready
  cases hmx : alFind s.ust.maxm n.path with
  | none =>
    rw [hmx] at hms
    exact absurd hms (by simp)
  | some v =>
    rcases inv.maxm_sound n.path v hmx with ⟨n2, hn2, hp2, hv2⟩
    have : n2 = n := inv.one_per_path hrf n2 n hn2 hn hp2
    rw [this] at hv2
    rw [hv2]

theorem uinit_u1inv (g : RGraph) : U1Inv g (uinit g) := by
  refine ⟨rfl, by simp [uinit], ?_, ?_, ?_, ?_, ?_, ?_, ?_, by simp [uinit], ?_,
    ?_, ?_, ?_, ?_, ?_, ?_, ?_, ?_, ?_, ?_, Or.inl rfl, ?_, ?_⟩
  · intro n hn
    simp [uinit, alFind] at hn
  · intro m hm
    simp [uinit] at hm
  · intro m hm
    simp [uinit] at hm
  · intro e he
    have : e = (none, g.root, false) := by simpa [uinit] using he
    rw [this]
    exact List.mem_cons_self _ _
  · intro m hm
    simp [uinit] at hm
  · intro m hm
    simp [uinit] at hm
  · intro t ht
    simp [uinit] at ht
  · intro m hm
    simp [uinit] at hm
  · intro t ht
    simp [uinit] at ht
  · intro t ht
    simp [uinit] at ht
  · intro e he
    have : e = (none, g.root, false) := by simpa [uinit] using he
    rw [this]
    exact Or.inl ⟨rfl, rfl⟩
  · intro e he
    simp [uinit] at he
  · intro m hm
    simp [uinit] at hm
  · intro pth v h
    simp [uinit, alFind] at h
  · intro _ a b ha hb hab
    simp [uinit, alFind] at ha
  · intro _ p rs hrs
    simp [uinit, alFind] at hrs
  · intro m hm
    simp [uinit] at hm
  · intro _ h
    simp [uinit] at h
  · intro _ n hn
    simp [uinit, alFind] at hn
  · exact Or.inr (by simp [uinit])

theorem u1_process {g : RGraph} {s s2 : UW} {i : Nat}
    (h : ustepW g s (UAct.process i) = some s2)
    (inv : U1Inv g s) : U1Inv g s2 := by
  simp only [ustepW] at h
  cases hg : s.pending.get? i with
  | none =>
    rw [hg] at h
    exact absurd h (by simp)
  | some e =>
    rcases e with ⟨po, m, c⟩
    rw [hg] at h
    simp only [] at h
    injection h with h2
    subst h2
    have hperm : s.pending.Perm ((po, m, c) :: s.pending.eraseIdx i) :=
      get_eraseIdx_perm hg
    have hent : (po, m, c) ∈ s.pending := get_mem_of_get? hg
    have hmem_new_seen : m ∈ (if m ∈ s.seen then s.seen else m :: s.seen) := by
      by_cases hseen : m ∈ s.seen
      · rw [if_pos hseen]
        exact hseen
      · rw [if_neg hseen]
        exact List.mem_cons_self _ _
    have hseen_sub : ∀ x ∈ s.seen, x ∈ (if m ∈ s.seen then s.seen else m :: s.seen) := by
      intro x hx
      by_cases hseen : m ∈ s.seen
      · rw [if_pos hseen]
        exact hx
      · rw [if_neg hseen]
        exact List.mem_cons_of_mem _ hx
    have hseen_char : ∀ x, x ∈ (if m ∈ s.seen then s.seen else m :: s.seen) →
        x = m ∨ x ∈ s.seen := by
      intro x hx
      by_cases hseen : m ∈ s.seen
      · rw [if_pos hseen] at hx
        exact Or.inr hx
      · rw [if_neg hseen] at hx
        exact List.mem_cons.mp hx
    have htask_sub : ∀ t ∈ s.nodeTasks,
        t ∈ (if m ∈ s.seen then s.nodeTasks else (m, NStage.atVisit) :: s.nodeTasks) := by
      intro t ht
      by_cases hseen : m ∈ s.seen
      · rw [if_pos hseen]
        exact ht
      · rw [if_neg hseen]
        exact List.mem_cons_of_mem _ ht
    have htask_char : ∀ t, t ∈ (if m ∈ s.seen then s.nodeTasks
        else (m, NStage.atVisit) :: s.nodeTasks) →
        t = (m, NStage.atVisit) ∨ t ∈ s.nodeTasks := by
      intro t ht
      by_cases hseen : m ∈ s.seen
      · rw [if_pos hseen] at ht
        exact Or.inr ht
      · rw [if_neg hseen] at ht
        exact List.mem_cons.mp ht
    have hetask_sub : ∀ e ∈ s.edgeTasks, e ∈ (match po with
        | none => s.edgeTasks
        | some p => (p, m, c) :: s.edgeTasks) := by
      intro e he
      cases po
      · exact he
      · exact List.mem_cons_of_mem _ he
    have hetask_char : ∀ e, e ∈ (match po with
        | none => s.edgeTasks
        | some p => (p, m, c) :: s.edgeTasks) →
        (∃ p, po = some p ∧ e = (p, m, c)) ∨ e ∈ s.edgeTasks := by
      intro e he
      cases po with
      | none => exact Or.inr he
      | some p =>
        rcases List.mem_cons.mp he with h1 | h1
        · exact Or.inl ⟨p, rfl, h1⟩
        · exact Or.inr h1
    refine ⟨inv.pan, inv.succ_keys_nodup, inv.succ_ready, ?_, ?_, ?_, ?_, ?_, ?_,
      ?_, ?_, ?_, ?_, ?_, ?_, inv.ready_maxm, inv.maxm_sound, inv.one_per_path,
      inv.rec_sound, ?_, inv.root_ready, inv.retRoot_val, ?_, ?_⟩
    · dsimp only
      intro x hx
      exact hseen_sub x (inv.ready_seen x hx)
    · dsimp only
      intro x hx
      rcases hseen_char x hx with h1 | h1
      · rw [h1]
        exact inv.pend_child_univ (po, m, c) hent
      · exact inv.seen_univ x h1
    · dsimp only
      intro e he
      exact inv.pend_child_univ e (eraseIdx_sub e he)
    · dsimp only
      intro x hx
      rcases hseen_char x hx with h1 | h1
      · subst h1
        by_cases hseen : x ∈ s.seen
        · rcases inv.seen_ror x hseen with h2 | h2
          · exact Or.inl h2
          · exact Or.inr (htask_sub _ h2)
        · refine Or.inr ?_
          rw [if_neg hseen]
          exact List.mem_cons_self _ _
      · rcases inv.seen_ror x h1 with h2 | h2
        · exact Or.inl h2
        · exact Or.inr (htask_sub _ h2)
    · dsimp only
      intro x hx
      rcases hseen_char x hx with h1 | h1
      · subst h1
        rcases inv.pend_par (po, x, c) hent with ⟨hpo, hch⟩ | ⟨p, hpo, hps, hch⟩
        · simp only [] at hch
          exact Or.inl hch
        · refine Or.inr (Or.inr ⟨(p, x, c), ?_, rfl⟩)
          simp only [] at hpo
          rw [hpo]
          simp only []
          exact List.mem_cons_self _ _
      · rcases inv.seen_link x h1 with h2 | h2 | ⟨e, he, hec⟩
        · exact Or.inl h2
        · exact Or.inr (Or.inl h2)
        · exact Or.inr (Or.inr ⟨e, hetask_sub e he, hec⟩)
    · dsimp only
      intro t ht
      rcases htask_char t ht with h1 | h1
      · rw [h1]
        exact hmem_new_seen
      · exact hseen_sub _ (inv.task_seen t h1)
    · dsimp only
      by_cases hseen : m ∈ s.seen
      · rw [if_pos hseen]
        exact inv.task_names_nodup
      · rw [if_neg hseen]
        simp only [List.map_cons, List.nodup_cons]
        refine ⟨?_, inv.task_names_nodup⟩
        intro hc
        rcases List.mem_map.mp hc with ⟨t, ht, htn⟩
        have := inv.task_seen t ht
        rw [htn] at this
        exact hseen this
    · dsimp only
      intro x hx
      rcases htask_char _ hx with h1 | h1
      · have hxm : x = m := congrArg Prod.fst h1
        rw [hxm]
        by_cases hseen : m ∈ s.seen
        · rw [if_pos hseen] at hx
          rw [hxm] at hx
          exact inv.atVisit_not_ready m hx
        · intro hc
          exact hseen (inv.ready_seen m hc)
      · exact inv.atVisit_not_ready x h1
    · dsimp only
      intro t ht hst
      rcases htask_char t ht with h1 | h1
      · rw [h1] at hst
        exact absurd rfl hst
      · exact inv.late_succ t h1 hst
    · dsimp only
      intro t ht rem hrem
      rcases htask_char t ht with h1 | h1
      · rw [h1] at hrem
        exact absurd hrem (by simp)
      · exact inv.task_enq_sub t h1 rem hrem
    · dsimp only
      intro e he
      exact inv.pend_par e (eraseIdx_sub e he)
    · dsimp only
      intro e he
      rcases hetask_char e he with ⟨p, hpo, hep⟩ | h1
      · rw [hep]
        rcases inv.pend_par (po, m, c) hent with ⟨hpo2, _⟩ | ⟨p2, hpo2, hps, hch⟩
        · simp only [] at hpo2
          rw [hpo] at hpo2
          exact absurd hpo2 (by simp)
        · simp only [] at hpo2
          rw [hpo] at hpo2
          have : p2 = p := Option.some.inj hpo2.symm
          rw [this] at hps hch
          exact ⟨hps, hch⟩
      · exact inv.etask_par e h1
    · dsimp only
      intro x hx
      rcases hseen_char x hx with h1 | h1
      · subst h1
        rcases inv.pend_par (po, x, c) hent with ⟨hpo, hch⟩ | ⟨p, hpo, hps, hch⟩
        · simp only [] at hch
          exact Or.inl hch
        · have hp_ready : p ∈ s.ready := inv.succ_ready p hps
          have hp_seen : p ∈ s.seen := inv.ready_seen p hp_ready
          rcases inv.root_first p hp_seen with h2 | h2
          · rw [h2] at hp_ready
            exact Or.inr hp_ready
          · exact Or.inr h2
      · exact inv.root_first x h1
    · intro hrf n hn
      dsimp only at hrf hn
      have hmono : ∀ q x, x ∈ uLinks s q → x ∈ uLinks { s with
          pending := s.pending.eraseIdx i,
          seen := if m ∈ s.seen then s.seen else m :: s.seen,
          nodeTasks := if m ∈ s.seen then s.nodeTasks
            else (m, NStage.atVisit) :: s.nodeTasks,
          edgeTasks := match po with
            | none => s.edgeTasks
            | some p => (p, m, c) :: s.edgeTasks } q := by
        intro q x hx
        rcases uLinks_mem.mp hx with ⟨rs, hrs, hcase⟩
        refine uLinks_mem.mpr ⟨rs, hrs, ?_⟩
        rcases hcase with h1 | h1 | ⟨c2, h1⟩ | ⟨c2, h1⟩
        · exact Or.inl h1
        · exact Or.inr (Or.inl h1)
        · have h3 := hperm.mem_iff.mp h1
          rcases List.mem_cons.mp h3 with h4 | h4
          · have hpo : po = some q ∧ m = x ∧ c = c2 := by
              injection h4 with a1 a2
              injection a2 with a3 a4
              exact ⟨a1.symm, a3.symm, a4.symm⟩
            refine Or.inr (Or.inr (Or.inr ⟨c2, ?_⟩))
            dsimp only
            rw [hpo.1]
            simp only []
            rw [← hpo.2.1, ← hpo.2.2]
            exact List.mem_cons_self _ _
          · exact Or.inr (Or.inr (Or.inl ⟨c2, h4⟩))
        · refine Or.inr (Or.inr (Or.inr ⟨c2, ?_⟩))
          dsimp only
          cases po
          · exact h1
          · exact List.mem_cons_of_mem _ h1
      exact reaches_mono hmono (inv.reach hrf n hn)
    · dsimp only
      rcases inv.start_latch with h1 | h2
      · exact Or.inl (hseen_sub _ h1)
      · by_cases heq : ((none : Option ModuleId), g.root, false) = (po, m, c)
        · refine Or.inl ?_
          have hm : m = g.root := by
            injection heq with a1 a2
            injection a2 with a3 a4
            exact a3.symm
          rw [← hm]
          exact hmem_new_seen
        · refine Or.inr ?_
          have h3 := hperm.mem_iff.mp h2
          rcases List.mem_cons.mp h3 with h4 | h4
          · exact absurd h4 heq
          · exact h4

theorem u1_visit_core {g : RGraph} {s : UW} {m : ModuleId}
    {rest : List (ModuleId × NStage ModuleId Bool)} {rr : Bool}
    (hpt : popTask s.nodeTasks m = some (NStage.atVisit, rest))
    (inv : U1Inv g s)
    (hfb : rr = false → s.ust.restart = false ∧ alFind s.ust.maxm m.path = none) :
    U1Inv g { s with
      ust := ⟨alSet s.ust.maxm m.path m.version,
        if m = g.root then some m else s.ust.retRoot,
        alSet s.ust.retReqs m ⟨[], []⟩, rr⟩,
      ready := m :: s.ready,
      nodeTasks := (m, NStage.atLoad) :: rest } := by
  have hperm := popTask_perm hpt
  have hmemT : (m, NStage.atVisit) ∈ s.nodeTasks := popTask_mem hpt
  have hrest_sub := popTask_rest_sub hpt
  have hseenm : m ∈ s.seen := inv.task_seen _ hmemT
  have hnready : m ∉ s.ready := inv.atVisit_not_ready m hmemT
  have hnodup2 : (m :: rest.map Prod.fst).Nodup :=
    ((hperm.map Prod.fst).nodup_iff).mp inv.task_names_nodup
  have htne : ∀ t ∈ rest, t.1 ≠ m := by
    intro t ht hc
    have hm2 : m ∈ rest.map Prod.fst := by
      rw [← hc]
      exact List.mem_map_of_mem Prod.fst ht
    exact (List.nodup_cons.mp hnodup2).1 hm2
  have hsuccm : alFind s.ust.retReqs m = none := by
    cases hf : alFind s.ust.retReqs m with
    | none => rfl
    | some rs => exact absurd (inv.succ_ready m (by rw [hf]; rfl)) hnready
  refine ⟨inv.pan, ?_, ?_, ?_, ?_, ?_, ?_, ?_, ?_, ?_, ?_, ?_, ?_, ?_, ?_, ?_,
    ?_, ?_, ?_, ?_, ?_, ?_, ?_, ?_⟩
  · dsimp only
    exact alSet_keys_nodup _ _ _ inv.succ_keys_nodup
  · dsimp only
    intro n hn
    by_cases hnm : n = m
    · rw [hnm]
      exact List.mem_cons_self _ _
    · rw [alFind_alSet_other _ _ _ _ hnm] at hn
      exact List.mem_cons_of_mem _ (inv.succ_ready n hn)
  · dsimp only
    intro x hx
    rcases List.mem_cons.mp hx with h1 | h1
    · rw [h1]
      exact hseenm
    · exact inv.ready_seen x h1
  · dsimp only
    exact inv.seen_univ
  · dsimp only
    exact inv.pend_child_univ
  · dsimp only
    intro x hx
    rcases inv.seen_ror x hx with h1 | h1
    · exact Or.inl (List.mem_cons_of_mem _ h1)
    · have h2 := hperm.mem_iff.mp h1
      rcases List.mem_cons.mp h2 with h3 | h3
      · have hxm : x = m := congrArg Prod.fst h3
        refine Or.inl ?_
        rw [hxm]
        exact List.mem_cons_self _ _
      · exact Or.inr (List.mem_cons_of_mem _ h3)
  · dsimp only
    intro x hx
    rcases inv.seen_link x hx with h1 | h1 | h1
    · exact Or.inl h1
    · exact Or.inr (Or.inl (List.mem_cons_of_mem _ h1))
    · exact Or.inr (Or.inr h1)
  · dsimp only
    intro t ht
    rcases List.mem_cons.mp ht with h1 | h1
    · rw [h1]
      exact hseenm
    · exact inv.task_seen t (hrest_sub t h1)
  · dsimp only
    exact hnodup2
  · dsimp only
    intro x hx
    rcases List.mem_cons.mp hx with h1 | h1
    · exact absurd (congrArg Prod.snd h1) (by simp)
    · intro hc
      rcases List.mem_cons.mp hc with h2 | h2
      · exact htne _ h1 h2
      · exact inv.atVisit_not_ready x (hrest_sub _ h1) h2
  · dsimp only
    intro t ht hst
    rcases List.mem_cons.mp ht with h1 | h1
    · have h1m : t.1 = m := congrArg Prod.fst h1
      rw [h1m, alFind_alSet_self]
      rfl
    · have := inv.late_succ t (hrest_sub t h1) hst
      exact alFind_alSet_isSome m ⟨[], []⟩ this
  · dsimp only
    intro t ht rem hrem
    rcases List.mem_cons.mp ht with h1 | h1
    · rw [h1] at hrem
      exact absurd hrem (by simp)
    · exact inv.task_enq_sub t (hrest_sub t h1) rem hrem
  · dsimp only
    intro e he
    rcases inv.pend_par e he with h1 | ⟨p, hpo, hps, hch⟩
    · exact Or.inl h1
    · exact Or.inr ⟨p, hpo, alFind_alSet_isSome m ⟨[], []⟩ hps, hch⟩
  · dsimp only
    intro e he
    exact ⟨alFind_alSet_isSome m ⟨[], []⟩ (inv.etask_par e he).1,
      (inv.etask_par e he).2⟩
  · dsimp only
    intro x hx
    rcases List.mem_cons.mp hx with h1 | h1
    · rw [h1, alFind_alSet_self]
      rfl
    · by_cases hp : x.path = m.path
      · rw [hp, alFind_alSet_self]
        rfl
      · rw [alFind_alSet_other _ _ _ _ hp]
        exact inv.ready_maxm x h1
  · dsimp only
    intro pth v hfind
    by_cases hp : pth = m.path
    · subst hp
      rw [alFind_alSet_self] at hfind
      refine ⟨m, ?_, rfl, Option.some.inj hfind⟩
      rw [alFind_alSet_self]
      rfl
    · rw [alFind_alSet_other _ _ _ _ hp] at hfind
      rcases inv.maxm_sound pth v hfind with ⟨n, hns, hnp, hnv⟩
      exact ⟨n, alFind_alSet_isSome m ⟨[], []⟩ hns, hnp, hnv⟩
  · dsimp only
    intro hrf a b ha hb hab
    rcases hfb hrf with ⟨hrf0, hmxnone⟩
    by_cases ham : a = m
    · by_cases hbm : b = m
      · rw [ham, hbm]
      · rw [alFind_alSet_other _ _ _ _ hbm] at hb
        have hbs := inv.ready_maxm b (inv.succ_ready b hb)
        rw [ham] at hab
        rw [← hab, hmxnone] at hbs
        exact absurd hbs (by simp)
    · by_cases hbm : b = m
      · rw [alFind_alSet_other _ _ _ _ ham] at ha
        have has := inv.ready_maxm a (inv.succ_ready a ha)
        rw [hbm] at hab
        rw [hab, hmxnone] at has
        exact absurd has (by simp)
      · rw [alFind_alSet_other _ _ _ _ ham] at ha
        rw [alFind_alSet_other _ _ _ _ hbm] at hb
        exact inv.one_per_path hrf0 a b ha hb hab
  · dsimp only
    intro hrf p rs hrs
    rcases hfb hrf with ⟨hrf0, _⟩
    by_cases hpm : p = m
    · subst hpm
      rw [alFind_alSet_self] at hrs
      have hrse : rs = ⟨[], []⟩ := (Option.some.inj hrs).symm
      rw [hrse]
      exact ⟨fun x hx => absurd hx (List.not_mem_nil x),
        fun x hx => absurd hx (List.not_mem_nil x)⟩
    · rw [alFind_alSet_other _ _ _ _ hpm] at hrs
      rcases inv.rec_sound hrf0 p rs hrs with ⟨hd, hi⟩
      refine ⟨fun x hx => ?_, fun x hx => ?_⟩
      · rcases hd x hx with ⟨hxs, c, hc, hcp⟩
        exact ⟨alFind_alSet_isSome m ⟨[], []⟩ hxs, c, hc, hcp⟩
      · rcases hi x hx with ⟨hxs, c, hc, hcp⟩
        exact ⟨alFind_alSet_isSome m ⟨[], []⟩ hxs, c, hc, hcp⟩
  · dsimp only
    intro x hx
    rcases inv.root_first x hx with h1 | h1
    · exact Or.inl h1
    · exact Or.inr (List.mem_cons_of_mem _ h1)
  · dsimp only
    intro hrf hr
    rcases hfb hrf with ⟨hrf0, _⟩
    rcases List.mem_cons.mp hr with h1 | h1
    · constructor
      · rw [h1, alFind_alSet_self]
        rfl
      · rw [if_pos h1.symm, h1]
    · have hold := inv.root_ready hrf0 h1
      constructor
      · by_cases hrm : g.root = m
        · rw [hrm, alFind_alSet_self]
          rfl
        · rw [alFind_alSet_other _ _ _ _ hrm]
          exact hold.1
      · by_cases hmr : m = g.root
        · rw [if_pos hmr, hmr]
        · rw [if_neg hmr]
          exact hold.2
  · dsimp only
    by_cases hmr : m = g.root
    · rw [if_pos hmr, hmr]
      exact Or.inr rfl
    · rw [if_neg hmr]
      exact inv.retRoot_val
  · dsimp only
    intro hrf n hn
    rcases hfb hrf with ⟨hrf0, _⟩
    have hmono : ∀ q x, x ∈ uLinks s q → x ∈ uLinks { s with
        ust := ⟨alSet s.ust.maxm m.path m.version,
          if m = g.root then some m else s.ust.retRoot,
          alSet s.ust.retReqs m ⟨[], []⟩, rr⟩,
        ready := m :: s.ready,
        nodeTasks := (m, NStage.atLoad) :: rest } q := by
      intro q x hx
      rcases uLinks_mem.mp hx with ⟨rs, hrs, hcase⟩
      have hqm : q ≠ m := by
        intro hc
        rw [hc, hsuccm] at hrs
        exact absurd hrs (by simp)
      refine uLinks_mem.mpr ⟨rs, ?_, hcase⟩
      dsimp only
      rw [alFind_alSet_other _ _ _ _ hqm]
      exact hrs
    by_cases hnm : n = m
    · subst hnm
      by_cases hmr : n = g.root
      · rw [hmr]
        exact Reaches.refl
      · rcases inv.seen_link n hseenm with h1 | h1 | ⟨e, he, hem⟩
        · exact absurd h1 hmr
        · exact absurd h1 hnready
        · rcases e with ⟨p, x2, c⟩
          simp only [] at hem
          rw [hem] at he
          have hep := inv.etask_par (p, n, c) he
          have hpready : p ∈ s.ready := inv.succ_ready p hep.1
          have hpm : p ≠ n := fun hc => hnready (hc ▸ hpready)
          have hreachp := reaches_mono hmono (inv.reach hrf0 p hep.1)
          refine Reaches.step hreachp ?_
          rcases Option.isSome_iff_exists.mp hep.1 with ⟨rs2, hrs2⟩
          refine uLinks_mem.mpr ⟨rs2, ?_, Or.inr (Or.inr (Or.inr ⟨c, he⟩))⟩
          dsimp only
          rw [alFind_alSet_other _ _ _ _ hpm]
          exact hrs2
    · rw [alFind_alSet_other _ _ _ _ hnm] at hn
      exact reaches_mono hmono (inv.reach hrf0 n hn)
  · dsimp only
    exact inv.start_latch

theorem u1_visit {g : RGraph} {s s2 : UW} {m : ModuleId}
    (htf : ∀ a ∈ graphUniv g, ∀ b ∈ graphUniv g, a.path = b.path →
      semverCompare a.version b.version = 0 → a = b)
    (h : ustepW g s (UAct.visitNode m) = some s2)
    (inv : U1Inv g s) : U1Inv g s2 := by
  simp only [ustepW] at h
  cases hpt : popTask s.nodeTasks m with
  | none =>
    rw [hpt] at h
    exact absurd h (by simp)
  | some r =>
    rcases r with ⟨st, rest⟩
    rw [hpt] at h
    cases st
    case atLoad => exact absurd h (by simp)
    case enq rem => exact absurd h (by simp)
    case atVisit =>
    simp only [] at h
    injection h with h2
    subst h2
    have hmemT : (m, NStage.atVisit) ∈ s.nodeTasks := popTask_mem hpt
    have hseenm : m ∈ s.seen := inv.task_seen _ hmemT
    have hnready : m ∉ s.ready := inv.atVisit_not_ready m hmemT
    have hunivm : m ∈ graphUniv g := inv.seen_univ m hseenm
    cases hmx : alFind s.ust.maxm m.path with
    | none =>
      have huv : uNodeVisit g.root s.ust m =
          (⟨alSet s.ust.maxm m.path m.version,
            if m = g.root then some m else s.ust.retRoot,
            alSet s.ust.retReqs m ⟨[], []⟩, s.ust.restart⟩, true) := by
        unfold uNodeVisit
        rw [hmx]
      rw [huv]
      dsimp only
      rw [if_pos rfl]
      exact u1_visit_core hpt inv (fun hr => ⟨hr, hmx⟩)
    | some mv =>
      by_cases hlt : semverCompare m.version mv < 0
      · have huv : uNodeVisit g.root s.ust m = (s.ust, false) := by
          unfold uNodeVisit
          rw [hmx]
          simp only []
          rw [if_pos hlt]
        rw [huv]
        dsimp only
        rw [if_neg Bool.false_ne_true]
        have hperm := popTask_perm hpt
        have hrest_sub := popTask_rest_sub hpt
        have hnodup2 : (m :: rest.map Prod.fst).Nodup :=
          ((hperm.map Prod.fst).nodup_iff).mp inv.task_names_nodup
        have htne : ∀ t ∈ rest, t.1 ≠ m := by
          intro t ht hc
          have hm2 : m ∈ rest.map Prod.fst := by
            rw [← hc]
            exact List.mem_map_of_mem Prod.fst ht
          exact (List.nodup_cons.mp hnodup2).1 hm2
        refine ⟨inv.pan, inv.succ_keys_nodup, ?_, ?_, inv.seen_univ,
          inv.pend_child_univ, ?_, ?_, ?_, ?_, ?_, ?_, ?_, inv.pend_par,
          inv.etask_par, ?_, inv.maxm_sound, inv.one_per_path, inv.rec_sound,
          ?_, ?_, inv.retRoot_val, inv.reach, inv.start_latch⟩
        · dsimp only
          intro n hn
          exact List.mem_cons_of_mem _ (inv.succ_ready n hn)
        · dsimp only
          intro x hx
          rcases List.mem_cons.mp hx with h1 | h1
          · rw [h1]
            exact hseenm
          · exact inv.ready_seen x h1
        · dsimp only
          intro x hx
          rcases inv.seen_ror x hx with h1 | h1
          · exact Or.inl (List.mem_cons_of_mem _ h1)
          · have h2 := hperm.mem_iff.mp h1
            rcases List.mem_cons.mp h2 with h3 | h3
            · have hxm : x = m := congrArg Prod.fst h3
              refine Or.inl ?_
              rw [hxm]
              exact List.mem_cons_self _ _
            · exact Or.inr h3
        · dsimp only
          intro x hx
          rcases inv.seen_link x hx with h1 | h1 | h1
          · exact Or.inl h1
          · exact Or.inr (Or.inl (List.mem_cons_of_mem _ h1))
          · exact Or.inr (Or.inr h1)
        · dsimp only
          intro t ht
          exact inv.task_seen t (hrest_sub t ht)
        · dsimp only
          exact (List.nodup_cons.mp hnodup2).2
        · dsimp only
          intro x hx
          intro hc
          rcases List.mem_cons.mp hc with h2 | h2
          · exact htne _ hx h2
          · exact inv.atVisit_not_ready x (hrest_sub _ hx) h2
        · dsimp only
          intro t ht hst
          exact inv.late_succ t (hrest_sub t ht) hst
        · dsimp only
          intro t ht rem hrem
          exact inv.task_enq_sub t (hrest_sub t ht) rem hrem
        · dsimp only
          intro x hx
          rcases List.mem_cons.mp hx with h1 | h1
          · rw [h1, hmx]
            rfl
          · exact inv.ready_maxm x h1
        · dsimp only
          intro x hx
          rcases inv.root_first x hx with h1 | h1
          · exact Or.inl h1
          · exact Or.inr (List.mem_cons_of_mem _ h1)
        · dsimp only
          intro hrf hr
          rcases List.mem_cons.mp hr with h1 | h1
          · exfalso
            rcases inv.maxm_sound m.path mv hmx with ⟨n, hns, hnp, hnv⟩
            have hnr : n ∈ s.ready := inv.succ_ready n hns
            have hnseen : n ∈ s.seen := inv.ready_seen n hnr
            rcases inv.root_first n hnseen with h2 | h2
            · rw [h2, h1] at hnr
              exact hnready hnr
            · rw [h1] at h2
              exact hnready h2
          · exact inv.root_ready hrf h1
      · have huv : uNodeVisit g.root s.ust m =
            (⟨alSet s.ust.maxm m.path m.version,
              if m = g.root then some m else s.ust.retRoot,
              alSet s.ust.retReqs m ⟨[], []⟩,
              if 0 < semverCompare m.version mv then true
                else s.ust.restart⟩, true) := by
          unfold uNodeVisit
          rw [hmx]
          simp only []
          rw [if_neg hlt]
        rw [huv]
        dsimp only
        rw [if_pos rfl]
        refine u1_visit_core hpt inv ?_
        intro hrfc
        exfalso
        by_cases hgt : 0 < semverCompare m.version mv
        · rw [if_pos hgt] at hrfc
          exact absurd hrfc (by simp)
        · rw [if_neg hgt] at hrfc
          have hcmp0 : semverCompare m.version mv = 0 := by omega
          rcases inv.maxm_sound m.path mv hmx with ⟨n, hns, hnp, hnv⟩
          have hnready2 : n ∈ s.ready := inv.succ_ready n hns
          have hnuniv : n ∈ graphUniv g :=
            inv.seen_univ n (inv.ready_seen n hnready2)
          have heq : m = n := htf m hunivm n hnuniv hnp.symm (by rw [hnv]; exact hcmp0)
          rw [heq] at hnready
          exact hnready hnready2

theorem u1_load_rest {g : RGraph} {s : UW} {m : ModuleId}
    {rest : List (ModuleId × NStage ModuleId Bool)} {b : Bool}
    (hpt : popTask s.nodeTasks m = some (NStage.atLoad, rest))
    (inv : U1Inv g s) :
    U1Inv g { s with failed := b, nodeTasks := rest } := by
  have hperm := popTask_perm hpt
  have hrest_sub := popTask_rest_sub hpt
  have hnodup2 : (m :: rest.map Prod.fst).Nodup :=
    ((hperm.map Prod.fst).nodup_iff).mp inv.task_names_nodup
  refine ⟨inv.pan, inv.succ_keys_nodup, inv.succ_ready, inv.ready_seen,
    inv.seen_univ, inv.pend_child_univ, ?_, inv.seen_link, ?_, ?_, ?_, ?_, ?_,
    inv.pend_par, inv.etask_par, inv.ready_maxm, inv.maxm_sound,
    inv.one_per_path, inv.rec_sound, inv.root_first, inv.root_ready,
    inv.retRoot_val, inv.reach, inv.start_latch⟩
  · dsimp only
    intro x hx
    rcases inv.seen_ror x hx with h1 | h1
    · exact Or.inl h1
    · have h2 := hperm.mem_iff.mp h1
      rcases List.mem_cons.mp h2 with h3 | h3
      · exact absurd (congrArg Prod.snd h3) (by simp)
      · exact Or.inr h3
  · dsimp only
    intro t ht
    exact inv.task_seen t (hrest_sub t ht)
  · dsimp only
    exact (List.nodup_cons.mp hnodup2).2
  · dsimp only
    intro x hx
    exact inv.atVisit_not_ready x (hrest_sub _ hx)
  · dsimp only
    intro t ht hst
    exact inv.late_succ t (hrest_sub t ht) hst
  · dsimp only
    intro t ht rem hrem
    exact inv.task_enq_sub t (hrest_sub t ht) rem hrem

theorem u1_load {g : RGraph} {s s2 : UW} {m : ModuleId}
    (h : ustepW g s (UAct.loadStep m) = some s2)
    (inv : U1Inv g s) : U1Inv g s2 := by
  simp only [ustepW] at h
  cases hpt : popTask s.nodeTasks m with
  | none =>
    rw [hpt] at h
    exact absurd h (by simp)
  | some r =>
    rcases r with ⟨st, rest⟩
    rw [hpt] at h
    cases st
    case atVisit => exact absurd h (by simp)
    case enq rem => exact absurd h (by simp)
    case atLoad =>
    simp only [] at h
    have hperm := popTask_perm hpt
    have hmemT : (m, NStage.atLoad) ∈ s.nodeTasks := popTask_mem hpt
    have hrest_sub := popTask_rest_sub hpt
    have hseenm : m ∈ s.seen := inv.task_seen _ hmemT
    have hsucc : (alFind s.ust.retReqs m).isSome :=
      inv.late_succ _ hmemT (by simp)
    have hnodup2 : (m :: rest.map Prod.fst).Nodup :=
      ((hperm.map Prod.fst).nodup_iff).mp inv.task_names_nodup
    cases hrf : reqsFind g m with
    | none =>
      rw [hrf] at h
      injection h with h2
      subst h2
      exact u1_load_rest hpt inv
    | some rs0 =>
      rw [hrf] at h
      injection h with h2
      subst h2
      cases huc : uChildren g m with
      | nil =>
        simp only []
        exact u1_load_rest hpt inv
      | cons e0 es0 =>
        simp only []
        refine ⟨inv.pan, inv.succ_keys_nodup, inv.succ_ready, inv.ready_seen,
          inv.seen_univ, inv.pend_child_univ, ?_, inv.seen_link, ?_, ?_, ?_,
          ?_, ?_, inv.pend_par, inv.etask_par, inv.ready_maxm, inv.maxm_sound,
          inv.one_per_path, inv.rec_sound, inv.root_first, inv.root_ready,
          inv.retRoot_val, inv.reach, inv.start_latch⟩
        · dsimp only
          intro x hx
          rcases inv.seen_ror x hx with h1 | h1
          · exact Or.inl h1
          · have h2 := hperm.mem_iff.mp h1
            rcases List.mem_cons.mp h2 with h3 | h3
            · exact absurd (congrArg Prod.snd h3) (by simp)
            · exact Or.inr (List.mem_cons_of_mem _ h3)
        · dsimp only
          intro t ht
          rcases List.mem_cons.mp ht with h1 | h1
          · rw [h1]
            exact hseenm
          · exact inv.task_seen t (hrest_sub t h1)
        · dsimp only
          exact hnodup2
        · dsimp only
          intro x hx
          rcases List.mem_cons.mp hx with h1 | h1
          · exact absurd (congrArg Prod.snd h1) (by simp)
          · exact inv.atVisit_not_ready x (hrest_sub _ h1)
        · dsimp only
          intro t ht hst
          rcases List.mem_cons.mp ht with h1 | h1
          · have h1m : t.1 = m := congrArg Prod.fst h1
            rw [h1m]
            exact hsucc
          · exact inv.late_succ t (hrest_sub t h1) hst
        · dsimp only
          intro t ht rem hrem
          rcases List.mem_cons.mp ht with h1 | h1
          · subst h1
            simp only [] at hrem
            injection hrem with h3
            intro e he
            rw [← h3] at he
            dsimp only
            rw [huc]
            exact he
          · exact inv.task_enq_sub t (hrest_sub t h1) rem hrem

theorem u1_enq {g : RGraph} {s s2 : UW} {m : ModuleId}
    (h : ustepW g s (UAct.enqEdge m) = some s2)
    (inv : U1Inv g s) : U1Inv g s2 := by
  simp only [ustepW] at h
  cases hpt : popTask s.nodeTasks m with
  | none =>
    rw [hpt] at h
    exact absurd h (by simp)
  | some r =>
    rcases r with ⟨st, rest⟩
    rw [hpt] at h
    cases st
    case atVisit => exact absurd h (by simp)
    case atLoad => exact absurd h (by simp)
    case enq es =>
    cases es with
    | nil => exact absurd h (by simp)
    | cons e2 rem =>
      rcases e2 with ⟨c, col⟩
      simp only [] at h
      injection h with h2
      subst h2
      have hperm := popTask_perm hpt
      have hmemT : (m, NStage.enq ((c, col) :: rem)) ∈ s.nodeTasks :=
        popTask_mem hpt
      have hrest_sub := popTask_rest_sub hpt
      have hseenm : m ∈ s.seen := inv.task_seen _ hmemT
      have hsucc : (alFind s.ust.retReqs m).isSome :=
        inv.late_succ _ hmemT (by simp)
      have hchild : ∀ e ∈ (c, col) :: rem, e ∈ uChildren g m :=
        inv.task_enq_sub _ hmemT _ rfl
      have hccol : (c, col) ∈ uChildren g m := hchild _ (List.mem_cons_self _ _)
      have hrem_sub : ∀ e ∈ rem, e ∈ uChildren g m :=
        fun e he => hchild e (List.mem_cons_of_mem _ he)
      have hnodup2 : (m :: rest.map Prod.fst).Nodup :=
        ((hperm.map Prod.fst).nodup_iff).mp inv.task_names_nodup
      have hmono : ∀ q x, x ∈ uLinks s q → x ∈ uLinks { s with
          pending := s.pending ++ [(some m, c, col)],
          nodeTasks := match rem with
            | [] => rest
            | _ => (m, NStage.enq rem) :: rest } q := by
        intro q x hx
        rcases uLinks_mem.mp hx with ⟨rs, hrs, hcase⟩
        refine uLinks_mem.mpr ⟨rs, hrs, ?_⟩
        rcases hcase with h1 | h1 | ⟨c2, h1⟩ | ⟨c2, h1⟩
        · exact Or.inl h1
        · exact Or.inr (Or.inl h1)
        · refine Or.inr (Or.inr (Or.inl ⟨c2, ?_⟩))
          dsimp only
          exact List.mem_append.mpr (Or.inl h1)
        · exact Or.inr (Or.inr (Or.inr ⟨c2, h1⟩))
      refine ⟨inv.pan, inv.succ_keys_nodup, inv.succ_ready, inv.ready_seen,
        inv.seen_univ, ?_, ?_, inv.seen_link, ?_, ?_, ?_, ?_, ?_, ?_,
        inv.etask_par, inv.ready_maxm, inv.maxm_sound, inv.one_per_path,
        inv.rec_sound, inv.root_first, inv.root_ready, inv.retRoot_val,
        ?_, ?_⟩
      · dsimp only
        intro e he
        rcases List.mem_append.mp he with h1 | h1
        · exact inv.pend_child_univ e h1
        · have h2 : e = (some m, c, col) := List.mem_singleton.mp h1
          rw [h2]
          exact uChildren_univ (c, col) hccol
      · dsimp only
        intro x hx
        rcases inv.seen_ror x hx with h1 | h1
        · exact Or.inl h1
        · have h2 := hperm.mem_iff.mp h1
          rcases List.mem_cons.mp h2 with h3 | h3
          · exact absurd (congrArg Prod.snd h3) (by simp)
          · refine Or.inr ?_
            cases rem
            · exact h3
            · exact List.mem_cons_of_mem _ h3
      · dsimp only
        intro t ht
        cases rem with
        | nil => exact inv.task_seen t (hrest_sub t ht)
        | cons r0 rs0 =>
          rcases List.mem_cons.mp ht with h1 | h1
          · rw [h1]
            exact hseenm
          · exact inv.task_seen t (hrest_sub t h1)
      · dsimp only
        cases rem with
        | nil => exact (List.nodup_cons.mp hnodup2).2
        | cons r0 rs0 => exact hnodup2
      · dsimp only
        intro x hx
        cases rem with
        | nil => exact inv.atVisit_not_ready x (hrest_sub _ hx)
        | cons r0 rs0 =>
          rcases List.mem_cons.mp hx with h1 | h1
          · exact absurd (congrArg Prod.snd h1) (by simp)
          · exact inv.atVisit_not_ready x (hrest_sub _ h1)
      · dsimp only
        intro t ht hst
        cases rem with
        | nil => exact inv.late_succ t (hrest_sub t ht) hst
        | cons r0 rs0 =>
          rcases List.mem_cons.mp ht with h1 | h1
          · have h1m : t.1 = m := congrArg Prod.fst h1
            rw [h1m]
            exact hsucc
          · exact inv.late_succ t (hrest_sub t h1) hst
      · dsimp only
        intro t ht rem2 hrem2
        cases rem with
        | nil => exact inv.task_enq_sub t (hrest_sub t ht) rem2 hrem2
        | cons r0 rs0 =>
          rcases List.mem_cons.mp ht with h1 | h1
          · subst h1
            simp only [] at hrem2
            injection hrem2 with h3
            intro e he
            rw [← h3] at he
            dsimp only
            exact hrem_sub e he
          · exact inv.task_enq_sub t (hrest_sub t h1) rem2 hrem2
      · dsimp only
        intro e he
        rcases List.mem_append.mp he with h1 | h1
        · rcases inv.pend_par e h1 with h2 | ⟨p, hpo, hps, hch⟩
          · exact Or.inl h2
          · exact Or.inr ⟨p, hpo, hps, hch⟩
        · have h2 : e = (some m, c, col) := List.mem_singleton.mp h1
          rw [h2]
          exact Or.inr ⟨m, rfl, hsucc, hccol⟩
      · dsimp only
        intro hrf n hn
        exact reaches_mono hmono (inv.reach hrf n hn)
      · dsimp only
        rcases inv.start_latch with h1 | h1
        · exact Or.inl h1
        · exact Or.inr (List.mem_append.mpr (Or.inl h1))

theorem moduleId_ext {a b : ModuleId} (h1 : a.path = b.path)
    (h2 : a.version = b.version) : a = b := by
  cases a
  cases b
  dsimp only at h1 h2
  rw [h1, h2]

theorem u1_fire_core {g : RGraph} {s : UW} {j : Nat} {p m : ModuleId} {c : Bool}
    {rs newrs : ReqSets}
    (hg : s.edgeTasks.get? j = some (p, m, c))
    (hm : m ∈ s.ready)
    (hrr : alFind s.ust.retReqs p = some rs)
    (hd_sub : ∀ x ∈ rs.d, x ∈ newrs.d)
    (hi_sub : ∀ x ∈ rs.i, x ∈ newrs.i)
    (hd_char : ∀ x ∈ newrs.d,
      (x = (⟨m.path, (alFind s.ust.maxm m.path).getD ""⟩ : ModuleId) ∧ c = false) ∨
        x ∈ rs.d)
    (hi_char : ∀ x ∈ newrs.i,
      (x = (⟨m.path, (alFind s.ust.maxm m.path).getD ""⟩ : ModuleId) ∧ c = true) ∨
        x ∈ rs.i)
    (htgtd : c = false →
      (⟨m.path, (alFind s.ust.maxm m.path).getD ""⟩ : ModuleId) ∈ newrs.d)
    (htgti : c = true →
      (⟨m.path, (alFind s.ust.maxm m.path).getD ""⟩ : ModuleId) ∈ newrs.i)
    (inv : U1Inv g s) :
    U1Inv g { s with
      edgeTasks := s.edgeTasks.eraseIdx j,
      ust := ⟨s.ust.maxm, s.ust.retRoot, alSet s.ust.retReqs p newrs,
        s.ust.restart⟩ } := by
  have hmemE : (p, m, c) ∈ s.edgeTasks := get_mem_of_get? hg
  have hpermE : s.edgeTasks.Perm ((p, m, c) :: s.edgeTasks.eraseIdx j) :=
    get_eraseIdx_perm hg
  have hep := inv.etask_par (p, m, c) hmemE
  have hpsucc : (alFind s.ust.retReqs p).isSome := hep.1
  have hmv := inv.ready_maxm m hm
  rcases Option.isSome_iff_exists.mp hmv with ⟨mv2, hmv2⟩
  rcases inv.maxm_sound m.path mv2 hmv2 with ⟨n0, hn0s, hn0p, hn0v⟩
  have htgt_eq : (⟨m.path, (alFind s.ust.maxm m.path).getD ""⟩ : ModuleId) = n0 := by
    refine moduleId_ext hn0p.symm ?_
    dsimp only
    rw [hmv2, hn0v]
    rfl
  have htgt_succ : (alFind s.ust.retReqs
      (⟨m.path, (alFind s.ust.maxm m.path).getD ""⟩ : ModuleId)).isSome := by
    rw [htgt_eq]
    exact hn0s
  have hsucc2_iff : ∀ x : ModuleId,
      (alFind (alSet s.ust.retReqs p newrs) x).isSome ↔
        (alFind s.ust.retReqs x).isSome := by
    intro x
    by_cases hx : x = p
    · subst hx
      rw [alFind_alSet_self]
      constructor
      · intro _
        exact hpsucc
      · intro _
        rfl
    · rw [alFind_alSet_other _ _ _ _ hx]
  refine ⟨inv.pan, ?_, ?_, inv.ready_seen, inv.seen_univ, inv.pend_child_univ,
    inv.seen_ror, ?_, inv.task_seen, inv.task_names_nodup,
    inv.atVisit_not_ready, ?_, inv.task_enq_sub, ?_, ?_, inv.ready_maxm, ?_,
    ?_, ?_, inv.root_first, ?_, inv.retRoot_val, ?_, inv.start_latch⟩
  · dsimp only
    exact alSet_keys_nodup _ _ _ inv.succ_keys_nodup
  · dsimp only
    intro n hn
    exact inv.succ_ready n ((hsucc2_iff n).mp hn)
  · dsimp only
    intro x hx
    rcases inv.seen_link x hx with h1 | h1 | ⟨e, he, hec⟩
    · exact Or.inl h1
    · exact Or.inr (Or.inl h1)
    · have h2 := hpermE.mem_iff.mp he
      rcases List.mem_cons.mp h2 with h3 | h3
      · refine Or.inr (Or.inl ?_)
        rw [← hec, h3]
        exact hm
      · exact Or.inr (Or.inr ⟨e, h3, hec⟩)
  · dsimp only
    intro t ht hst
    exact (hsucc2_iff t.1).mpr (inv.late_succ t ht hst)
  · dsimp only
    intro e he
    rcases inv.pend_par e he with h1 | ⟨q, hpo, hps, hch⟩
    · exact Or.inl h1
    · exact Or.inr ⟨q, hpo, (hsucc2_iff q).mpr hps, hch⟩
  · dsimp only
    intro e he
    have hold := inv.etask_par e (eraseIdx_sub e he)
    exact ⟨(hsucc2_iff e.1).mpr hold.1, hold.2⟩
  · dsimp only
    intro pth v hf
    rcases inv.maxm_sound pth v hf with ⟨n, hns, hnp, hnv⟩
    exact ⟨n, (hsucc2_iff n).mpr hns, hnp, hnv⟩
  · dsimp only
    intro hrf a b ha hb hab
    exact inv.one_per_path hrf a b ((hsucc2_iff a).mp ha)
      ((hsucc2_iff b).mp hb) hab
  · dsimp only
    intro hrf q rs2 hrs2
    by_cases hq : q = p
    · subst hq
      rw [alFind_alSet_self] at hrs2
      have hrse : newrs = rs2 := Option.some.inj hrs2
      subst hrse
      have hold := inv.rec_sound hrf q rs hrr
      refine ⟨?_, ?_⟩
      · intro x hx
        rcases hd_char x hx with ⟨hxe, hcf⟩ | hxd
        · subst hxe
          refine ⟨(hsucc2_iff _).mpr htgt_succ, m, ?_, rfl⟩
          rw [← hcf]
          exact hep.2
        · rcases hold.1 x hxd with ⟨hxs, ch, hch, hchp⟩
          exact ⟨(hsucc2_iff x).mpr hxs, ch, hch, hchp⟩
      · intro x hx
        rcases hi_char x hx with ⟨hxe, hct⟩ | hxi
        · subst hxe
          refine ⟨(hsucc2_iff _).mpr htgt_succ, m, ?_, rfl⟩
          rw [← hct]
          exact hep.2
        · rcases hold.2 x hxi with ⟨hxs, ch, hch, hchp⟩
          exact ⟨(hsucc2_iff x).mpr hxs, ch, hch, hchp⟩
    · rw [alFind_alSet_other _ _ _ _ hq] at hrs2
      rcases inv.rec_sound hrf q rs2 hrs2 with ⟨hd0, hi0⟩
      refine ⟨fun x hx => ?_, fun x hx => ?_⟩
      · rcases hd0 x hx with ⟨hxs, ch, hch, hchp⟩
        exact ⟨(hsucc2_iff x).mpr hxs, ch, hch, hchp⟩
      · rcases hi0 x hx with ⟨hxs, ch, hch, hchp⟩
        exact ⟨(hsucc2_iff x).mpr hxs, ch, hch, hchp⟩
  · dsimp only
    intro hrf h1
    have hold := inv.root_ready hrf h1
    exact ⟨(hsucc2_iff _).mpr hold.1, hold.2⟩
  · dsimp only
    intro hrf n hn
    have hn0 : (alFind s.ust.retReqs n).isSome := (hsucc2_iff n).mp hn
    refine reaches_transfer (fun q x hx => uLinks_src hx)
      (fun q x hsx hx => ?_) (inv.reach hrf n hn0) hn0
    rcases uLinks_mem.mp hx with ⟨rsq, hrsq, hcase⟩
    by_cases hqp : q = p
    · subst hqp
      have hrsq2 : rsq = rs := Option.some.inj (hrsq.symm.trans hrr)
      refine uLinks_mem.mpr ⟨newrs, ?_, ?_⟩
      · dsimp only
        rw [alFind_alSet_self]
      · rcases hcase with h1 | h1 | ⟨c2, h1⟩ | ⟨c2, h1⟩
        · rw [hrsq2] at h1
          exact Or.inl (hd_sub x h1)
        · rw [hrsq2] at h1
          exact Or.inr (Or.inl (hi_sub x h1))
        · exact Or.inr (Or.inr (Or.inl ⟨c2, h1⟩))
        · have h2 := hpermE.mem_iff.mp h1
          rcases List.mem_cons.mp h2 with h3 | h3
          · have hxm : x = m ∧ c2 = c := by
              injection h3 with a1 a2
              injection a2 with a3 a4
              exact ⟨a3, a4⟩
            have hmm : alFind s.ust.maxm m.path = some m.version :=
              u1_maxm_exact inv hrf (hxm.1 ▸ hsx)
            have htm : (⟨m.path, (alFind s.ust.maxm m.path).getD ""⟩ :
                ModuleId) = m := by
              rw [hmm]
              rfl
            cases hc : c with
            | false =>
              refine Or.inl ?_
              rw [hxm.1, ← htm]
              exact htgtd hc
            | true =>
              refine Or.inr (Or.inl ?_)
              rw [hxm.1, ← htm]
              exact htgti hc
          · exact Or.inr (Or.inr (Or.inr ⟨c2, h3⟩))
    · refine uLinks_mem.mpr ⟨rsq, ?_, ?_⟩
      · dsimp only
        rw [alFind_alSet_other _ _ _ _ hqp]
        exact hrsq
      · rcases hcase with h1 | h1 | ⟨c2, h1⟩ | ⟨c2, h1⟩
        · exact Or.inl h1
        · exact Or.inr (Or.inl h1)
        · exact Or.inr (Or.inr (Or.inl ⟨c2, h1⟩))
        · have h2 := hpermE.mem_iff.mp h1
          rcases List.mem_cons.mp h2 with h3 | h3
          · exact absurd (congrArg (fun e => e.1) h3) hqp
          · exact Or.inr (Or.inr (Or.inr ⟨c2, h3⟩))

theorem u1_fire {g : RGraph} {s s2 : UW} {j : Nat}
    (h : ustepW g s (UAct.fireEdge j) = some s2)
    (inv : U1Inv g s) : U1Inv g s2 := by
  simp only [ustepW] at h
  cases hg : s.edgeTasks.get? j with
  | none =>
    rw [hg] at h
    exact absurd h (by simp)
  | some e =>
    rcases e with ⟨p, m, c⟩
    rw [hg] at h
    simp only [] at h
    have hmemE : (p, m, c) ∈ s.edgeTasks := get_mem_of_get? hg
    have hep := inv.etask_par (p, m, c) hmemE
    have hpready : p ∈ s.ready := inv.succ_ready p hep.1
    by_cases hm : m ∈ s.ready
    · rw [if_pos hm, if_pos hpready] at h
      cases hev : uEdgeVisit s.ust p m c with
      | none =>
        unfold uEdgeVisit at hev
        by_cases hdrop : p.version ≠ (alFind s.ust.maxm p.path).getD ""
        · rw [if_pos hdrop] at hev
          exact absurd hev (by simp)
        · rw [if_neg hdrop] at hev
          cases hrr : alFind s.ust.retReqs p with
          | some rs =>
            rw [hrr] at hev
            exact absurd hev (by simp)
          | none =>
            have hps := hep.1
            rw [hrr] at hps
            exact absurd hps (by simp)
      | some σ2 =>
        rw [hev] at h
        injection h with h2
        subst h2
        unfold uEdgeVisit at hev
        by_cases hdrop : p.version ≠ (alFind s.ust.maxm p.path).getD ""
        · rw [if_pos hdrop] at hev
          have hσ : s.ust = σ2 := Option.some.inj hev
          subst hσ
          refine ⟨inv.pan, inv.succ_keys_nodup, inv.succ_ready, inv.ready_seen,
            inv.seen_univ, inv.pend_child_univ, inv.seen_ror, ?_, inv.task_seen,
            inv.task_names_nodup, inv.atVisit_not_ready, inv.late_succ,
            inv.task_enq_sub, inv.pend_par, ?_, inv.ready_maxm, inv.maxm_sound,
            inv.one_per_path, inv.rec_sound, inv.root_first, inv.root_ready,
            inv.retRoot_val, ?_, inv.start_latch⟩
          · dsimp only
            intro x hx
            rcases inv.seen_link x hx with h1 | h1 | ⟨e, he, hec⟩
            · exact Or.inl h1
            · exact Or.inr (Or.inl h1)
            · have h2 := (get_eraseIdx_perm hg).mem_iff.mp he
              rcases List.mem_cons.mp h2 with h3 | h3
              · refine Or.inr (Or.inl ?_)
                rw [← hec, h3]
                exact hm
              · exact Or.inr (Or.inr ⟨e, h3, hec⟩)
          · dsimp only
            intro e he
            exact inv.etask_par e (eraseIdx_sub e he)
          · dsimp only
            intro hrf n hn
            exfalso
            apply hdrop
            rw [u1_maxm_exact inv hrf hep.1]
            rfl
        · rw [if_neg hdrop] at hev
          cases hrr : alFind s.ust.retReqs p with
          | none =>
            rw [hrr] at hev
            exact absurd hev (by simp)
          | some rs =>
            rw [hrr] at hev
            simp only [] at hev
            have hσ := Option.some.inj hev
            subst hσ
            refine u1_fire_core hg hm hrr ?_ ?_ ?_ ?_ ?_ ?_ inv
            · intro x hx
              cases c with
              | false =>
                simp only [Bool.false_eq_true, if_false]
                exact uAdd_sub x hx
              | true =>
                simp only [if_pos rfl, if_true]
                exact hx
            · intro x hx
              cases c with
              | false =>
                simp only [Bool.false_eq_true, if_false]
                exact hx
              | true =>
                simp only [if_pos rfl, if_true]
                exact uAdd_sub x hx
            · intro x hx
              cases c with
              | false =>
                simp only [Bool.false_eq_true, if_false] at hx
                rcases uAdd_mem.mp hx with h1 | h1
                · exact Or.inl ⟨h1, rfl⟩
                · exact Or.inr h1
              | true =>
                simp only [if_pos rfl, if_true] at hx
                exact Or.inr hx
            · intro x hx
              cases c with
              | false =>
                simp only [Bool.false_eq_true, if_false] at hx
                exact Or.inr hx
              | true =>
                simp only [if_pos rfl, if_true] at hx
                rcases uAdd_mem.mp hx with h1 | h1
                · exact Or.inl ⟨h1, rfl⟩
                · exact Or.inr h1
            · intro hc
              subst hc
              simp only [Bool.false_eq_true, if_false]
              exact uAdd_self
            · intro hc
              subst hc
              simp only [if_pos rfl, if_true]
              exact uAdd_self
    · rw [if_neg hm] at h
      exact absurd h (by simp)

theorem u1_run {g : RGraph}
    (htf : ∀ a ∈ graphUniv g, ∀ b ∈ graphUniv g, a.path = b.path →
      semverCompare a.version b.version = 0 → a = b) :
    ∀ {acts : List UAct} {s s2 : UW}, urunW g s acts = some s2 →
      U1Inv g s → U1Inv g s2 := by
  intro acts
  induction acts with
  | nil =>
    intro s s2 h inv
    simp only [urunW] at h
    rw [← Option.some.inj h]
    exact inv
  | cons a rest ih =>
    intro s s2 h inv
    simp only [urunW] at h
    cases hst : ustepW g s a with
    | none =>
      rw [hst] at h
      exact absurd h (by simp)
    | some s1 =>
      rw [hst] at h
      simp only [] at h
      have inv1 : U1Inv g s1 := by
        cases a with
        | process i => exact u1_process hst inv
        | visitNode m => exact u1_visit htf hst inv
        | loadStep m => exact u1_load hst inv
        | enqEdge m => exact u1_enq hst inv
        | fireEdge j => exact u1_fire hst inv
      exact ih h inv1

theorem alFind_of_mem_nodup {α β : Type} [DecidableEq α] :
    ∀ {l : List (α × β)} {k : α} {v : β}, (l.map Prod.fst).Nodup →
      (k, v) ∈ l → alFind l k = some v := by
  intro l
  induction l with
  | nil =>
    intro k v _ h
    exact absurd h (List.not_mem_nil _)
  | cons e rest ih =>
    intro k v hnd h
    simp only [List.map_cons, List.nodup_cons] at hnd
    rw [alFind_cons]
    rcases List.mem_cons.mp h with h1 | h1
    · rw [← h1]
      rw [if_pos rfl]
    · by_cases he : e.1 = k
      · exfalso
        apply hnd.1
        rw [he]
        exact List.mem_map_of_mem Prod.fst h1
      · rw [if_neg he]
        exact ih hnd.2 h1

theorem unified_univ_keys {g : RGraph} (hU : Unified g) :
    ∀ m ∈ graphUniv g, m ∈ gKeys g := by
  intro m hm
  unfold graphUniv at hm
  rcases List.mem_cons.mp hm with h1 | h1
  · rw [h1]
    exact hU.root_mem
  · rcases List.mem_bind.mp h1 with ⟨e, he, hme⟩
    have hek : e.1 ∈ gKeys g := List.mem_map_of_mem Prod.fst he
    have hfind : reqsFind g e.1 = some e.2 := by
      rw [reqsFind_eq_alFind]
      exact alFind_of_mem_nodup hU.keys_nodup he
    have hch : m ∈ childrenOf g e.1 := by
      unfold childrenOf
      rw [hfind]
      exact hme
    exact hU.closed e.1 hek m hch

theorem unified_htf {g : RGraph} (hU : Unified g) :
    ∀ a ∈ graphUniv g, ∀ b ∈ graphUniv g, a.path = b.path →
      semverCompare a.version b.version = 0 → a = b := by
  intro a ha b hb hab _
  exact hU.one_per_path a (unified_univ_keys hU a ha) b
    (unified_univ_keys hU b hb) hab

theorem u1_final {g : RGraph} {s : UW} (inv : U1Inv g s) (hdone : UDone s)
    (hrf : s.ust.restart = false) : Unified (outG s) := by
  rcases hdone with ⟨hpend, htasks, hetasks, _⟩
  have hroot_seen : g.root ∈ s.seen := by
    rcases inv.start_latch with h1 | h1
    · exact h1
    · rw [hpend] at h1
      exact absurd h1 (List.not_mem_nil _)
  have hroot_ready : g.root ∈ s.ready := by
    rcases inv.seen_ror g.root hroot_seen with h1 | h1
    · exact h1
    · rw [htasks] at h1
      exact absurd h1 (List.not_mem_nil _)
  have hrr := inv.root_ready hrf hroot_ready
  have hkeys : ∀ x : ModuleId,
      x ∈ gKeys (outG s) ↔ (alFind s.ust.retReqs x).isSome := by
    intro x
    exact alFind_isSome_iff.symm
  have hor : (outG s).root = g.root := by
    have h0 : (outG s).root = s.ust.retRoot.getD ⟨"", ""⟩ := rfl
    rw [h0, hrr.2]
    rfl
  have hcf : ∀ q rs, alFind s.ust.retReqs q = some rs →
      childrenOf (outG s) q = rs.d ++ rs.i := by
    intro q rs hrs
    unfold childrenOf
    rw [show reqsFind (outG s) q = alFind s.ust.retReqs q from rfl, hrs]
  refine ⟨inv.succ_keys_nodup, ?_, ?_, ?_, ?_⟩
  · intro a ha b hb hab
    exact inv.one_per_path hrf a b ((hkeys a).mp ha) ((hkeys b).mp hb) hab
  · rw [hor]
    exact (hkeys g.root).mpr hrr.1
  · intro m hm c hc
    have hms := (hkeys m).mp hm
    rcases Option.isSome_iff_exists.mp hms with ⟨rs, hrs⟩
    rw [hcf m rs hrs] at hc
    rcases inv.rec_sound hrf m rs hrs with ⟨hd, hi⟩
    rcases List.mem_append.mp hc with h1 | h1
    · exact (hkeys c).mpr (hd c h1).1
    · exact (hkeys c).mpr (hi c h1).1
  · intro m hm
    have hms := (hkeys m).mp hm
    have hr := inv.reach hrf m hms
    rw [hor]
    refine reaches_mono ?_ hr
    intro q x hx
    rcases uLinks_mem.mp hx with ⟨rs, hrs, hcase⟩
    rw [hcf q rs hrs]
    rcases hcase with h1 | h1 | ⟨c2, h1⟩ | ⟨c2, h1⟩
    · exact List.mem_append.mpr (Or.inl h1)
    · exact List.mem_append.mpr (Or.inr h1)
    · rw [hpend] at h1
      exact absurd h1 (List.not_mem_nil _)
    · rw [hetasks] at h1
      exact absurd h1 (List.not_mem_nil _)

/-- Second-run invariant: on an already-unified input graph no restart is
ever flagged, every ready node is recorded, and every requirement edge of a
recorded node is recorded or still in flight (queued, tasked, or waiting in
an unfinished load). -/
structure U2Inv (g : RGraph) (s : UW) : Prop where
  u1 : U1Inv g s
  rf : s.ust.restart = false
  ready_succ : ∀ m ∈ s.ready, (alFind s.ust.retReqs m).isSome
  flow : ∀ p : ModuleId, (alFind s.ust.retReqs p).isSome →
    ∀ e ∈ uChildren g p,
      (∃ rs, alFind s.ust.retReqs p = some rs ∧
        (if e.2 then e.1 ∈ rs.i else e.1 ∈ rs.d)) ∨
      (some p, e.1, e.2) ∈ s.pending ∨
      (p, e.1, e.2) ∈ s.edgeTasks ∨
      (∃ rem, (p, NStage.enq rem) ∈ s.nodeTasks ∧ e ∈ rem) ∨
      (p, NStage.atLoad) ∈ s.nodeTasks

theorem uinit_u2inv (g : RGraph) : U2Inv g (uinit g) := by
  refine ⟨uinit_u1inv g, rfl, ?_, ?_⟩
  · intro m hm
    simp [uinit] at hm
  · intro p hp
    simp [uinit, alFind] at hp

theorem u2_process {g : RGraph} {s s2 : UW} {i : Nat}
    (h : ustepW g s (UAct.process i) = some s2)
    (inv : U2Inv g s) : U2Inv g s2 := by
  have hu1 := u1_process h inv.u1
  simp only [ustepW] at h
  cases hg : s.pending.get? i with
  | none =>
    rw [hg] at h
    exact absurd h (by simp)
  | some e =>
    rcases e with ⟨po, m, c⟩
    rw [hg] at h
    simp only [] at h
    injection h with h2
    subst h2
    have hperm : s.pending.Perm ((po, m, c) :: s.pending.eraseIdx i) :=
      get_eraseIdx_perm hg
    refine ⟨hu1, inv.rf, inv.ready_succ, ?_⟩
    dsimp only
    intro p hp e2 he2
    rcases inv.flow p hp e2 he2 with h1 | h1 | h1 | h1 | h1
    · exact Or.inl h1
    · have h3 := hperm.mem_iff.mp h1
      rcases List.mem_cons.mp h3 with h4 | h4
      · have hpo : po = some p ∧ m = e2.1 ∧ c = e2.2 := by
          injection h4 with a1 a2
          injection a2 with a3 a4
          exact ⟨a1.symm, a3.symm, a4.symm⟩
        refine Or.inr (Or.inr (Or.inl ?_))
        rw [hpo.1]
        simp only []
        rw [← hpo.2.1, ← hpo.2.2]
        exact List.mem_cons_self _ _
      · exact Or.inr (Or.inl h4)
    · refine Or.inr (Or.inr (Or.inl ?_))
      cases po
      · exact h1
      · exact List.mem_cons_of_mem _ h1
    · rcases h1 with ⟨rem, hrem, herem⟩
      refine Or.inr (Or.inr (Or.inr (Or.inl ⟨rem, ?_, herem⟩)))
      by_cases hseen : m ∈ s.seen
      · rw [if_pos hseen]
        exact hrem
      · rw [if_neg hseen]
        exact List.mem_cons_of_mem _ hrem
    · refine Or.inr (Or.inr (Or.inr (Or.inr ?_)))
      by_cases hseen : m ∈ s.seen
      · rw [if_pos hseen]
        exact h1
      · rw [if_neg hseen]
        exact List.mem_cons_of_mem _ h1

theorem u2_visit {g : RGraph} {s s2 : UW} {m : ModuleId} (hU : Unified g)
    (h : ustepW g s (UAct.visitNode m) = some s2)
    (inv : U2Inv g s) : U2Inv g s2 := by
  have hu1 := u1_visit (unified_htf hU) h inv.u1
  simp only [ustepW] at h
  cases hpt : popTask s.nodeTasks m with
  | none =>
    rw [hpt] at h
    exact absurd h (by simp)
  | some r =>
    rcases r with ⟨st, rest⟩
    rw [hpt] at h
    cases st
    case atLoad => exact absurd h (by simp)
    case enq rem => exact absurd h (by simp)
    case atVisit =>
    simp only [] at h
    injection h with h2
    subst h2
    have hperm := popTask_perm hpt
    have hmemT : (m, NStage.atVisit) ∈ s.nodeTasks := popTask_mem hpt
    have hseenm : m ∈ s.seen := inv.u1.task_seen _ hmemT
    have hnready : m ∉ s.ready := inv.u1.atVisit_not_ready m hmemT
    have hkeym : m ∈ gKeys g :=
      unified_univ_keys hU m (inv.u1.seen_univ m hseenm)
    have hmx : alFind s.ust.maxm m.path = none := by
      cases hmx0 : alFind s.ust.maxm m.path with
      | none => rfl
      | some mv =>
        exfalso
        rcases inv.u1.maxm_sound m.path mv hmx0 with ⟨n, hns, hnp, _⟩
        have hnr : n ∈ s.ready := inv.u1.succ_ready n hns
        have hnk : n ∈ gKeys g := unified_univ_keys hU n
          (inv.u1.seen_univ n (inv.u1.ready_seen n hnr))
        have hmn : m = n := hU.one_per_path m hkeym n hnk hnp.symm
        rw [← hmn] at hnr
        exact hnready hnr
    have huv : uNodeVisit g.root s.ust m =
        (⟨alSet s.ust.maxm m.path m.version,
          if m = g.root then some m else s.ust.retRoot,
          alSet s.ust.retReqs m ⟨[], []⟩, s.ust.restart⟩, true) := by
      unfold uNodeVisit
      rw [hmx]
    rw [huv] at hu1 ⊢
    dsimp only
    rw [if_pos rfl]
    refine ⟨?_, inv.rf, ?_, ?_⟩
    · have hres : (if (true : Bool) = true then
          ((m, NStage.atLoad) :: rest : List (ModuleId × NStage ModuleId Bool))
          else rest) = (m, NStage.atLoad) :: rest := by
        rw [if_pos rfl]
      rw [← hres]
      exact hu1
    · dsimp only
      intro x hx
      rcases List.mem_cons.mp hx with h1 | h1
      · rw [h1, alFind_alSet_self]
        rfl
      · by_cases hxm : x = m
        · rw [hxm, alFind_alSet_self]
          rfl
        · rw [alFind_alSet_other _ _ _ _ hxm]
          exact inv.ready_succ x h1
    · dsimp only
      intro p hp e2 he2
      by_cases hpm : p = m
      · subst hpm
        exact Or.inr (Or.inr (Or.inr (Or.inr (List.mem_cons_self _ _))))
      · rw [alFind_alSet_other _ _ _ _ hpm] at hp
        rcases inv.flow p hp e2 he2 with h1 | h1 | h1 | h1 | h1
        · rcases h1 with ⟨rs, hrs, hin⟩
          refine Or.inl ⟨rs, ?_, hin⟩
          rw [alFind_alSet_other _ _ _ _ hpm]
          exact hrs
        · exact Or.inr (Or.inl h1)
        · exact Or.inr (Or.inr (Or.inl h1))
        · rcases h1 with ⟨rem, hrem, herem⟩
          have h3 := hperm.mem_iff.mp hrem
          rcases List.mem_cons.mp h3 with h4 | h4
          · exact absurd (congrArg Prod.fst h4) hpm
          · exact Or.inr (Or.inr (Or.inr (Or.inl
              ⟨rem, List.mem_cons_of_mem _ h4, herem⟩)))
        · have h3 := hperm.mem_iff.mp h1
          rcases List.mem_cons.mp h3 with h4 | h4
          · exact absurd (congrArg Prod.fst h4) hpm
          · exact Or.inr (Or.inr (Or.inr (Or.inr (List.mem_cons_of_mem _ h4))))

theorem u2_load {g : RGraph} {s s2 : UW} {m : ModuleId} (hU : Unified g)
    (h : ustepW g s (UAct.loadStep m) = some s2)
    (inv : U2Inv g s) : U2Inv g s2 := by
  have hu1 := u1_load h inv.u1
  simp only [ustepW] at h
  cases hpt : popTask s.nodeTasks m with
  | none =>
    rw [hpt] at h
    exact absurd h (by simp)
  | some r =>
    rcases r with ⟨st, rest⟩
    rw [hpt] at h
    cases st
    case atVisit => exact absurd h (by simp)
    case enq rem => exact absurd h (by simp)
    case atLoad =>
    simp only [] at h
    have hperm := popTask_perm hpt
    have hmemT : (m, NStage.atLoad) ∈ s.nodeTasks := popTask_mem hpt
    have hrest_sub := popTask_rest_sub hpt
    have hkeym : m ∈ gKeys g := unified_univ_keys hU m
      (inv.u1.seen_univ m (inv.u1.task_seen _ hmemT))
    cases hrf2 : reqsFind g m with
    | none =>
      exfalso
      have hs := reqsFind_isSome_iff.mpr hkeym
      rw [hrf2] at hs
      exact absurd hs (by simp)
    | some rs0 =>
      rw [hrf2] at h
      injection h with h2
      subst h2
      cases huc : uChildren g m with
      | nil =>
        simp only []
        rw [huc] at hu1
        refine ⟨hu1, inv.rf, inv.ready_succ, ?_⟩
        dsimp only
        intro p hp e2 he2
        by_cases hpm : p = m
        · subst hpm
          rw [huc] at he2
          exact absurd he2 (List.not_mem_nil _)
        · rcases inv.flow p hp e2 he2 with h1 | h1 | h1 | h1 | h1
          · exact Or.inl h1
          · exact Or.inr (Or.inl h1)
          · exact Or.inr (Or.inr (Or.inl h1))
          · rcases h1 with ⟨rem, hrem, herem⟩
            have h3 := hperm.mem_iff.mp hrem
            rcases List.mem_cons.mp h3 with h4 | h4
            · exact absurd (congrArg Prod.fst h4) hpm
            · exact Or.inr (Or.inr (Or.inr (Or.inl ⟨rem, h4, herem⟩)))
          · have h3 := hperm.mem_iff.mp h1
            rcases List.mem_cons.mp h3 with h4 | h4
            · exact absurd (congrArg Prod.fst h4) hpm
            · exact Or.inr (Or.inr (Or.inr (Or.inr h4)))
      | cons e0 es0 =>
        simp only []
        rw [huc] at hu1
        refine ⟨hu1, inv.rf, inv.ready_succ, ?_⟩
        dsimp only
        intro p hp e2 he2
        by_cases hpm : p = m
        · subst hpm
          rw [huc] at he2
          exact Or.inr (Or.inr (Or.inr (Or.inl
            ⟨e0 :: es0, List.mem_cons_self _ _, he2⟩)))
        · rcases inv.flow p hp e2 he2 with h1 | h1 | h1 | h1 | h1
          · exact Or.inl h1
          · exact Or.inr (Or.inl h1)
          · exact Or.inr (Or.inr (Or.inl h1))
          · rcases h1 with ⟨rem, hrem, herem⟩
            have h3 := hperm.mem_iff.mp hrem
            rcases List.mem_cons.mp h3 with h4 | h4
            · exact absurd (congrArg Prod.fst h4) hpm
            · exact Or.inr (Or.inr (Or.inr (Or.inl
                ⟨rem, List.mem_cons_of_mem _ h4, herem⟩)))
          · have h3 := hperm.mem_iff.mp h1
            rcases List.mem_cons.mp h3 with h4 | h4
            · exact absurd (congrArg Prod.fst h4) hpm
            · exact Or.inr (Or.inr (Or.inr (Or.inr (List.mem_cons_of_mem _ h4))))

theorem u2_enq {g : RGraph} {s s2 : UW} {m : ModuleId}
    (h : ustepW g s (UAct.enqEdge m) = some s2)
    (inv : U2Inv g s) : U2Inv g s2 := by
  have hu1 := u1_enq h inv.u1
  simp only [ustepW] at h
  cases hpt : popTask s.nodeTasks m with
  | none =>
    rw [hpt] at h
    exact absurd h (by simp)
  | some r =>
    rcases r with ⟨st, rest⟩
    rw [hpt] at h
    cases st
    case atVisit => exact absurd h (by simp)
    case atLoad => exact absurd h (by simp)
    case enq es =>
    cases es with
    | nil => exact absurd h (by simp)
    | cons e2h rem =>
      rcases e2h with ⟨c0, col0⟩
      simp only [] at h
      injection h with h2
      subst h2
      have hperm := popTask_perm hpt
      have hmemT : (m, NStage.enq ((c0, col0) :: rem)) ∈ s.nodeTasks :=
        popTask_mem hpt
      have hrest_sub := popTask_rest_sub hpt
      have hnodup2 : (m :: rest.map Prod.fst).Nodup :=
        ((hperm.map Prod.fst).nodup_iff).mp inv.u1.task_names_nodup
      refine ⟨hu1, inv.rf, inv.ready_succ, ?_⟩
      dsimp only
      intro p hp e2 he2
      rcases inv.flow p hp e2 he2 with h1 | h1 | h1 | h1 | h1
      · exact Or.inl h1
      · exact Or.inr (Or.inl (List.mem_append.mpr (Or.inl h1)))
      · exact Or.inr (Or.inr (Or.inl h1))
      · rcases h1 with ⟨rem0, hrem0, herem0⟩
        have h3 := hperm.mem_iff.mp hrem0
        rcases List.mem_cons.mp h3 with h4 | h4
        · have hpe : p = m ∧ rem0 = (c0, col0) :: rem := by
            injection h4 with a1 a2
            injection a2 with a3
            exact ⟨a1, a3⟩
          rw [hpe.2] at herem0
          rcases List.mem_cons.mp herem0 with h5 | h5
          · refine Or.inr (Or.inl ?_)
            rw [hpe.1, h5]
            exact List.mem_append.mpr (Or.inr (List.mem_singleton.mpr rfl))
          · cases rem with
            | nil => exact absurd h5 (List.not_mem_nil _)
            | cons r1 rem1 =>
              refine Or.inr (Or.inr (Or.inr (Or.inl ⟨r1 :: rem1, ?_, h5⟩)))
              rw [hpe.1]
              exact List.mem_cons_self _ _
        · refine Or.inr (Or.inr (Or.inr (Or.inl ⟨rem0, ?_, herem0⟩)))
          cases rem with
          | nil => exact h4
          | cons r1 rem1 => exact List.mem_cons_of_mem _ h4
      · have h3 := hperm.mem_iff.mp h1
        rcases List.mem_cons.mp h3 with h4 | h4
        · exact absurd (congrArg Prod.snd h4) (by simp)
        · refine Or.inr (Or.inr (Or.inr (Or.inr ?_)))
          cases rem with
          | nil => exact h4
          | cons r1 rem1 => exact List.mem_cons_of_mem _ h4

theorem u2_fire {g : RGraph} {s s2 : UW} {j : Nat}
    (h : ustepW g s (UAct.fireEdge j) = some s2)
    (inv : U2Inv g s) : U2Inv g s2 := by
  have hu1 := u1_fire h inv.u1
  simp only [ustepW] at h
  cases hg : s.edgeTasks.get? j with
  | none =>
    rw [hg] at h
    exact absurd h (by simp)
  | some e =>
    rcases e with ⟨p, m0, c0⟩
    rw [hg] at h
    simp only [] at h
    have hmemE : (p, m0, c0) ∈ s.edgeTasks := get_mem_of_get? hg
    have hpermE : s.edgeTasks.Perm ((p, m0, c0) :: s.edgeTasks.eraseIdx j) :=
      get_eraseIdx_perm hg
    have hep := inv.u1.etask_par (p, m0, c0) hmemE
    have hpready : p ∈ s.ready := inv.u1.succ_ready p hep.1
    have hpmax : alFind s.ust.maxm p.path = some p.version :=
      u1_maxm_exact inv.u1 inv.rf hep.1
    have hndrop : ¬ p.version ≠ (alFind s.ust.maxm p.path).getD "" := by
      intro hc
      apply hc
      rw [hpmax]
      rfl
    by_cases hm : m0 ∈ s.ready
    · rw [if_pos hm, if_pos hpready] at h
      have hm0s := inv.ready_succ m0 hm
      have hm0max : alFind s.ust.maxm m0.path = some m0.version :=
        u1_maxm_exact inv.u1 inv.rf hm0s
      have htm : (⟨m0.path, (alFind s.ust.maxm m0.path).getD ""⟩ :
          ModuleId) = m0 := by
        rw [hm0max]
        rfl
      cases hev : uEdgeVisit s.ust p m0 c0 with
      | none =>
        unfold uEdgeVisit at hev
        rw [if_neg hndrop] at hev
        cases hrr : alFind s.ust.retReqs p with
        | some rs =>
          rw [hrr] at hev
          exact absurd hev (by simp)
        | none =>
          have hps := hep.1
          rw [hrr] at hps
          exact absurd hps (by simp)
      | some σ2 =>
        rw [hev] at h
        injection h with h2
        subst h2
        unfold uEdgeVisit at hev
        rw [if_neg hndrop] at hev
        cases hrr : alFind s.ust.retReqs p with
        | none =>
          have hps := hep.1
          rw [hrr] at hps
          exact absurd hps (by simp)
        | some rs =>
          rw [hrr] at hev
          simp only [] at hev
          have hσ := Option.some.inj hev
          subst hσ
          refine ⟨hu1, inv.rf, ?_, ?_⟩
          · dsimp only
            intro x hx
            by_cases hxp : x = p
            · rw [hxp, alFind_alSet_self]
              rfl
            · rw [alFind_alSet_other _ _ _ _ hxp]
              exact inv.ready_succ x hx
          · dsimp only
            intro q hq e2 he2
            rcases e2 with ⟨e21, e22⟩
            have hq0 : (alFind s.ust.retReqs q).isSome := by
              by_cases hqp : q = p
              · rw [hqp]
                exact hep.1
              · rw [alFind_alSet_other _ _ _ _ hqp] at hq
                exact hq
            rcases inv.flow q hq0 (e21, e22) he2 with h1 | h1 | h1 | h1 | h1
            · rcases h1 with ⟨rs1, hrs1, hin⟩
              by_cases hqp : q = p
              · subst hqp
                have hrs1e : rs1 = rs := Option.some.inj (hrs1.symm.trans hrr)
                subst hrs1e
                refine Or.inl ⟨_, alFind_alSet_self _ _ _, ?_⟩
                cases hc : c0 with
                | false =>
                  cases he22 : e22 with
                  | false =>
                    rw [he22] at hin
                    exact uAdd_sub _ hin
                  | true =>
                    rw [he22] at hin
                    exact hin
                | true =>
                  cases he22 : e22 with
                  | false =>
                    rw [he22] at hin
                    exact hin
                  | true =>
                    rw [he22] at hin
                    exact uAdd_sub _ hin
              · refine Or.inl ⟨rs1, ?_, hin⟩
                rw [alFind_alSet_other _ _ _ _ hqp]
                exact hrs1
            · exact Or.inr (Or.inl h1)
            · have h3 := hpermE.mem_iff.mp h1
              rcases List.mem_cons.mp h3 with h4 | h4
              · have hqe : q = p ∧ e21 = m0 ∧ e22 = c0 := by
                  injection h4 with a1 a2
                  injection a2 with a3 a4
                  exact ⟨a1, a3, a4⟩
                rcases hqe with ⟨hq1, hq2, hq3⟩
                subst hq1
                subst hq2
                subst hq3
                refine Or.inl ⟨_, alFind_alSet_self _ _ _, ?_⟩
                cases hc : e22 with
                | false =>
                  rw [htm]
                  exact uAdd_self
                | true =>
                  rw [htm]
                  exact uAdd_self
              · exact Or.inr (Or.inr (Or.inl h4))
            · exact Or.inr (Or.inr (Or.inr (Or.inl h1)))
            · exact Or.inr (Or.inr (Or.inr (Or.inr h1)))
    · rw [if_neg hm] at h
      exact absurd h (by simp)

theorem u2_run {g : RGraph} (hU : Unified g) :
    ∀ {acts : List UAct} {s s2 : UW}, urunW g s acts = some s2 →
      U2Inv g s → U2Inv g s2 := by
  intro acts
  induction acts with
  | nil =>
    intro s s2 h inv
    simp only [urunW] at h
    rw [← Option.some.inj h]
    exact inv
  | cons a rest ih =>
    intro s s2 h inv
    simp only [urunW] at h
    cases hst : ustepW g s a with
    | none =>
      rw [hst] at h
      exact absurd h (by simp)
    | some s1 =>
      rw [hst] at h
      simp only [] at h
      have inv1 : U2Inv g s1 := by
        cases a with
        | process i => exact u2_process hst inv
        | visitNode m => exact u2_visit hU hst inv
        | loadStep m => exact u2_load hU hst inv
        | enqEdge m => exact u2_enq hst inv
        | fireEdge j => exact u2_fire hst inv
      exact ih h inv1

theorem u2_final {g : RGraph} {s : UW} (hU : Unified g) (inv : U2Inv g s)
    (hdone : UDone s) :
    s.ust.restart = false ∧ s.panicked = false ∧ outEquiv s g := by
  rcases hdone with ⟨hpend, htasks, hetasks, _⟩
  have hroot_seen : g.root ∈ s.seen := by
    rcases inv.u1.start_latch with h1 | h1
    · exact h1
    · rw [hpend] at h1
      exact absurd h1 (List.not_mem_nil _)
  have hroot_ready : g.root ∈ s.ready := by
    rcases inv.u1.seen_ror g.root hroot_seen with h1 | h1
    · exact h1
    · rw [htasks] at h1
      exact absurd h1 (List.not_mem_nil _)
  have hrr := inv.u1.root_ready inv.rf hroot_ready
  have hsucc_keys : ∀ n : ModuleId,
      (alFind s.ust.retReqs n).isSome → n ∈ gKeys g := by
    intro n hn
    exact unified_univ_keys hU n (inv.u1.seen_univ n
      (inv.u1.ready_seen n (inv.u1.succ_ready n hn)))
  have hflow_rec : ∀ p : ModuleId, (alFind s.ust.retReqs p).isSome →
      ∀ e ∈ uChildren g p, ∃ rs, alFind s.ust.retReqs p = some rs ∧
        (if e.2 then e.1 ∈ rs.i else e.1 ∈ rs.d) := by
    intro p hp e he
    rcases inv.flow p hp e he with h1 | h1 | h1 | h1 | h1
    · exact h1
    · rw [hpend] at h1
      exact absurd h1 (List.not_mem_nil _)
    · rw [hetasks] at h1
      exact absurd h1 (List.not_mem_nil _)
    · rcases h1 with ⟨rem, hrem, _⟩
      rw [htasks] at hrem
      exact absurd hrem (List.not_mem_nil _)
    · rw [htasks] at h1
      exact absurd h1 (List.not_mem_nil _)
  have hkeys_succ : ∀ n ∈ gKeys g, (alFind s.ust.retReqs n).isSome := by
    intro n hn
    have hreach := hU.reach n hn
    clear hn
    induction hreach with
    | refl => exact hrr.1
    | @step p c2 hp hc ih =>
      rcases uChildren_childrenOf.mpr hc with h1 | h1
      · rcases hflow_rec p ih (c2, false) h1 with ⟨rs, hrs, hin⟩
        exact ((inv.u1.rec_sound inv.rf p rs hrs).1 c2 hin).1
      · rcases hflow_rec p ih (c2, true) h1 with ⟨rs, hrs, hin⟩
        exact ((inv.u1.rec_sound inv.rf p rs hrs).2 c2 hin).1
  refine ⟨inv.rf, inv.u1.pan, hrr.2, ?_, ?_⟩
  · intro n
    exact ⟨hsucc_keys n, hkeys_succ n⟩
  · intro n hn rs rs0 hrs hrs0
    have hn_succ : (alFind s.ust.retReqs n).isSome := by
      rw [hrs]
      rfl
    constructor
    · intro x
      constructor
      · intro hx
        rcases (inv.u1.rec_sound inv.rf n rs hrs).1 x hx with
          ⟨hxs, ch, hch, hpath⟩
        have hxk : x ∈ gKeys g := hsucc_keys x hxs
        have hchk : ch ∈ gKeys g := hU.closed n hn ch
          (uChildren_childrenOf.mp (Or.inl hch))
        have hxc : x = ch := hU.one_per_path x hxk ch hchk hpath
        rw [hxc]
        exact (uChildren_d hrs0).mp hch
      · intro hx
        have hch : (x, false) ∈ uChildren g n := (uChildren_d hrs0).mpr hx
        rcases hflow_rec n hn_succ (x, false) hch with ⟨rs1, hrs1, hin⟩
        have hrse : rs1 = rs := Option.some.inj (hrs1.symm.trans hrs)
        rw [hrse] at hin
        exact hin
    · intro x
      constructor
      · intro hx
        rcases (inv.u1.rec_sound inv.rf n rs hrs).2 x hx with
          ⟨hxs, ch, hch, hpath⟩
        have hxk : x ∈ gKeys g := hsucc_keys x hxs
        have hchk : ch ∈ gKeys g := hU.closed n hn ch
          (uChildren_childrenOf.mp (Or.inr hch))
        have hxc : x = ch := hU.one_per_path x hxk ch hchk hpath
        rw [hxc]
        exact (uChildren_i hrs0).mp hch
      · intro hx
        have hch : (x, true) ∈ uChildren g n := (uChildren_i hrs0).mpr hx
        rcases hflow_rec n hn_succ (x, true) hch with ⟨rs1, hrs1, hin⟩
        have hrse : rs1 = rs := Option.some.inj (hrs1.symm.trans hrs)
        rw [hrse] at hin
        exact hin

/-- C7: amended. UnifyRequirements is idempotent on tie-free graphs: (1) on
any graph whose reachable universe has no two distinct modules with equal
path and semver-equal versions, every complete successful run that ends
without a restart flag produces a unified graph (duplicate-free node set,
one version per path, root a node, edge-closed, all nodes reachable); (2) on
an input that is already unified, every complete successful run ends with no
restart and no panic and returns a graph set-structurally identical to the
input: same root, same node set, and the same direct and immediate-indirect
requirement sets per node. -/
theorem unifyRequirements_idempotent_amended :
    (∀ (g : RGraph) (acts : List UAct) (s : UW),
      (∀ a ∈ graphUniv g, ∀ b ∈ graphUniv g, a.path = b.path →
        semverCompare a.version b.version = 0 → a = b) →
      urunW g (uinit g) acts = some s → UDone s → s.ust.restart = false →
      Unified (outG s)) ∧
    (∀ (g : RGraph) (acts : List UAct) (s : UW),
      Unified g → urunW g (uinit g) acts = some s → UDone s →
      s.ust.restart = false ∧ s.panicked = false ∧ outEquiv s g) := by
  constructor
  · intro g acts s htf hrun hdone hrf
    exact u1_final (u1_run htf hrun (uinit_u1inv g)) hdone hrf
  · intro g acts s hU hrun hdone
    exact u2_final hU (u2_run hU hrun (uinit_u2inv g)) hdone

def gW7 : RGraph :=
  ⟨⟨"r", "v1.0.0"⟩, [(⟨"r", "v1.0.0"⟩, ⟨[⟨"b", "v1.0.0"⟩], []⟩),
    (⟨"b", "v1.0.0"⟩, ⟨[], []⟩)]⟩

def actsW7 : List UAct :=
  [UAct.process 0, UAct.visitNode ⟨"r", "v1.0.0"⟩,
   UAct.loadStep ⟨"r", "v1.0.0"⟩, UAct.enqEdge ⟨"r", "v1.0.0"⟩,
   UAct.process 0, UAct.visitNode ⟨"b", "v1.0.0"⟩,
   UAct.loadStep ⟨"b", "v1.0.0"⟩, UAct.fireEdge 0]

def sW7 : UW :=
  ⟨[], [⟨"b", "v1.0.0"⟩, ⟨"r", "v1.0.0"⟩],
   [⟨"b", "v1.0.0"⟩, ⟨"r", "v1.0.0"⟩], [], [],
   ⟨[("r", "v1.0.0"), ("b", "v1.0.0")], some ⟨"r", "v1.0.0"⟩,
    [(⟨"r", "v1.0.0"⟩, ⟨[⟨"b", "v1.0.0"⟩], []⟩),
     (⟨"b", "v1.0.0"⟩, ⟨[], []⟩)], false⟩, false, false⟩

theorem unified_gW7 : Unified gW7 := by
  refine ⟨by decide, by decide, by decide, by decide, ?_⟩
  intro m hm
  have hm2 : m ∈ [(⟨"r", "v1.0.0"⟩ : ModuleId), ⟨"b", "v1.0.0"⟩] := hm
  rcases List.mem_cons.mp hm2 with h | h
  · rw [h]
    exact Reaches.refl
  · rcases List.mem_cons.mp h with h2 | h2
    · rw [h2]
      exact Reaches.step Reaches.refl (by decide)
    · exact absurd h2 (List.not_mem_nil _)

/-- Witness for C7: a two-node graph (root r requiring b) walked to
completion; the run satisfies both parts of the theorem at concrete
inputs. -/
theorem unifyRequirements_idempotent_amended_witness :
    Unified (outG sW7) ∧ sW7.ust.restart = false ∧ sW7.panicked = false ∧
      outEquiv sW7 gW7 :=
  ⟨unifyRequirements_idempotent_amended.1 gW7 actsW7 sW7 (by decide)
      (by decide) ⟨rfl, rfl, rfl, rfl⟩ rfl,
   unifyRequirements_idempotent_amended.2 gW7 actsW7 sW7 unified_gW7
      (by decide) ⟨rfl, rfl, rfl, rfl⟩⟩

def rgC7 : RGraph :=
  ⟨⟨"a", "v1.0.0"⟩,
   [(⟨"a", "v1.0.0"⟩, ⟨[⟨"p", "v1.0.0+a"⟩, ⟨"p", "v1.0.0+b"⟩], []⟩),
    (⟨"p", "v1.0.0+a"⟩, ⟨[], []⟩),
    (⟨"p", "v1.0.0+b"⟩, ⟨[], []⟩)]⟩

def actsC7a : List UAct :=
  [UAct.process 0, UAct.visitNode ⟨"a", "v1.0.0"⟩,
   UAct.loadStep ⟨"a", "v1.0.0"⟩, UAct.enqEdge ⟨"a", "v1.0.0"⟩,
   UAct.enqEdge ⟨"a", "v1.0.0"⟩, UAct.process 0,
   UAct.visitNode ⟨"p", "v1.0.0+a"⟩, UAct.loadStep ⟨"p", "v1.0.0+a"⟩,
   UAct.process 0, UAct.visitNode ⟨"p", "v1.0.0+b"⟩,
   UAct.loadStep ⟨"p", "v1.0.0+b"⟩, UAct.fireEdge 0, UAct.fireEdge 0]

def sC7a : UW :=
  ⟨[], [⟨"p", "v1.0.0+b"⟩, ⟨"p", "v1.0.0+a"⟩, ⟨"a", "v1.0.0"⟩],
   [⟨"p", "v1.0.0+b"⟩, ⟨"p", "v1.0.0+a"⟩, ⟨"a", "v1.0.0"⟩], [], [],
   ⟨[("a", "v1.0.0"), ("p", "v1.0.0+b")], some ⟨"a", "v1.0.0"⟩,
    [(⟨"a", "v1.0.0"⟩, ⟨[⟨"p", "v1.0.0+b"⟩], []⟩),
     (⟨"p", "v1.0.0+a"⟩, ⟨[], []⟩),
     (⟨"p", "v1.0.0+b"⟩, ⟨[], []⟩)], false⟩, false, false⟩

def actsC7b : List UAct :=
  [UAct.process 0, UAct.visitNode ⟨"a", "v1.0.0"⟩,
   UAct.loadStep ⟨"a", "v1.0.0"⟩, UAct.enqEdge ⟨"a", "v1.0.0"⟩,
   UAct.process 0, UAct.visitNode ⟨"p", "v1.0.0+b"⟩,
   UAct.loadStep ⟨"p", "v1.0.0+b"⟩, UAct.fireEdge 0]

def sC7b : UW :=
  ⟨[], [⟨"p", "v1.0.0+b"⟩, ⟨"a", "v1.0.0"⟩],
   [⟨"p", "v1.0.0+b"⟩, ⟨"a", "v1.0.0"⟩], [], [],
   ⟨[("a", "v1.0.0"), ("p", "v1.0.0+b")], some ⟨"a", "v1.0.0"⟩,
    [(⟨"a", "v1.0.0"⟩, ⟨[⟨"p", "v1.0.0+b"⟩], []⟩),
     (⟨"p", "v1.0.0+b"⟩, ⟨[], []⟩)], false⟩, false, false⟩

/-- Counterexample to C7 as stated: a root requiring p at v1.0.0+a and at
v1.0.0+b (semver-equal but distinct versions). A complete successful run
with no restart keeps both p nodes, with the root edges both bumped to the
later-visited p at v1.0.0+b; rerunning on that output discovers only the
bumped p, so p at v1.0.0+a is a node of the first output but not of the
second: the output is not structurally identical to its own unification. -/
theorem unifyRequirements_not_idempotent :
    urunW rgC7 (uinit rgC7) actsC7a = some sC7a ∧ UDone sC7a ∧
    sC7a.ust.restart = false ∧
    urunW (outG sC7a) (uinit (outG sC7a)) actsC7b = some sC7b ∧
    UDone sC7b ∧ sC7b.ust.restart = false ∧
    (⟨"p", "v1.0.0+a"⟩ : ModuleId) ∈ gKeys (outG sC7a) ∧
    (⟨"p", "v1.0.0+a"⟩ : ModuleId) ∉ gKeys (outG sC7b) := by
  refine ⟨by decide, ⟨rfl, rfl, rfl, rfl⟩, rfl, by decide,
    ⟨rfl, rfl, rfl, rfl⟩, rfl, by decide, by decide⟩

end Gmdg
